import Mathlib

/-!
Verification of the aspen-core file-tree engine (src/Directory.ts,
src/Root.ts, src/FileEntry.ts, src/types.ts).

Modelling conventions.  JavaScript `Uint32Array` flat arrays are `List Nat`,
JS `null`/`undefined` is `Option.none`, node objects are values of the
inductive `FNode` (object identity is represented by the process-unique
integer id that the `FileEntry` constructor assigns from a counter).  The
mutable tree is an `FNode` value threaded through the operations together
with the id counter (`TreeState`).  The upward parent-pointer walks of the
source (`while (!master.flattenedBranch) master = master.parent` and the
recursive `expandBranch`/`shrinkBranch`) are translated to two passes over
the access path from the root: a read-only pass that locates the owning
ancestor (the first node, walking upward, with a non-null flat array) and
computes the splice arguments, and a positional update pass applying the
same field writes.  The walks only read fields they have not yet written
(flat arrays are only tested, branch sizes only incremented or
decremented), so the two-pass translation computes the same final state as
the in-place loops.
-/

namespace Aspen

/-- First index of `x` in `l`, or `none` when absent. -/
def idxOfN : List Nat → Nat → Option Nat
  | [], _ => none
  | a :: l, x => if a = x then some 0 else (idxOfN l x).map (· + 1)

/-- JS `Array.prototype.indexOf` / `TypedArray.prototype.indexOf`: the first
index of `x` as an integer, `-1` when absent.  The `-1` value is live in the
source: `insertItem` adds 1 to it so that a missing leading anchor means
"insert at offset 0". -/
def jsIdx (l : List Nat) (x : Nat) : Int :=
  match idxOfN l x with
  | some n => (n : Int)
  | none => -1

/-- The `spliceTypedArray` helper of Directory.ts (lines 19 to 27): a copy of
`arr` with `delCount` entries removed at `start` and `items` inserted
there. -/
def spliceTA (arr : List Nat) (start delCount : Nat) (items : List Nat) : List Nat :=
  arr.take start ++ items ++ arr.drop (start + delCount)

/-- JS `TypedArray.prototype.slice s e` for the non-negative clamped indices
the algorithms produce. -/
def jsSlice (arr : List Nat) (s e : Nat) : List Nat :=
  (arr.drop s).take (e - s)

/-- Insert `x` into `acc` behind every element that does not compare strictly
greater than it.  Folding a list through this from the left is a stable
comparator sort, which is what `Array.prototype.sort` guarantees (ES2019);
`lt a b` stands for "the comparator returns a negative number on `(a, b)`". -/
def insAfter (lt : α → α → Bool) : List α → α → List α
  | [], x => [x]
  | y :: ys, x => if lt x y then x :: y :: ys else y :: insAfter lt ys x

/-- Stable comparator sort modelling `Array.prototype.sort cmp`. -/
def jsSort (lt : α → α → Bool) (l : List α) : List α :=
  l.foldl (insAfter lt) []

/-- A raw item description returned by the host (`IFileEntryItem` of
types.ts) after it has passed the type checks: a name and a type. -/
structure RawItem where
  name : String
  isDir : Bool

/-- A node of the file tree.  `file` carries the fields of `FileEntry` that
the flattening engine reads (id and name); `dir` additionally carries the
`Directory` state: the `isExpanded` flag, `_children` (`none` until the
first load), `flattenedBranch` (`none` when ownership has been donated to an
ancestor) and `_branchSize`. -/
inductive FNode where
  | file (id : Nat) (name : String) : FNode
  | dir (id : Nat) (name : String) (exp : Bool)
      (children : Option (List FNode)) (flat : Option (List Nat)) (bSize : Nat) : FNode

/-- Id of a node (`FileEntry#id`). -/
def idOf : FNode → Nat
  | .file i _ => i
  | .dir i _ _ _ _ _ => i

/-- Name of a node (`FileEntry#fileName`). -/
def nameOf : FNode → String
  | .file _ s => s
  | .dir _ s _ _ _ _ => s

/-- Whether the node is a `Directory` (`item.type === FileType.Directory`,
also the `instanceof Directory` checks). -/
def isDirN : FNode → Bool
  | .file _ _ => false
  | .dir _ _ _ _ _ _ => true

/-- Expansion flag; files report `false` like the source's
`item instanceof Directory && item.expanded` conjunctions. -/
def expOf : FNode → Bool
  | .file _ _ => false
  | .dir _ _ e _ _ _ => e

/-- The `_children` field; `none` for files (never read there). -/
def childrenOf : FNode → Option (List FNode)
  | .file _ _ => none
  | .dir _ _ _ cs _ _ => cs

/-- The `flattenedBranch` field; `none` for files. -/
def flatOf : FNode → Option (List Nat)
  | .file _ _ => none
  | .dir _ _ _ _ fl _ => fl

/-- The `_branchSize` field; `0` for files. -/
def bSizeOf : FNode → Nat
  | .file _ _ => 0
  | .dir _ _ _ _ _ b => b

/-- Whether `_children` is materialized. -/
def loadedB (n : FNode) : Bool := (childrenOf n).isSome

/-- The default comparator `Directory.defaultSortComparator` (Directory.ts
lines 30 to 39) turned into a strict "sorts before": it returns a negative
number exactly when both nodes are of the same kind and the first name is
smaller, or the first node is a Directory and the second is not. -/
def defaultLt (a b : FNode) : Bool :=
  if isDirN a == isDirN b then decide (nameOf a < nameOf b) else isDirN a

theorem sizeOf_child_lt {c : FNode} {cs : List FNode} (h : c ∈ cs)
    (i : Nat) (s : String) (e : Bool) (fl : Option (List Nat)) (b : Nat) :
    sizeOf c < sizeOf (FNode.dir i s e (some cs) fl b) := by
  have h1 : sizeOf c < sizeOf cs := List.sizeOf_lt_of_mem h
  simp only [FNode.dir.sizeOf_spec, Option.some.sizeOf_spec]
  omega

/-- Depth-first visible sequence contributed by a loaded directory: for each
child its id, followed by the child's own visible sequence when the child is
an expanded directory.  This is the reference meaning of a flat index array;
the source never stores it explicitly, it maintains `flattenedBranch`
incrementally to stay equal to it. -/
def visSeq : FNode → List Nat
  | .file _ _ => []
  | .dir _ _ _ none _ _ => []
  | .dir _ _ _ (some cs) _ _ =>
      cs.attach.flatMap (fun c =>
        match c.1 with
        | .file i _ => [i]
        | .dir i _ e _ _ _ => i :: (if e then visSeq c.1 else []))
termination_by n => sizeOf n
decreasing_by
  exact sizeOf_child_lt c.2 _ _ _ _ _

/-- The block of the visible sequence a single child accounts for. -/
def contrib (c : FNode) : List Nat :=
  match c with
  | .file i _ => [i]
  | .dir i _ e _ _ _ => i :: (if e then visSeq c else [])

/-- Ids of all loaded strict descendants of a node, in preorder. -/
def subIds : FNode → List Nat
  | .file _ _ => []
  | .dir _ _ _ none _ _ => []
  | .dir _ _ _ (some cs) _ _ =>
      cs.attach.flatMap (fun c => idOf c.1 :: subIds c.1)
termination_by n => sizeOf n
decreasing_by
  exact sizeOf_child_lt c.2 _ _ _ _ _

/-- Ids of a node and all its loaded descendants. -/
def allIds (n : FNode) : List Nat := idOf n :: subIds n

/-- Every flat index array currently owned by some node of the tree. -/
def allFlats : FNode → List (List Nat)
  | .file _ _ => []
  | .dir _ _ _ none fl _ => fl.toList
  | .dir _ _ _ (some cs) fl _ =>
      fl.toList ++ cs.attach.flatMap (fun c => allFlats c.1)
termination_by n => sizeOf n
decreasing_by
  exact sizeOf_child_lt c.2 _ _ _ _ _

/-- Children lists stay sorted by the active comparator: pairwise, no later
element sorts strictly before an earlier one. -/
def sortedB : List FNode → Bool
  | [] => true
  | [_] => true
  | a :: b :: l => !defaultLt b a && sortedB (b :: l)

/-- The structural invariant the engine maintains at every node, with
`isRoot` true only at the tree root.  An unloaded directory is collapsed and
owns nothing and counts nothing; a loaded directory has `_branchSize` equal
to the length of its visible sequence, owns `flattenedBranch` exactly when
it is the root or is collapsed (the lowest-owner rule), and in that case the
array is exactly the visible sequence; children are sorted and satisfy the
invariant recursively. -/
def goodB : FNode → Bool → Bool
  | .file _ _, _ => true
  | .dir _ _ e none fl b, _ => (b == 0) && (fl == none) && (e == false)
  | .dir i s e (some cs) fl b, isRoot =>
      (b == (visSeq (.dir i s e (some cs) fl b)).length)
      && (fl == (if isRoot || !e then some (visSeq (.dir i s e (some cs) fl b)) else none))
      && sortedB cs
      && cs.attach.all (fun c => goodB c.1 false)
termination_by n => sizeOf n
decreasing_by
  exact sizeOf_child_lt c.2 _ _ _ _ _

/-- Whole-tree state: the root node plus the value of the process-unique id
counter (`FileEntry.nextId`). -/
structure TreeState where
  root : FNode
  nextId : Nat

/-- Global invariant: structural invariant at the root, no id used twice in
the tree, all ids below the counter. -/
def Inv (s : TreeState) : Prop :=
  goodB s.root true = true ∧ (allIds s.root).Nodup ∧ ∀ i ∈ allIds s.root, i < s.nextId

/-- Resolve a node by its access path, given as the list of child ids to
follow from the starting node (node references of the source become id
paths here; ids are unique in any state satisfying `Inv`). -/
def getAt : List Nat → FNode → Option FNode
  | [], n => some n
  | i :: p, n =>
      match childrenOf n with
      | none => none
      | some cs =>
          match cs.find? (fun c => idOf c == i) with
          | none => none
          | some c => getAt p c

/-- Rewrite the child with the given id in place (other children and all
other fields untouched). -/
def mapChildAt (i : Nat) (f : FNode → FNode) : FNode → FNode
  | .file a b => .file a b
  | .dir a b e none fl bs => .dir a b e none fl bs
  | .dir a b e (some cs) fl bs =>
      .dir a b e (some (cs.map (fun c => if idOf c == i then f c else c))) fl bs

/-- Apply `f` to the node at the given path. -/
def updAt (f : FNode → FNode) : List Nat → FNode → FNode
  | [], n => f n
  | i :: p, n => mapChildAt i (updAt f p) n

/-- Field write `flattenedBranch = fl` (`setFlattenedBranch`). -/
def setFlatF (fl : Option (List Nat)) : FNode → FNode
  | .file a b => .file a b
  | .dir a b e cs _ bs => .dir a b e cs fl bs

/-- Field write `isExpanded = v`. -/
def setExpF (v : Bool) : FNode → FNode
  | .file a b => .file a b
  | .dir a b _ cs fl bs => .dir a b v cs fl bs

/-- Field write `_branchSize += d`. -/
def addB (d : Nat) : FNode → FNode
  | .file a b => .file a b
  | .dir a b e cs fl bs => .dir a b e cs fl (bs + d)

/-- Field write `_branchSize -= d` (never truncates in reachable states). -/
def subB (d : Nat) : FNode → FNode
  | .file a b => .file a b
  | .dir a b e cs fl bs => .dir a b e cs fl (bs - d)

/-- Field write `_children = cs`. -/
def setChildrenF (ocs : Option (List FNode)) : FNode → FNode
  | .file a b => .file a b
  | .dir a b e _ fl bs => .dir a b e ocs fl bs

/-- Whether the node at prefix `q` currently owns a flat array. -/
def hasFlatAt (t : FNode) (q : List Nat) : Bool :=
  match getAt q t with
  | some n => (flatOf n).isSome
  | none => false

/-- Depth (prefix length) of the deepest prefix of `p` of length at most
`bound` whose node owns a flat array: the "master" that the upward
`while (!master.flattenedBranch)` walks of Directory.ts stop at.  The
expand/collapse walks only consider strict ancestors (`bound = p.length - 1`);
insert/unlink start the search at the branch itself (`bound = p.length`).
`none` models the walk finding no owner all the way to the root. -/
def ownerDepth (t : FNode) (p : List Nat) (bound : Nat) : Option Nat :=
  (List.range (bound + 1)).reverse.find? (fun d => hasFlatAt t (p.take d))

/-- The flat array owned at prefix `q`, defaulted to `[]`. -/
def flatAt (t : FNode) (q : List Nat) : List Nat :=
  match getAt q t with
  | some n => (flatOf n).getD []
  | none => []

/-- Update pass of the donation walk `Directory.expandBranch` (Directory.ts
lines 275 to 288) for the branch at path `p`: every strict ancestor at depth
at least the owner depth gains the branch size (`this._branchSize +=
branch._branchSize`), the owner additionally stores the already-computed
spliced array, and the branch itself surrenders its array
(`branch.setFlattenedBranch(null)`) exactly when an owner was found; when no
ancestor owns an array the walk dies at the root having only propagated the
size. -/
def expandApply (brSz : Nat) (od : Option Nat) (newFlat : List Nat) :
    Nat → List Nat → FNode → FNode
  | _, [], n => if od.isSome then setFlatF none n else n
  | d, i :: rest, n =>
      let n1 := if od.isNone || decide (od.getD 0 ≤ d) then addB brSz n else n
      let n2 := if od == some d then setFlatF (some newFlat) n1 else n1
      mapChildAt i (expandApply brSz od newFlat (d + 1) rest) n2

/-- The donation walk `expandBranch branch` as invoked from `setExpanded`
(the read pass computing the owner and the spliced owner array, then the
update pass).  `p = []` is the root donating to itself, which the source's
`else if (this.parent)` guard turns into a no-op. -/
def donateStep (t : FNode) (p : List Nat) : FNode :=
  match p with
  | [] => t
  | _ :: _ =>
      match getAt p t with
      | none => t
      | some br =>
          match ownerDepth t p (p.length - 1) with
          | some d =>
              let F := flatAt t (p.take d)
              let F2 := spliceTA F (jsIdx F (idOf br) + 1).toNat 0 ((flatOf br).getD [])
              expandApply (bSizeOf br) (some d) F2 0 p t
          | none => expandApply (bSizeOf br) none [] 0 p t

/-- Update pass of the reclaim walk `Directory.shrinkBranch` (Directory.ts
lines 290 to 303): every strict ancestor at depth at least the owner depth
loses the branch size, the owner stores the excised array, and the branch
receives the excised slice (`ret`) as its newly owned array exactly when an
owner was found. -/
def shrinkApply (brSz : Nat) (od : Option Nat) (newFlat ret : List Nat) :
    Nat → List Nat → FNode → FNode
  | _, [], n => if od.isSome then setFlatF (some ret) n else n
  | d, i :: rest, n =>
      let n1 := if od.isNone || decide (od.getD 0 ≤ d) then subB brSz n else n
      let n2 := if od == some d then setFlatF (some newFlat) n1 else n1
      mapChildAt i (shrinkApply brSz od newFlat ret (d + 1) rest) n2

/-- The reclaim walk `shrinkBranch branch`: at the owner,
`removalStartIdx = flattenedBranch.indexOf(branch.id) + 1`, the slice of
`branch._branchSize` entries starting there becomes the branch's array, and
that many entries are spliced out of the owner's array. -/
def shrinkStep (t : FNode) (p : List Nat) : FNode :=
  match p with
  | [] => t
  | _ :: _ =>
      match getAt p t with
      | none => t
      | some br =>
          match ownerDepth t p (p.length - 1) with
          | some d =>
              let F := flatAt t (p.take d)
              let start := (jsIdx F (idOf br) + 1).toNat
              let ret := jsSlice F start (start + bSizeOf br)
              let F2 := spliceTA F start ret.length []
              shrinkApply (bSizeOf br) (some d) F2 ret 0 p t
          | none => shrinkApply (bSizeOf br) none [] [] 0 p t

/-- Notifications the modelled operations dispatch through the tree
supervisor (types.ts `ITreeSupervisor`, wired in Root.ts): the pre/post
expansion-state notifications, the pre/post dispose notifications, and the
`BranchDidUpdate` event that `Root.setFlattenedBranch` (Root.ts lines 467 to
470) fires whenever the root's flat array is reassigned. -/
inductive Ev where
  | willExpChange (id : Nat) (nowExpanded : Bool) : Ev
  | didExpChange (id : Nat) (nowExpanded : Bool) : Ev
  | willDispose (id : Nat) : Ev
  | didDispose (id : Nat) : Ev
  | branchUpd : Ev

/-- Id of the node at path `q`, defaulted to 0. -/
def idAtD (t : FNode) (q : List Nat) : Nat :=
  match getAt q t with
  | some n => idOf n
  | none => 0

/-- Fresh node constructed for a raw item (`new (type === Directory ?
Directory : FileEntry)(root, superv, parent, name, metadata)`): directories
start collapsed, unloaded, owning nothing. -/
def mkFresh (i : Nat) (r : RawItem) : FNode :=
  if r.isDir then .dir i r.name false none none 0 else .file i r.name

/-- Child list a hard reload constructs from the raw host items
(Directory.ts lines 319 to 331): one fresh node per item in delivery order,
ids drawn in that order from the counter, then the whole list sorted with
the comparator (the modelled host supplies no `sortComparator`, so the
default one is used). -/
def buildChildren (nid : Nat) (raw : List RawItem) : List FNode :=
  jsSort defaultLt (raw.enum.map (fun pr => mkFresh (nid + pr.1) pr.2))

/-- The field writes `hardReloadChildren` performs on the reloaded directory:
new children, `flattenedBranch` their id sequence, `_branchSize` its length. -/
def reloadF (cs : List FNode) : FNode → FNode
  | .dir i nm e _ _ _ => .dir i nm e (some cs) (some (cs.map idOf)) cs.length
  | other => other

/-- `Directory.hardReloadChildren` on a directory whose children are not yet
materialized (the only way the modelled operations reach it: `setExpanded`
and `ensureLoaded` call it only when `_children === null`, so the
ownership-reclaim branch for already-loaded directories is not exercised):
children are built and sorted, `flattenedBranch` becomes their id sequence
and `_branchSize` its length (Directory.ts lines 333 to 337). -/
def reloadAt (s : TreeState) (p : List Nat) (raw : List RawItem) : TreeState :=
  let cs := buildChildren s.nextId raw
  ⟨updAt (reloadF cs) p s.root, s.nextId + raw.length⟩

/-- Paths of the proper ancestors that the `ensureVisible` recursion of
`setExpanded` (Directory.ts lines 111 to 113) will itself expand: every
proper nonempty prefix of `p` whose node is currently collapsed
(already-expanded ancestors return from `setExpanded` immediately).  The
recursion stops below the root, and the flag writes it performs do not
affect any field the donation walks read, so the recursive effect equals
processing these prefixes shallowest first, each as one flag write plus one
donation. -/
def collapsedAncestorPaths (t : FNode) (p : List Nat) : List (List Nat) :=
  ((List.range (p.length - 1)).map (fun k => p.take (k + 1))).filter
    (fun q =>
      match getAt q t with
      | some n => !expOf n
      | none => false)

/-- One expansion unit: set `isExpanded = true` at `q`, then run the
donation walk for `q`. -/
def expandStep (t : FNode) (q : List Nat) : FNode :=
  donateStep (updAt (setExpF true) q t) q

/-- Events one expansion unit fires: the will/did expansion notifications
around the donation, with the root `BranchDidUpdate` in between when the
donation's owner is the root. -/
def expandStepEvs (t : FNode) (q : List Nat) : List Ev :=
  [Ev.willExpChange (idAtD t q) true]
    ++ (if ownerDepth t q (q.length - 1) == some 0 then [Ev.branchUpd] else [])
    ++ [Ev.didExpChange (idAtD t q) true]

/-- Fold of expansion units accumulating the fired events. -/
def expandFold (t : FNode) (chain : List (List Nat)) : FNode × List Ev :=
  chain.foldl (fun acc q => (expandStep acc.1 q, acc.2 ++ expandStepEvs acc.1 q)) (t, [])

/-- `Directory.setExpanded ensureVisible` (Directory.ts lines 97 to 121) on
the directory at path `p`; `raw` is what the host would deliver should the
call have to load the children first.  Already expanded: plain return before
any mutation or notification.  Otherwise the flag is set, unloaded children
are loaded, with `ensureVisible` every collapsed proper ancestor is expanded
(shallower ancestors settle first), and finally the branch itself donates.
`p = []` is `Root.setExpanded`, overridden to a no-op (Root.ts lines 436 to
439). -/
def setExpandedM (s : TreeState) (p : List Nat) (ensureVisible : Bool)
    (raw : List RawItem) : TreeState × List Ev :=
  match p with
  | [] => (s, [])
  | _ :: _ =>
      match getAt p s.root with
      | none => (s, [])
      | some br =>
          if expOf br then (s, [])
          else if !isDirN br then (s, [])
          else
            let s1 := if loadedB br then s else reloadAt s p raw
            let chain := (if ensureVisible then collapsedAncestorPaths s1.root p else []) ++ [p]
            let res := expandFold s1.root chain
            (⟨res.1, s1.nextId⟩, res.2)

/-- `Directory.setCollapsed` (Directory.ts lines 123 to 134) on the
directory at path `p`: no-op when already collapsed; when children are
loaded (and the node has a parent, which holds for every nonempty path) the
will-notification fires and the reclaim walk runs; the flag is cleared and
the did-notification fires unconditionally.  `p = []` is
`Root.setCollapsed`, a no-op. -/
def setCollapsedM (s : TreeState) (p : List Nat) : TreeState × List Ev :=
  match p with
  | [] => (s, [])
  | _ :: _ =>
      match getAt p s.root with
      | none => (s, [])
      | some br =>
          if !expOf br then (s, [])
          else
            let evs :=
              (if loadedB br then
                [Ev.willExpChange (idOf br) false]
                  ++ (if ownerDepth s.root p (p.length - 1) == some 0 then [Ev.branchUpd] else [])
                else [])
              ++ [Ev.didExpChange (idOf br) false]
            let t1 := if loadedB br then shrinkStep s.root p else s.root
            (⟨updAt (setExpF false) p t1, s.nextId⟩, evs)

/-- The slice hand-over of `insertItem` (Directory.ts lines 170 to 173): an
expanded directory still holding an array donates it into the spliced block
and surrenders it; every other item is kept as-is. -/
def donateStrip : FNode → FNode
  | .dir a b true c (some _) bs => .dir a b true c none bs
  | other => other

/-- Extra rows a child accounts for beyond its own: `item instanceof Directory &&
item.expanded ? item._branchSize : 0`, the quantity both `insertItem` and
`unlinkItem` add to the one row of the item itself. -/
def expBump : FNode → Nat
  | .dir _ _ true _ _ b => b
  | _ => 0

/-- Update pass of `insertItem` below the owner search: every prefix at
depth at least the owner depth gains `delta`; the target node additionally
receives the new child list, and whichever prefix is the owner stores the
already-computed spliced array. -/
def insertApply (delta : Nat) (od : Nat) (newFlat : List Nat) (cs2 : List FNode) :
    Nat → List Nat → FNode → FNode
  | d, [], n =>
      let n1 := addB delta (setChildrenF (some cs2) n)
      if od == d then setFlatF (some newFlat) n1 else n1
  | d, i :: rest, n =>
      let n1 := if decide (od ≤ d) then addB delta n else n
      let n2 := if od == d then setFlatF (some newFlat) n1 else n1
      mapChildAt i (insertApply delta od newFlat cs2 (d + 1) rest) n2

/-- The sizeDelta-length block `insertItem` splices into the owner's array
(Directory.ts lines 174 to 179): the item's id first, then the contents of
the item's own array when it is an expanded directory still owning one; the
backing `Uint32Array` leaves any remaining slots zero. -/
def insertBlock (item : FNode) (delta : Nat) : List Nat :=
  idOf item ::
    (match item with
     | .dir _ _ true _ (some f) _ => f
     | _ => List.replicate (delta - 1) 0)

/-- `Directory.insertItem item` (Directory.ts lines 145 to 181) on the
directory at path `p`, for an item whose parent reference is already this
directory (the only way the modelled operations call it, so the `mv`
delegation branch is skipped).  Already a member: plain return.  Otherwise
the child is appended and the list resorted, the size delta is propagated
from the directory up to and including the owner, the insertion offset is
derived from the leading sibling (or from the directory's own id, where a
missing id gives `indexOf = -1` and hence offset 0 when the directory owns
its own array), and the block is spliced in; an expanded item donates its
array into the block and surrenders it.  The returned events are the root
`BranchDidUpdate` when the owner is the root.  An absent owner would make
the source's walk loop forever (Root always owns an array, see Inv); the
model returns the state unchanged there. -/
def insertItemM (t : FNode) (p : List Nat) (item : FNode) : FNode × List Ev :=
  match getAt p t with
  | some (.dir _ _ _ (some cs) _ _) =>
      if cs.any (fun c => idOf c == idOf item) then (t, [])
      else
        let delta := 1 + expBump item
        let item2 := donateStrip item
        let cs2 := jsSort defaultLt (cs ++ [item2])
        match ownerDepth t p p.length with
        | none => (t, [])
        | some d =>
            let F := flatAt t (p.take d)
            let k := (idxOfN (cs2.map idOf) (idOf item)).getD 0
            let rel : Int :=
              if k = 0 then jsIdx F (idAtD t p)
              else
                match cs2.get? (k - 1) with
                | some ls => jsIdx F (idOf ls) + (expBump ls : Int)
                | none => 0
            let F2 := spliceTA F (rel + 1).toNat 0 (insertBlock item delta)
            (insertApply delta d F2 cs2 0 p t,
              if d == 0 then [Ev.branchUpd] else [])
  | _ => (t, [])

/-- Update pass of `unlinkItem`: every prefix at depth at least the owner
depth loses `delta`; the target receives the shortened child list; the owner
stores the spliced array unless the removed id was missing from it
(Directory.ts lines 208 to 211: the source then returns with children and
sizes already updated but no array touched). -/
def unlinkApply (delta : Nat) (od : Nat) (newFlat : Option (List Nat)) (cs2 : List FNode) :
    Nat → List Nat → FNode → FNode
  | d, [], n =>
      let n1 := subB delta (setChildrenF (some cs2) n)
      match newFlat with
      | some f2 => if od == d then setFlatF (some f2) n1 else n1
      | none => n1
  | d, i :: rest, n =>
      let n1 := if decide (od ≤ d) then subB delta n else n
      let n2 :=
        match newFlat with
        | some f2 => if od == d then setFlatF (some f2) n1 else n1
        | none => n1
      mapChildAt i (unlinkApply delta od newFlat cs2 (d + 1) rest) n2

/-- Events of the dispose cascade on the removed subtree
(`FileEntry.dispose`, `Directory.dispose`): loaded children fully disposed
first, then the node's own will/did pair. -/
def disposeEvs : FNode → List Ev
  | .file i _ => [Ev.willDispose i, Ev.didDispose i]
  | .dir i _ _ none _ _ => [Ev.willDispose i, Ev.didDispose i]
  | .dir i _ _ (some cs) _ _ =>
      cs.attach.flatMap (fun c => disposeEvs c.1) ++ [Ev.willDispose i, Ev.didDispose i]
termination_by n => sizeOf n
decreasing_by
  exact sizeOf_child_lt c.2 _ _ _ _ _

/-- `Directory.unlinkItem item` (Directory.ts lines 192 to 224) with
`reparenting = false` (the watch-driven removal path) on the directory at
path `p`: no-op when the item is not a child; otherwise the child is
spliced out, the size delta propagated up to the owner, the removed block
spliced out of the owner's array (the expanded-item slice hand-back
concerns only the detached, about-to-be-disposed item, hence leaves the
tree unchanged), and the item is detached and disposed. -/
def unlinkItemM (t : FNode) (p : List Nat) (itemId : Nat) : FNode × List Ev :=
  match getAt p t with
  | some (.dir _ _ _ (some cs) _ _) =>
      match idxOfN (cs.map idOf) itemId with
      | none => (t, [])
      | some idx =>
          let item := cs.getD idx (.file 0 "")
          let cs2 := cs.eraseIdx idx
          let delta := 1 + expBump item
          match ownerDepth t p p.length with
          | none => (t, [])
          | some d =>
              let F := flatAt t (p.take d)
              match idxOfN F itemId with
              | none => (unlinkApply delta d none cs2 0 p t, [])
              | some r =>
                  (unlinkApply delta d (some (spliceTA F r delta [])) cs2 0 p t,
                    (if d == 0 then [Ev.branchUpd] else []) ++ disposeEvs item)
  | _ => (t, [])

/-- The `WatchEvent.Added` reconciliation (Directory.ts lines 355 to 359):
a fresh node is constructed from the checked raw description (consuming one
counter id) and inserted into the addressed, necessarily loaded directory.
An unresolvable or unloaded target cannot carry a watcher; the model leaves
the state unchanged there. -/
def addedM (s : TreeState) (p : List Nat) (r : RawItem) : TreeState × List Ev :=
  match getAt p s.root with
  | some (.dir _ _ _ (some _) _ _) =>
      let res := insertItemM s.root p (mkFresh s.nextId r)
      (⟨res.1, s.nextId + 1⟩, res.2)
  | _ => (s, [])

/-- The `WatchEvent.Removed` reconciliation (Directory.ts lines 360 to 369):
the child is looked up by name in the addressed directory and unlinked when
found (an already absent child is silently ignored). -/
def removedM (s : TreeState) (p : List Nat) (fname : String) : TreeState × List Ev :=
  match getAt p s.root with
  | some (.dir _ _ _ (some cs) _ _) =>
      match cs.find? (fun c => nameOf c == fname) with
      | some item =>
          let res := unlinkItemM s.root p (idOf item)
          (⟨res.1, s.nextId⟩, res.2)
      | none => (s, [])
  | _ => (s, [])

/-- `Directory.ensureLoaded` (Directory.ts lines 90 to 95): immediate when
children are materialized, otherwise a hard reload of the unloaded
directory with the host's items. -/
def ensureLoadedM (s : TreeState) (p : List Nat) (raw : List RawItem) : TreeState :=
  match getAt p s.root with
  | none => s
  | some n => if loadedB n then s else if isDirN n then reloadAt s p raw else s

/-- The operations of the public mutation surface the claims range over. -/
inductive Op where
  | expand (p : List Nat) (ensureVisible : Bool) (raw : List RawItem) : Op
  | collapse (p : List Nat) : Op
  | added (p : List Nat) (item : RawItem) : Op
  | removed (p : List Nat) (fname : String) : Op
  | load (p : List Nat) (raw : List RawItem) : Op

/-- State transition of one operation. -/
def applyOp (s : TreeState) : Op → TreeState
  | .expand p ev raw => (setExpandedM s p ev raw).1
  | .collapse p => (setCollapsedM s p).1
  | .added p r => (addedM s p r).1
  | .removed p f => (removedM s p f).1
  | .load p raw => ensureLoadedM s p raw

/-- Run a sequence of operations. -/
def run (s : TreeState) (ops : List Op) : TreeState := ops.foldl applyOp s

/-- The freshly loaded tree: `new Root(host, path)` followed by
`ensureLoaded`.  The Root is constructed first (id 0 from the counter), its
constructor-time `setExpanded` marks it expanded and hard-loads it; the
donation walk finds no parent and leaves the rebuilt array at the root. -/
def initState (raw : List RawItem) : TreeState :=
  let cs := buildChildren 1 raw
  ⟨.dir 0 "" true (some cs) (some (cs.map idOf)) cs.length, raw.length + 1⟩

/-! Host-boundary validation (claim C5).  `checkRawFile` inspects a value a
JavaScript host delivered, so its argument is modelled loosely typed. -/

/-- A JavaScript value as far as `checkRawFile` discriminates it. -/
inductive JsVal where
  | str (s : String) : JsVal
  | num (n : Int) : JsVal
  | other : JsVal

/-- A raw item description as delivered by the host before validation:
whether it is a non-null object at all, and its `type` and `name`
properties. -/
structure LooseItem where
  isObject : Bool
  typ : JsVal
  name : JsVal

/-- Whether two JsVals are the same numeric literal. -/
def isNum (v : JsVal) (n : Int) : Bool :=
  match v with
  | .num m => m == n
  | _ => false

/-- Whether a JsVal is a string. -/
def isStr (v : JsVal) : Bool :=
  match v with
  | .str _ => true
  | _ => false

/-- `FileEntry.checkRawFile` (FileEntry.ts lines 11 to 21): throws a
`TypeError` unless the value is an object whose `type` is `FileType.File`
(1) or `FileType.Directory` (2) and whose `name` is a string. -/
def checkRawFile (f : LooseItem) : Except String Unit :=
  if !f.isObject then .error "Item must be IFileEntryItem object"
  else if !(isNum f.typ 2) && !(isNum f.typ 1) then
    .error "IFileEntryItem must have a type property"
  else if !(isStr f.name) then .error "IFileEntryItem must have a name property"
  else .ok ()

/-- A raw item is malformed when `checkRawFile` would reject it. -/
def malformedB (f : LooseItem) : Bool :=
  match checkRawFile f with
  | .ok _ => false
  | .error _ => true

/-- The execution environment as the validation guard in
`hardReloadChildren` (Directory.ts line 323) observes it: whether a
`process` global exists and what `process.env.NODE_ENV` is. -/
structure JsEnv where
  hasProcess : Bool
  nodeEnv : Option String

/-- The guard `typeof process !== 'undefined' && process.env.NODE_ENV !==
'production'`. -/
def devChecksOn (e : JsEnv) : Bool :=
  e.hasProcess && !(e.nodeEnv == some "production")

/-- Check every item, stopping at the first rejection (the construction loop
throws out of `hardReloadChildren` at the offending item). -/
def checkAllRaw : List LooseItem → Except String Unit
  | [] => .ok ()
  | f :: l =>
      match checkRawFile f with
      | .ok _ => checkAllRaw l
      | .error e => .error e

/-- The validation `hardReloadChildren` performs on the raw host items: each
item is checked, but only when the dev guard is on (Directory.ts lines 321
to 329). -/
def hardReloadValidate (e : JsEnv) (items : List LooseItem) : Except String Unit :=
  if devChecksOn e then checkAllRaw items else .ok ()

/-- Whether an Except is a success. -/
def exceptOkB {ε α : Type} : Except ε α → Bool
  | .ok _ => true
  | .error _ => false

/-! Move reconciliation (claim C6).  Paths handed to the path-fx
collaborator are modelled as segment lists of an absolute path; `dirname`
drops the last segment and `basename` is the last segment. -/

/-- `Root.walkPathTillRelative` (Root.ts lines 472 to 489): strip the root's
own path segments off the front of an absolute path, failing as soon as a
segment stops matching. -/
def walkTillRelative : List String → List String → Except String (List String)
  | [], frags => .ok frags
  | _ :: _, [] => .error "stopped matching"
  | r :: rs, f :: fs => if f = r then walkTillRelative rs fs else .error "stopped matching"

/-- The lookup loop of `Root.findFileEntryInLoadedTree` (Root.ts lines 368
to 387): resolve fragments against loaded children by name; the final
fragment returns whatever was found (even an unloaded directory); a missing
fragment or a file in the middle throws; an unloaded directory in the
middle returns null. -/
def findLoop : List FNode → List String → Except String (Option FNode)
  | _, [] => .ok none
  | cs, fname :: rest =>
      match cs.find? (fun c => nameOf c == fname) with
      | none => .error "not found"
      | some item =>
          if rest.isEmpty then .ok (some item)
          else if !isDirN item then .error "not found"
          else
            match childrenOf item with
            | none => .ok none
            | some cs2 => findLoop cs2 rest

/-- `Root.findFileEntryInLoadedTree` (Root.ts lines 363 to 387) for an
absolute path: loaded-tree-only, synchronous, never loads anything.
`root` is the root node, `rootSegs` the segments of the root's own absolute
path. -/
def findInLoadedTree (root : FNode) (rootSegs path : List String) :
    Except String (Option FNode) :=
  match walkTillRelative rootSegs path with
  | .error e => .error e
  | .ok frags =>
      if frags.isEmpty then .ok (some root)
      else
        match childrenOf root with
        | some cs => findLoop cs frags
        | none => .error "not found"

/-- Outcome of `Directory.transferItem` (Directory.ts lines 380 to 398). -/
inductive XferResult where
  | ignored : XferResult
  | removed (itemId : Nat) : XferResult
  | moved (itemId destId : Nat) (newName : String) : XferResult
  | faulted (msg : String) : XferResult
deriving DecidableEq

/-- `Directory.transferItem oldPath newPath` on the directory that received
the Moved notification: `self` is that directory (with children `cs` and
absolute path `selfPath`), `root`/`rootSegs` the tree it lives in.  A
notification for some other directory, or for an unknown child, is ignored;
a same-directory move is a rename of the found child (the destination is
`this`); otherwise the destination directory is resolved in the loaded tree
only, a resolution that is not a Directory object falls back to a plain
`unlinkItem`, and a throwing resolution propagates out of the handler with
nothing removed. -/
def transferItemM (root : FNode) (rootSegs : List String) (self : FNode)
    (selfPath oldPath newPath : List String) : XferResult :=
  let srcDir := oldPath.dropLast
  if srcDir ≠ selfPath then .ignored
  else
    match childrenOf self with
    | none => .ignored
    | some cs =>
        match cs.find? (fun c => nameOf c == oldPath.getLastD "") with
        | none => .ignored
        | some item =>
            let toDir := newPath.dropLast
            let destRes :=
              if toDir = srcDir then Except.ok (some self)
              else findInLoadedTree root rootSegs toDir
            match destRes with
            | .error e => .faulted e
            | .ok destOpt =>
                match destOpt with
                | some dest =>
                    if isDirN dest then .moved (idOf item) (idOf dest) (newPath.getLastD "")
                    else .removed (idOf item)
                | none => .removed (idOf item)

/-! Change-event coalescing at the Root (claim C7). -/

/-- `Root.queueChangeEvent` (Root.ts lines 498 to 505): deduplicated push of
the changed directory path (the debounce-timer reset is a scheduling side
effect outside this state model). -/
def queueChangeEvent (q : List String) (p : String) : List String :=
  if q.contains p then q else q ++ [p]

/-- The order `Root.flushEventQueue` (Root.ts lines 446 to 465) replays the
queued directories in: the queue sorted stably by path depth, shallowest
first; the flush then runs the reload callbacks one after another through
`pSeries`, awaiting each before starting the next, and resets the queue. -/
def flushOrder (pathDepth : String → Nat) (q : List String) : List String :=
  jsSort (fun a b => decide (pathDepth a < pathDepth b)) q

/-! Flat row lookup (claim C10). -/

/-- A JS indexed read `arr[i]` on a typed array: `undefined` outside
`[0, length)`. -/
def jsArrGet (arr : List Nat) (i : Int) : Option Nat :=
  if 0 ≤ i ∧ i < (arr.length : Int) then arr.get? i.toNat else none

/-- `Root.getFileEntryAtIndex` (Root.ts lines 353 to 356): read the id at
the given row of the root's flat array, then look it up in the id
registry (`FileEntry.getFileEntryById`, a `Map.get` that yields undefined
for a missing or undefined key). -/
def getFileEntryAtIndexM {β : Type} (flat : List Nat) (registry : Nat → Option β)
    (i : Int) : Option β :=
  match jsArrGet flat i with
  | none => none
  | some id => registry id

/-- Branch size of the node at prefix `q`, defaulted to 0. -/
def bAt (t : FNode) (q : List Nat) : Nat :=
  match getAt q t with
  | some n => bSizeOf n
  | none => 0

/-- The ownership part of the central invariant, as claim C1 states it: a
node owns a flat array exactly when it is the root or a collapsed loaded
directory (the lowest-owner rule: every node strictly between an owner and
the ids it covers is expanded, because a collapsed loaded node in between
would itself own), the owned array is exactly the node's visible sequence,
and the same holds at every loaded descendant. -/
def ownershipOKB : FNode → Bool → Bool
  | .file _ _, _ => true
  | .dir _ _ _ none fl _, _ => fl == none
  | .dir i s e (some cs) fl b, isRoot =>
      (fl == (if isRoot || !e then some (visSeq (.dir i s e (some cs) fl b)) else none))
      && cs.attach.all (fun c => ownershipOKB c.1 false)
termination_by n => sizeOf n
decreasing_by
  exact sizeOf_child_lt c.2 _ _ _ _ _

/-- Common shape of the four positional update passes. -/
def walkApply (bump setF : FNode → FNode) (endF : Nat → FNode → FNode)
    (bc oe : Nat → Bool) : Nat → List Nat → FNode → FNode
  | d, [], n => endF d n
  | d, i :: rest, n =>
      let n1 := if bc d then bump n else n
      let n2 := if oe d then setF n1 else n1
      mapChildAt i (walkApply bump setF endF bc oe (d + 1) rest) n2

/-- Field-only node rewrites: id, name, expansion, children untouched. -/
def FieldOnly (f : FNode → FNode) : Prop :=
  (∀ n, idOf (f n) = idOf n) ∧ (∀ n, nameOf (f n) = nameOf n)
    ∧ (∀ n, expOf (f n) = expOf n) ∧ (∀ n, childrenOf (f n) = childrenOf n)


/-- Canonical form of a skeleton: recompute every `_branchSize` and
`flattenedBranch` bottom-up to the values the structural invariant
prescribes, leaving ids, names, expansion flags and the child structure
untouched.  Each incremental update pass of the source is proved equal to
canonicalizing the edited skeleton. -/
def canon : Bool → FNode → FNode
  | _, .file a b => .file a b
  | _, .dir a b e none _ _ => .dir a b e none none 0
  | isRoot, .dir a b e (some cs) _ _ =>
      let cs2 := cs.attach.map (fun c => canon false c.1)
      let vs := cs2.flatMap contrib
      .dir a b e (some cs2) (if isRoot || !e then some vs else none) vs.length
termination_by _ n => sizeOf n
decreasing_by
  exact sizeOf_child_lt c.2 _ _ _ _ _

/-- Skeleton well-formedness: children sorted everywhere and unloaded
directories collapsed (the fields `canon` recomputes are unconstrained). -/
def skelOKB : FNode → Bool
  | .file _ _ => true
  | .dir _ _ e none _ _ => e == false
  | .dir _ _ _ (some cs) _ _ => sortedB cs && cs.attach.all (fun c => skelOKB c.1)
termination_by n => sizeOf n
decreasing_by
  exact sizeOf_child_lt c.2 _ _ _ _ _

/-! General lemmas about the stable sort. -/

theorem insAfter_perm (lt : α → α → Bool) (l : List α) (x : α) :
    (insAfter lt l x).Perm (x :: l) := by
  induction l with
  | nil => exact List.Perm.refl _
  | cons y ys ih =>
      unfold insAfter
      by_cases h : lt x y
      · simp only [h, if_true]
        exact List.Perm.refl _
      · simp only [h, if_false]
        exact (ih.cons y).trans (List.Perm.swap x y ys)

theorem jsSortAux_perm (lt : α → α → Bool) :
    ∀ (l acc : List α), (l.foldl (insAfter lt) acc).Perm (acc ++ l) := by
  intro l
  induction l with
  | nil => intro acc; simp
  | cons x l ih =>
      intro acc
      simp only [List.foldl_cons]
      refine (ih (insAfter lt acc x)).trans ?_
      have h1 : (insAfter lt acc x ++ l).Perm ((x :: acc) ++ l) :=
        (insAfter_perm lt acc x).append_right l
      refine h1.trans ?_
      simp only [List.cons_append]
      exact (List.perm_middle).symm

theorem jsSort_perm (lt : α → α → Bool) (l : List α) : (jsSort lt l).Perm l := by
  simpa using jsSortAux_perm lt l []

theorem insAfter_pairwise (lt : α → α → Bool)
    (Htr : ∀ a b c, lt a b = true → lt b c = true → lt a c = true)
    (Hasym : ∀ a b, lt a b = true → lt b a = false)
    (l : List α) (x : α) (hp : l.Pairwise (fun a b => lt b a = false)) :
    (insAfter lt l x).Pairwise (fun a b => lt b a = false) := by
  induction l with
  | nil => exact List.pairwise_singleton _ x
  | cons y ys ih =>
      rcases List.pairwise_cons.1 hp with ⟨hy, hys⟩
      unfold insAfter
      by_cases h : lt x y
      · simp only [h, if_true]
        refine List.pairwise_cons.2 ⟨?_, hp⟩
        intro z hz
        rcases List.mem_cons.1 hz with rfl | hz2
        · exact Hasym x z h
        · by_contra hzx
          have hzx2 : lt z x = true := by
            cases hb : lt z x
            · exact absurd hb hzx
            · rfl
          have := Htr z x y hzx2 h
          rw [hy z hz2] at this
          exact Bool.false_ne_true this
      · simp only [h, if_false]
        refine List.pairwise_cons.2 ⟨?_, ih hys⟩
        intro z hz
        rcases List.mem_cons.1 (((insAfter_perm lt ys x).mem_iff).1 hz) with h2 | h2
        · subst h2
          cases hb : lt z y
          · rfl
          · exact absurd hb (by simp [h])
        · exact hy z h2

theorem jsSort_pairwise (lt : α → α → Bool)
    (Htr : ∀ a b c, lt a b = true → lt b c = true → lt a c = true)
    (Hasym : ∀ a b, lt a b = true → lt b a = false)
    (l : List α) :
    (jsSort lt l).Pairwise (fun a b => lt b a = false) := by
  suffices h : ∀ (l acc : List α), acc.Pairwise (fun a b => lt b a = false) →
      (l.foldl (insAfter lt) acc).Pairwise (fun a b => lt b a = false) by
    exact h l [] List.Pairwise.nil
  intro l
  induction l with
  | nil => intro acc hacc; simpa using hacc
  | cons x l ih =>
      intro acc hacc
      simp only [List.foldl_cons]
      exact ih _ (insAfter_pairwise lt Htr Hasym acc x hacc)

/-! Validation helper lemma. -/

theorem checkAllRaw_err (items : List LooseItem) (f : LooseItem)
    (hmem : f ∈ items) (hbad : malformedB f = true) :
    exceptOkB (checkAllRaw items) = false := by
  induction items with
  | nil => cases hmem
  | cons g l ih =>
      unfold checkAllRaw
      rcases List.mem_cons.1 hmem with rfl | h2
      · unfold malformedB at hbad
        cases hc : checkRawFile f
        · rfl
        · rw [hc] at hbad; simp at hbad
      · cases hc : checkRawFile g
        · rfl
        · exact ih h2

/-! Claim theorems for C5, C6, C7, C8, C9, C10. -/

/-- C5 counterexample: in a production environment (a `process` global with
NODE_ENV set to "production") `hardReloadChildren` accepts, without any
error, an item whose `name` is not a string, even though `checkRawFile`
classifies it as malformed.  This contradicts the claim that malformed items
always cause a fatal failure in every execution environment. -/
theorem c5_counterexample :
    hardReloadValidate ⟨true, some "production"⟩ [⟨true, .num 2, .num 5⟩] = .ok ()
      ∧ malformedB ⟨true, .num 2, .num 5⟩ = true :=
  ⟨rfl, rfl⟩

/-- C5 (amended): whenever the dev guard is on, that is `process` exists and
NODE_ENV is not "production", a malformed item among the host's raw items
makes the validation of `hardReloadChildren` fail on the triggering call
(the construction loop throws); in production builds the check is skipped
entirely. -/
theorem c5_dev_validation (e : JsEnv) (items : List LooseItem) (f : LooseItem)
    (henv : devChecksOn e = true) (hmem : f ∈ items) (hbad : malformedB f = true) :
    exceptOkB (hardReloadValidate e items) = false := by
  unfold hardReloadValidate
  rw [henv, if_pos rfl]
  exact checkAllRaw_err items f hmem hbad

/-- C5 witness: a concrete dev environment and malformed item on which the
amended theorem applies. -/
theorem c5_witness :
    devChecksOn ⟨true, none⟩ = true
    ∧ malformedB ⟨true, .num 2, .num 5⟩ = true
    ∧ exceptOkB (hardReloadValidate ⟨true, none⟩ [⟨true, .num 2, .num 5⟩]) = false := by
  refine ⟨rfl, rfl, ?_⟩
  exact c5_dev_validation ⟨true, none⟩ [⟨true, .num 2, .num 5⟩] ⟨true, .num 2, .num 5⟩ rfl
    (List.mem_singleton.2 rfl) rfl

/-- The loaded tree of the C6 counterexample: a root at absolute path
/root containing the loaded directory a, which contains the file x.txt. -/
def c6cRoot : FNode :=
  .dir 0 "" true (some [.dir 1 "a" false (some [.file 2 "x.txt"]) (some [2]) 1]) (some [1]) 1

/-- C6 counterexample: the claim's own scenario, a Moved notification from
/root/a/x.txt to /root/y.txt in a tree rooted at /root.  The destination
directory /root resolves in the loaded tree to the Root itself, which is a
Directory, so the reconciler performs a move of x.txt to the Root, not the
plain removal the claim asserts. -/
theorem c6_counterexample :
    transferItemM c6cRoot ["root"] (.dir 1 "a" false (some [.file 2 "x.txt"]) (some [2]) 1)
        ["root", "a"] ["root", "a", "x.txt"] ["root", "y.txt"]
      = .moved 2 0 "y.txt"
    ∧ transferItemM c6cRoot ["root"] (.dir 1 "a" false (some [.file 2 "x.txt"]) (some [2]) 1)
        ["root", "a"] ["root", "a", "x.txt"] ["root", "y.txt"]
      ≠ .removed 2 := by
  constructor
  · decide
  · decide

/-- C6 (amended): for a Moved notification whose old and new directories
differ, when the loaded-tree lookup of the destination directory returns
without throwing and what it returns is not a Directory object (null
because an unloaded directory interrupted the walk, or a file), the
reconciler falls back to a plain `unlinkItem` of the item; the lookup is a
pure function of the already-loaded tree, so no load is forced.  (When the
lookup throws, for a nonexistent destination, the exception propagates and
nothing is removed; when it returns a Directory, including the Root, the
item is moved.) -/
theorem c6_move_fallback (root : FNode) (rootSegs : List String) (self : FNode)
    (selfPath oldPath newPath : List String) (item : FNode) (cs : List FNode)
    (destOpt : Option FNode)
    (hsrc : oldPath.dropLast = selfPath)
    (hcs : childrenOf self = some cs)
    (hfind : cs.find? (fun c => nameOf c == oldPath.getLastD "") = some item)
    (hdiff : newPath.dropLast ≠ selfPath)
    (hres : findInLoadedTree root rootSegs newPath.dropLast = .ok destOpt)
    (hnotdir : ∀ d, destOpt = some d → isDirN d = false) :
    transferItemM root rootSegs self selfPath oldPath newPath = .removed (idOf item) := by
  unfold transferItemM
  rw [hsrc, if_neg (by simp), hcs]
  dsimp only
  rw [hfind]
  dsimp only
  rw [if_neg hdiff, hres]
  rcases destOpt with _ | d
  · rfl
  · dsimp only
    rw [hnotdir d rfl]
    rfl

/-- The loaded tree of the C6 witness: a root at /root containing loaded
directory a (with file x.txt) and unloaded directory b. -/
def c6wRoot : FNode :=
  .dir 0 "" true
    (some [.dir 1 "a" false (some [.file 2 "x.txt"]) (some [2]) 1, .dir 3 "b" false none none 0])
    (some [1, 3]) 2

/-- C6 witness: moving /root/a/x.txt to /root/b/c/x.txt where the unloaded
directory b interrupts the destination walk resolves to null and falls back
to plain removal. -/
theorem c6_witness :
    (["root", "a", "x.txt"].dropLast = ["root", "a"]
      ∧ findInLoadedTree c6wRoot ["root"] ["root", "b", "c", "x.txt"].dropLast = .ok none
      ∧ ["root", "b", "c", "x.txt"].dropLast ≠ ["root", "a"])
    ∧ transferItemM c6wRoot ["root"]
        (.dir 1 "a" false (some [.file 2 "x.txt"]) (some [2]) 1)
        ["root", "a"] ["root", "a", "x.txt"] ["root", "b", "c", "x.txt"]
        = .removed 2 := by
  refine ⟨⟨rfl, rfl, by decide⟩, ?_⟩
  exact c6_move_fallback c6wRoot ["root"]
    (.dir 1 "a" false (some [.file 2 "x.txt"]) (some [2]) 1)
    ["root", "a"] ["root", "a", "x.txt"] ["root", "b", "c", "x.txt"]
    (.file 2 "x.txt") [.file 2 "x.txt"] none rfl rfl rfl (by decide) rfl
    (by intro d hd; cases hd)

/-- C7: queued Changed notifications are deduplicated by directory path (a
second enqueue of the same path changes nothing), the flush replays the
queued directories sorted by path depth, shallowest first (the replay is a
sequential fold: each reload is awaited before the next begins), and for a
deduplicated queue a path that was enqueued twice is reloaded exactly once
at flush time. -/
theorem c7_changed_coalescing (pathDepth : String → Nat) (q : List String) (p : String) :
    queueChangeEvent (queueChangeEvent q p) p = queueChangeEvent q p
    ∧ (flushOrder pathDepth q).Pairwise (fun a b => pathDepth a ≤ pathDepth b)
    ∧ (q.Nodup → (flushOrder pathDepth (queueChangeEvent q p)).count p = 1) := by
  refine ⟨?_, ?_, ?_⟩
  · unfold queueChangeEvent
    by_cases h : q.contains p
    · have hm : p ∈ q := by simpa using h
      simp [h, hm]
    · simp only [h, if_false]
      have : (q ++ [p]).contains p = true := by simp
      simp [this]
  · have := jsSort_pairwise (fun a b => decide (pathDepth a < pathDepth b))
      (by intro a b c h1 h2; simp only [decide_eq_true_eq] at *; omega)
      (by intro a b h1; simp only [decide_eq_true_eq] at h1; simp; omega)
      q
    exact this.imp (by intro a b h; simp only [decide_eq_false_iff_not, not_lt] at h; exact h)
  · intro hnd
    have hperm := jsSort_perm (fun a b => decide (pathDepth a < pathDepth b)) (queueChangeEvent q p)
    unfold flushOrder
    rw [hperm.count_eq]
    unfold queueChangeEvent
    by_cases h : q.contains p
    · simp only [h, if_true]
      exact List.count_eq_one_of_mem hnd (by simpa using h)
    · have hf : q.contains p = false := by simpa using h
      simp only [hf, Bool.false_eq_true, if_false]
      rw [List.count_append]
      have h0 : q.count p = 0 := by
        refine List.count_eq_zero_of_not_mem ?_
        simpa using h
      simp [h0]

/-- C7 witness: with path depth measured by string length, enqueueing
"/a/b" onto the deduplicated queue ["/a"] and flushing reloads "/a/b"
exactly once. -/
theorem c7_witness :
    (["/a"] : List String).Nodup
    ∧ (flushOrder String.length (queueChangeEvent ["/a"] "/a/b")).count "/a/b" = 1 := by
  refine ⟨by decide, ?_⟩
  exact (c7_changed_coalescing String.length ["/a"] "/a/b").2.2 (by decide)

/-- C8: idempotence.  A `setExpanded` call on an already-expanded directory
returns before any mutation or notification (state unchanged, no events
fired), and an `insertItem` call whose item is already a member of the
directory's children likewise returns unchanged with no events. -/
theorem c8_idempotence (s : TreeState) (p : List Nat) (ev : Bool) (raw : List RawItem)
    (br : FNode) (t : FNode) (q : List Nat) (item n : FNode) (cs : List FNode) :
    (getAt p s.root = some br → expOf br = true → setExpandedM s p ev raw = (s, []))
    ∧ (getAt q t = some n → childrenOf n = some cs →
        cs.any (fun c => idOf c == idOf item) = true → insertItemM t q item = (t, [])) := by
  constructor
  · intro hget hexp
    unfold setExpandedM
    cases p with
    | nil => rfl
    | cons i p0 =>
        rw [hget]
        dsimp only
        rw [hexp]
        simp
  · intro hget hcs hmem
    unfold insertItemM
    cases n with
    | file a b => rw [hget]
    | dir a b e ocs fl bs =>
        cases ocs with
        | none => cases hcs
        | some cs0 =>
            cases hcs
            rw [hget]
            dsimp only
            rw [hmem]
            simp

/-- C8 witness: a second `setExpanded` on the already-expanded directory a
and a second `insertItem` of the already-inserted file f are both observable
no-ops. -/
theorem c8_witness :
    (getAt [1] (FNode.dir 0 "" true (some [.dir 1 "a" true (some []) none 0]) (some [1]) 1)
        = some (.dir 1 "a" true (some []) none 0)
      ∧ expOf (FNode.dir 1 "a" true (some []) none 0) = true
      ∧ setExpandedM ⟨.dir 0 "" true (some [.dir 1 "a" true (some []) none 0]) (some [1]) 1, 2⟩
          [1] true [] = (⟨.dir 0 "" true (some [.dir 1 "a" true (some []) none 0]) (some [1]) 1, 2⟩, []))
    ∧ ((([.file 1 "f"] : List FNode).any (fun c => idOf c == idOf (.file 1 "f")) = true)
      ∧ insertItemM (.dir 0 "" true (some [.file 1 "f"]) (some [1]) 1) [] (.file 1 "f")
          = (.dir 0 "" true (some [.file 1 "f"]) (some [1]) 1, [])) := by
  refine ⟨⟨rfl, rfl, ?_⟩, rfl, ?_⟩
  · exact (c8_idempotence ⟨.dir 0 "" true (some [.dir 1 "a" true (some []) none 0]) (some [1]) 1, 2⟩
      [1] true [] (.dir 1 "a" true (some []) none 0)
      (.file 0 "") [] (.file 0 "") (.file 0 "") []).1 rfl rfl
  · exact (c8_idempotence ⟨.file 0 "", 0⟩ [] true [] (.file 0 "")
      (.dir 0 "" true (some [.file 1 "f"]) (some [1]) 1) [] (.file 1 "f")
      (.dir 0 "" true (some [.file 1 "f"]) (some [1]) 1) [.file 1 "f"]).2 rfl rfl rfl

/-- C9: in the freshly loaded tree over a directory a (id 1) and a file
b.txt (id 2) the default comparator orders the flat sequence [a, b.txt];
after expanding a, whose load delivers c.txt (id 3), the root's flat
sequence is [a, c.txt, b.txt] and the root's branchSize is 3. -/
theorem c9_default_order_scenario :
    flatOf (initState [⟨"a", true⟩, ⟨"b.txt", false⟩]).root = some [1, 2]
    ∧ (getAt [1] (initState [⟨"a", true⟩, ⟨"b.txt", false⟩]).root).map nameOf = some "a"
    ∧ (getAt [2] (initState [⟨"a", true⟩, ⟨"b.txt", false⟩]).root).map nameOf
        = some "b.txt"
    ∧ ((getAt [1] (initState [⟨"a", true⟩, ⟨"b.txt", false⟩]).root).map isDirN = some true)
    ∧ bSizeOf (initState [⟨"a", true⟩, ⟨"b.txt", false⟩]).root = 2
    ∧ flatOf (setExpandedM (initState [⟨"a", true⟩, ⟨"b.txt", false⟩]) [1] true
        [⟨"c.txt", false⟩]).1.root = some [1, 3, 2]
    ∧ (getAt [1, 3] (setExpandedM (initState [⟨"a", true⟩, ⟨"b.txt", false⟩]) [1] true
        [⟨"c.txt", false⟩]).1.root).map nameOf = some "c.txt"
    ∧ bSizeOf (setExpandedM (initState [⟨"a", true⟩, ⟨"b.txt", false⟩]) [1] true
        [⟨"c.txt", false⟩]).1.root = 3 := by
  decide

/-- C10: reading a flat row outside [0, branchSize) of a root whose
branchSize matches its flat array length yields no entry and throws
nothing: the out-of-range typed-array read produces undefined and the
registry lookup of a missing key produces undefined. -/
theorem c10_out_of_range {β : Type} (flat : List Nat) (registry : Nat → Option β)
    (root : FNode) (_hflat : flatOf root = some flat)
    (hsize : bSizeOf root = flat.length) (i : Int)
    (hout : i < 0 ∨ (bSizeOf root : Int) ≤ i) :
    getFileEntryAtIndexM flat registry i = none := by
  unfold getFileEntryAtIndexM jsArrGet
  have hneg : ¬(0 ≤ i ∧ i < (flat.length : Int)) := by
    rw [hsize] at hout
    rcases hout with h | h <;> (intro hc; omega)
  rw [if_neg hneg]

/-- C10 witness: index -3 of a two-row root resolves to no entry. -/
theorem c10_witness :
    ((-3 : Int) < 0 ∨ ((2 : Nat) : Int) ≤ -3)
      ∧ getFileEntryAtIndexM [5, 6] (fun i => some i) (-3) = none := by
  constructor
  · left; decide
  · exact c10_out_of_range [5, 6] (fun i => some i) (.dir 0 "" true (some []) (some [5, 6]) 2)
      rfl rfl (-3) (Or.inl (by decide))


theorem expandApply_eq_walk (brSz : Nat) (od : Option Nat) (newFlat : List Nat) :
    ∀ (rest : List Nat) (d : Nat) (n : FNode),
      expandApply brSz od newFlat d rest n
        = walkApply (addB brSz) (setFlatF (some newFlat))
            (fun _ m => if od.isSome then setFlatF none m else m)
            (fun d2 => od.isNone || decide (od.getD 0 ≤ d2)) (fun d2 => od == some d2)
            d rest n := by
  intro rest
  induction rest with
  | nil => intro d n; rfl
  | cons i rs ih =>
      intro d n
      unfold expandApply walkApply
      simp only []
      congr 1
      funext c
      exact ih (d + 1) c

theorem shrinkApply_eq_walk (brSz : Nat) (od : Option Nat) (newFlat ret : List Nat) :
    ∀ (rest : List Nat) (d : Nat) (n : FNode),
      shrinkApply brSz od newFlat ret d rest n
        = walkApply (subB brSz) (setFlatF (some newFlat))
            (fun _ m => if od.isSome then setFlatF (some ret) m else m)
            (fun d2 => od.isNone || decide (od.getD 0 ≤ d2)) (fun d2 => od == some d2)
            d rest n := by
  intro rest
  induction rest with
  | nil => intro d n; rfl
  | cons i rs ih =>
      intro d n
      unfold shrinkApply walkApply
      simp only []
      congr 1
      funext c
      exact ih (d + 1) c

theorem insertApply_eq_walk (delta od : Nat) (newFlat : List Nat) (cs2 : List FNode) :
    ∀ (rest : List Nat) (d : Nat) (n : FNode),
      insertApply delta od newFlat cs2 d rest n
        = walkApply (addB delta) (setFlatF (some newFlat))
            (fun d2 m =>
              let m1 := addB delta (setChildrenF (some cs2) m)
              if od == d2 then setFlatF (some newFlat) m1 else m1)
            (fun d2 => decide (od ≤ d2)) (fun d2 => od == d2)
            d rest n := by
  intro rest
  induction rest with
  | nil => intro d n; rfl
  | cons i rs ih =>
      intro d n
      unfold insertApply walkApply
      simp only []
      congr 1
      funext c
      exact ih (d + 1) c

theorem unlinkApply_eq_walk (delta od : Nat) (newFlat : Option (List Nat)) (cs2 : List FNode) :
    ∀ (rest : List Nat) (d : Nat) (n : FNode),
      unlinkApply delta od newFlat cs2 d rest n
        = walkApply (subB delta) (setFlatF (some (newFlat.getD [])))
            (fun d2 m =>
              let m1 := subB delta (setChildrenF (some cs2) m)
              if newFlat.isSome && (od == d2) then setFlatF (some (newFlat.getD [])) m1 else m1)
            (fun d2 => decide (od ≤ d2)) (fun d2 => newFlat.isSome && (od == d2))
            d rest n := by
  intro rest
  induction rest with
  | nil =>
      intro d n
      cases newFlat <;> (unfold unlinkApply walkApply; simp)
  | cons i rs ih =>
      intro d n
      unfold unlinkApply walkApply
      cases newFlat with
      | none =>
          simp only [Option.isSome_none, Bool.false_and, if_false, Bool.false_eq_true]
          congr 1
          funext c
          exact ih (d + 1) c
      | some f2 =>
          simp only [Option.isSome_some, Bool.true_and, Option.getD_some]
          congr 1
          funext c
          exact ih (d + 1) c

theorem updAt_eq_walk (f : FNode → FNode) :
    ∀ (rest : List Nat) (d : Nat) (n : FNode),
      updAt f rest n
        = walkApply id id (fun _ => f) (fun _ => false) (fun _ => false) d rest n := by
  intro rest
  induction rest with
  | nil => intro d n; rfl
  | cons i rs ih =>
      intro d n
      unfold updAt walkApply
      simp only [if_neg Bool.false_ne_true]
      congr 1
      funext c
      exact ih (d + 1) c

theorem idOf_setFlatF (fl : Option (List Nat)) (n : FNode) : idOf (setFlatF fl n) = idOf n := by
  cases n <;> rfl
theorem expOf_setFlatF (fl : Option (List Nat)) (n : FNode) : expOf (setFlatF fl n) = expOf n := by
  cases n <;> rfl
theorem nameOf_setFlatF (fl : Option (List Nat)) (n : FNode) : nameOf (setFlatF fl n) = nameOf n := by
  cases n <;> rfl
theorem childrenOf_setFlatF (fl : Option (List Nat)) (n : FNode) :
    childrenOf (setFlatF fl n) = childrenOf n := by cases n <;> rfl
theorem bSizeOf_setFlatF (fl : Option (List Nat)) (n : FNode) :
    bSizeOf (setFlatF fl n) = bSizeOf n := by cases n <;> rfl

theorem idOf_setExpF (v : Bool) (n : FNode) : idOf (setExpF v n) = idOf n := by cases n <;> rfl
theorem nameOf_setExpF (v : Bool) (n : FNode) : nameOf (setExpF v n) = nameOf n := by
  cases n <;> rfl
theorem childrenOf_setExpF (v : Bool) (n : FNode) : childrenOf (setExpF v n) = childrenOf n := by
  cases n <;> rfl
theorem bSizeOf_setExpF (v : Bool) (n : FNode) : bSizeOf (setExpF v n) = bSizeOf n := by
  cases n <;> rfl
theorem flatOf_setExpF (v : Bool) (n : FNode) : flatOf (setExpF v n) = flatOf n := by
  cases n <;> rfl

theorem idOf_addB (d : Nat) (n : FNode) : idOf (addB d n) = idOf n := by cases n <;> rfl
theorem expOf_addB (d : Nat) (n : FNode) : expOf (addB d n) = expOf n := by cases n <;> rfl
theorem nameOf_addB (d : Nat) (n : FNode) : nameOf (addB d n) = nameOf n := by cases n <;> rfl
theorem childrenOf_addB (d : Nat) (n : FNode) : childrenOf (addB d n) = childrenOf n := by
  cases n <;> rfl
theorem flatOf_addB (d : Nat) (n : FNode) : flatOf (addB d n) = flatOf n := by cases n <;> rfl

theorem idOf_subB (d : Nat) (n : FNode) : idOf (subB d n) = idOf n := by cases n <;> rfl
theorem expOf_subB (d : Nat) (n : FNode) : expOf (subB d n) = expOf n := by cases n <;> rfl
theorem nameOf_subB (d : Nat) (n : FNode) : nameOf (subB d n) = nameOf n := by cases n <;> rfl
theorem childrenOf_subB (d : Nat) (n : FNode) : childrenOf (subB d n) = childrenOf n := by
  cases n <;> rfl
theorem flatOf_subB (d : Nat) (n : FNode) : flatOf (subB d n) = flatOf n := by cases n <;> rfl

theorem idOf_setChildrenF (ocs : Option (List FNode)) (n : FNode) :
    idOf (setChildrenF ocs n) = idOf n := by cases n <;> rfl
theorem expOf_setChildrenF (ocs : Option (List FNode)) (n : FNode) :
    expOf (setChildrenF ocs n) = expOf n := by cases n <;> rfl
theorem nameOf_setChildrenF (ocs : Option (List FNode)) (n : FNode) :
    nameOf (setChildrenF ocs n) = nameOf n := by cases n <;> rfl
theorem flatOf_setChildrenF (ocs : Option (List FNode)) (n : FNode) :
    flatOf (setChildrenF ocs n) = flatOf n := by cases n <;> rfl
theorem bSizeOf_setChildrenF (ocs : Option (List FNode)) (n : FNode) :
    bSizeOf (setChildrenF ocs n) = bSizeOf n := by cases n <;> rfl

theorem idOf_mapChildAt (i : Nat) (f : FNode → FNode) (n : FNode) :
    idOf (mapChildAt i f n) = idOf n := by
  cases n with
  | file a b => rfl
  | dir a b e cs fl bs => cases cs <;> rfl
theorem expOf_mapChildAt (i : Nat) (f : FNode → FNode) (n : FNode) :
    expOf (mapChildAt i f n) = expOf n := by
  cases n with
  | file a b => rfl
  | dir a b e cs fl bs => cases cs <;> rfl
theorem nameOf_mapChildAt (i : Nat) (f : FNode → FNode) (n : FNode) :
    nameOf (mapChildAt i f n) = nameOf n := by
  cases n with
  | file a b => rfl
  | dir a b e cs fl bs => cases cs <;> rfl
theorem flatOf_mapChildAt (i : Nat) (f : FNode → FNode) (n : FNode) :
    flatOf (mapChildAt i f n) = flatOf n := by
  cases n with
  | file a b => rfl
  | dir a b e cs fl bs => cases cs <;> rfl
theorem bSizeOf_mapChildAt (i : Nat) (f : FNode → FNode) (n : FNode) :
    bSizeOf (mapChildAt i f n) = bSizeOf n := by
  cases n with
  | file a b => rfl
  | dir a b e cs fl bs => cases cs <;> rfl
theorem childrenOf_mapChildAt (i : Nat) (f : FNode → FNode) (n : FNode) :
    childrenOf (mapChildAt i f n)
      = (childrenOf n).map (fun cs => cs.map (fun c => if idOf c == i then f c else c)) := by
  cases n with
  | file a b => rfl
  | dir a b e cs fl bs => cases cs <;> rfl

/-- Finding a child by id in a child list rewritten at that id, when the
rewrite preserves ids. -/
theorem find?_map_rewrite (cs : List FNode) (i : Nat) (f : FNode → FNode)
    (hid : ∀ c, idOf (f c) = idOf c) :
    (cs.map (fun c => if idOf c == i then f c else c)).find? (fun c => idOf c == i)
      = (cs.find? (fun c => idOf c == i)).map (fun c => if idOf c == i then f c else c) := by
  induction cs with
  | nil => rfl
  | cons c cs ih =>
      by_cases h : idOf c == i
      · simp only [List.map_cons, List.find?_cons, h, if_true, hid, List.find?, Option.map]
      · have hb : (idOf c == i) = false := by simpa using h
        simp only [List.map_cons, List.find?_cons, hb, if_false, List.find?, Bool.false_eq_true]
        exact ih

theorem fieldOnly_addB (d : Nat) : FieldOnly (addB d) :=
  ⟨idOf_addB d, nameOf_addB d, expOf_addB d, childrenOf_addB d⟩
theorem fieldOnly_subB (d : Nat) : FieldOnly (subB d) :=
  ⟨idOf_subB d, nameOf_subB d, expOf_subB d, childrenOf_subB d⟩
theorem fieldOnly_setFlatF (fl : Option (List Nat)) : FieldOnly (setFlatF fl) :=
  ⟨idOf_setFlatF fl, nameOf_setFlatF fl, expOf_setFlatF fl, childrenOf_setFlatF fl⟩
theorem fieldOnly_id : FieldOnly id :=
  ⟨fun _ => rfl, fun _ => rfl, fun _ => rfl, fun _ => rfl⟩

/-- W0: the update passes preserve the id of the node they start at. -/
theorem walkApply_idOf (bump setF : FNode → FNode) (endF : Nat → FNode → FNode)
    (bc oe : Nat → Bool)
    (hb : ∀ n, idOf (bump n) = idOf n) (hs : ∀ n, idOf (setF n) = idOf n)
    (he : ∀ d n, idOf (endF d n) = idOf n) :
    ∀ (rest : List Nat) (d : Nat) (n : FNode),
      idOf (walkApply bump setF endF bc oe d rest n) = idOf n := by
  intro rest
  induction rest with
  | nil => intro d n; exact he d n
  | cons i rs ih =>
      intro d n
      unfold walkApply
      rw [idOf_mapChildAt]
      by_cases h1 : oe d <;> by_cases h2 : bc d <;> simp [h1, h2, hb, hs]

/-- W1: the node at the full path of an update pass is exactly the original
node transformed by the end rewrite. -/
theorem walkApply_getAt_end (bump setF : FNode → FNode) (endF : Nat → FNode → FNode)
    (bc oe : Nat → Bool)
    (hb : FieldOnly bump) (hs : FieldOnly setF)
    (he : ∀ d n, idOf (endF d n) = idOf n) :
    ∀ (rest : List Nat) (d : Nat) (n m : FNode), getAt rest n = some m →
      getAt rest (walkApply bump setF endF bc oe d rest n)
        = some (endF (d + rest.length) m) := by
  intro rest
  induction rest with
  | nil =>
      intro d n m hm
      cases hm
      rfl
  | cons i rs ih =>
      intro d n m hm
      unfold getAt at hm
      rcases hcs : childrenOf n with _ | cs
      · rw [hcs] at hm; cases hm
      · rw [hcs] at hm
        dsimp only at hm
        rcases hfind : cs.find? (fun c => idOf c == i) with _ | c
        · rw [hfind] at hm; cases hm
        · rw [hfind] at hm
          dsimp only at hm
          unfold walkApply getAt
          have hch : childrenOf
              (if oe d then setF (if bc d then bump n else n) else if bc d then bump n else n)
              = some cs := by
            by_cases h1 : oe d <;> by_cases h2 : bc d <;>
              simp [h1, h2, hb.2.2.2, hs.2.2.2, hcs]
          rw [childrenOf_mapChildAt, hch]
          simp only [Option.map_some']
          rw [find?_map_rewrite cs i _ (fun c =>
            walkApply_idOf bump setF endF bc oe hb.1 hs.1 he rs (d + 1) c)]
          rw [hfind]
          simp only [Option.map_some']
          have hc : (idOf c == i) = true := by
            have := List.find?_some hfind
            simpa using this
          rw [if_pos hc]
          have := ih (d + 1) c m hm
          rw [this]
          congr 2
          simp only [List.length_cons]
          omega

/-- W2: at a proper prefix of the path, an update pass changes only the
branch size (when the bump condition holds at that depth) and the flat array
(when that depth is the owner), leaving id, name, expansion state and the
child id list untouched. -/
theorem walkApply_getAt_take (bump setF : FNode → FNode) (endF : Nat → FNode → FNode)
    (bc oe : Nat → Bool)
    (hb : FieldOnly bump) (hs : FieldOnly setF)
    (hbf : ∀ n, flatOf (bump n) = flatOf n) (hsb : ∀ n, bSizeOf (setF n) = bSizeOf n)
    (he : ∀ d n, idOf (endF d n) = idOf n) :
    ∀ (rest : List Nat) (j d : Nat) (n m : FNode), j < rest.length →
      getAt (rest.take j) n = some m →
      ∃ m2, getAt (rest.take j) (walkApply bump setF endF bc oe d rest n) = some m2
        ∧ idOf m2 = idOf m ∧ nameOf m2 = nameOf m ∧ expOf m2 = expOf m
        ∧ bSizeOf m2 = bSizeOf ((if bc (d + j) then bump else id) m)
        ∧ flatOf m2 = flatOf ((if oe (d + j) then setF else id)
            ((if bc (d + j) then bump else id) m)) := by
  intro rest
  induction rest with
  | nil => intro j d n m hj; exact absurd hj (by simp)
  | cons i rs ih =>
      intro j d n m hj hm
      cases j with
      | zero =>
          cases hm
          unfold walkApply
          simp only [Nat.add_zero]
          refine ⟨_, rfl, ?_, ?_, ?_, ?_, ?_⟩
          · rw [idOf_mapChildAt]
            by_cases h1 : oe d <;> by_cases h2 : bc d <;> simp [h1, h2, hb.1, hs.1]
          · rw [nameOf_mapChildAt]
            by_cases h1 : oe d <;> by_cases h2 : bc d <;> simp [h1, h2, hb.2.1, hs.2.1]
          · rw [expOf_mapChildAt]
            by_cases h1 : oe d <;> by_cases h2 : bc d <;> simp [h1, h2, hb.2.2.1, hs.2.2.1]
          · rw [bSizeOf_mapChildAt]
            by_cases h1 : oe d <;> by_cases h2 : bc d <;> simp [h1, h2, hsb]
          · rw [flatOf_mapChildAt]
            by_cases h1 : oe d <;> by_cases h2 : bc d <;> simp [h1, h2, hbf]
      | succ k =>
          simp only [List.take_succ_cons] at hm ⊢
          unfold getAt at hm
          rcases hcs : childrenOf n with _ | cs
          · rw [hcs] at hm; cases hm
          · rw [hcs] at hm
            dsimp only at hm
            rcases hfind : cs.find? (fun c => idOf c == i) with _ | c
            · rw [hfind] at hm; cases hm
            · rw [hfind] at hm
              dsimp only at hm
              unfold walkApply getAt
              have hch : childrenOf
                  (if oe d then setF (if bc d then bump n else n) else if bc d then bump n else n)
                  = some cs := by
                by_cases h1 : oe d <;> by_cases h2 : bc d <;>
                  simp [h1, h2, hb.2.2.2, hs.2.2.2, hcs]
              rw [childrenOf_mapChildAt, hch]
              simp only [Option.map_some']
              rw [find?_map_rewrite cs i _ (fun c =>
                walkApply_idOf bump setF endF bc oe hb.1 hs.1 he rs (d + 1) c)]
              rw [hfind]
              simp only [Option.map_some']
              have hc : (idOf c == i) = true := by
                have := List.find?_some hfind
                simpa using this
              rw [if_pos hc]
              have hlen : k < rs.length := by
                simp only [List.length_cons] at hj; omega
              obtain ⟨m2, h1, h2, h3, h4, h5, h6⟩ := ih k (d + 1) c m hlen hm
              have harith : d + 1 + k = d + (k + 1) := by omega
              rw [harith] at h5 h6
              exact ⟨m2, h1, h2, h3, h4, h5, h6⟩

theorem bSizeOf_addB (d : Nat) (n : FNode) (h : isDirN n = true) :
    bSizeOf (addB d n) = bSizeOf n + d := by
  cases n with
  | file a b => cases h
  | dir a b e cs fl bs => rfl

theorem isDirN_of_children (n : FNode) (cs : List FNode) (h : childrenOf n = some cs) :
    isDirN n = true := by
  cases n with
  | file a b => cases h
  | dir a b e ocs fl bs => rfl

theorem getAt_take_children :
    ∀ (p : List Nat) (j : Nat) (t m br : FNode), j < p.length →
      getAt p t = some br → getAt (p.take j) t = some m →
      ∃ cs, childrenOf m = some cs := by
  intro p
  induction p with
  | nil => intro j t m br hj; exact absurd hj (by simp)
  | cons i rs ih =>
      intro j t m br hj hget hm
      unfold getAt at hget
      rcases hcs : childrenOf t with _ | cs
      · rw [hcs] at hget; cases hget
      · rw [hcs] at hget
        dsimp only at hget
        rcases hfind : cs.find? (fun c => idOf c == i) with _ | c
        · rw [hfind] at hget; cases hget
        · rw [hfind] at hget
          dsimp only at hget
          cases j with
          | zero =>
              cases hm
              exact ⟨cs, hcs⟩
          | succ k =>
              simp only [List.take_succ_cons] at hm
              unfold getAt at hm
              rw [hcs] at hm
              dsimp only at hm
              rw [hfind] at hm
              dsimp only at hm
              have hk : k < rs.length := by simp only [List.length_cons] at hj; omega
              exact ih k c m br hk hget hm

theorem bSizeOf_subB (d : Nat) (n : FNode) : bSizeOf (subB d n) = bSizeOf n - d := by
  cases n with
  | file a b =>
      show (0 : Nat) = 0 - d
      omega
  | dir a b e cs fl bs => rfl

theorem ownerDepth_le (t : FNode) (p : List Nat) (bound d : Nat)
    (h : ownerDepth t p bound = some d) : d ≤ bound := by
  unfold ownerDepth at h
  have hmem := List.mem_of_find?_eq_some h
  simp only [List.mem_reverse, List.mem_range] at hmem
  omega

/-- C4 counterexample: in the consistent two-level tree whose root (two
visible rows) owns the flat array and whose expanded child a is collapsed,
the owner of the reclaim walk is the root, yet the root's branchSize drops
from 2 to 1 during `setCollapsed` - the claim asserts the owning ancestor's
branchSize is left unchanged. -/
theorem c4_counterexample :
    let t : TreeState := ⟨.dir 0 "" true
      (some [.dir 1 "a" true (some [.file 2 "f"]) none 1]) (some [1, 2]) 2, 3⟩
    ownerDepth t.root [1] 0 = some 0
    ∧ bSizeOf t.root = 2
    ∧ bSizeOf (setCollapsedM t [1]).1.root = 1 := by
  decide

/-- C4 (amended): during `setCollapsed` of the directory D at path p, the
reclaim walk decreases the branchSize of every strict ancestor from D's
parent up to AND INCLUDING the owning ancestor (the node at the owner depth
of the walk) by exactly D's branchSize; ancestors strictly above the owner
are untouched, and D's own branchSize is unchanged. -/
theorem c4_collapse_sizes (s : TreeState) (p : List Nat) (br : FNode) (d : Nat)
    (hne : p ≠ []) (hget : getAt p s.root = some br) (hexp : expOf br = true)
    (hload : loadedB br = true) (hod : ownerDepth s.root p (p.length - 1) = some d) :
    (∀ j m, d ≤ j → j < p.length → getAt (p.take j) s.root = some m →
        bAt (setCollapsedM s p).1.root (p.take j) = bSizeOf m - bSizeOf br)
    ∧ (∀ j m, j < d → getAt (p.take j) s.root = some m →
        bAt (setCollapsedM s p).1.root (p.take j) = bSizeOf m)
    ∧ bAt (setCollapsedM s p).1.root p = bSizeOf br := by
  cases p with
  | nil => exact absurd rfl hne
  | cons i p0 =>
      have hres : (setCollapsedM s (i :: p0)).1.root
          = updAt (setExpF false) (i :: p0) (shrinkStep s.root (i :: p0)) := by
        unfold setCollapsedM
        rw [hget]
        dsimp only
        rw [hexp]
        simp [hload]
      obtain ⟨F2, ret, hshr⟩ : ∃ F2 ret, shrinkStep s.root (i :: p0)
          = shrinkApply (bSizeOf br) (some d) F2 ret 0 (i :: p0) s.root := by
        unfold shrinkStep
        rw [hget]
        dsimp only
        rw [hod]
        exact ⟨_, _, rfl⟩
      rw [hres, hshr, shrinkApply_eq_walk]
      have hup := updAt_eq_walk (setExpF false)
      refine ⟨?_, ?_, ?_⟩
      · intro j m hdj hjlen hm
        obtain ⟨m2, hg2, hid2, hnm2, hex2, hb2, hf2⟩ :=
          walkApply_getAt_take (subB (bSizeOf br)) (setFlatF (some F2))
            (fun _ m => if (some d : Option Nat).isSome then setFlatF (some ret) m else m)
            (fun d2 => (some d : Option Nat).isNone || decide ((some d : Option Nat).getD 0 ≤ d2))
            (fun d2 => (some d : Option Nat) == some d2)
            (fieldOnly_subB _) (fieldOnly_setFlatF _) (flatOf_subB _) (bSizeOf_setFlatF _)
            (fun d2 n => by simp [idOf_setFlatF])
            (i :: p0) j 0 s.root m hjlen hm
        rw [hup _ 0]
        obtain ⟨m3, hg3, hid3, hnm3, hex3, hb3, hf3⟩ :=
          walkApply_getAt_take id id (fun _ => setExpF false) (fun _ => false) (fun _ => false)
            fieldOnly_id fieldOnly_id (fun _ => rfl) (fun _ => rfl)
            (fun _ n => idOf_setExpF false n)
            (i :: p0) j 0 _ m2 hjlen hg2
        unfold bAt
        rw [hg3]
        dsimp only
        rw [hb3]
        simp only [if_neg Bool.false_ne_true, id_eq]
        rw [hb2]
        have hbc : ((some d : Option Nat).isNone || decide ((some d : Option Nat).getD 0 ≤ 0 + j))
            = true := by
          simp [hdj]
        rw [hbc, if_pos rfl, bSizeOf_subB]
      · intro j m hjd hm
        have hjlen : j < (i :: p0).length := by
          have hd : d ≤ (i :: p0).length - 1 :=
            ownerDepth_le s.root (i :: p0) ((i :: p0).length - 1) d hod
          simp only [List.length_cons] at *
          omega
        obtain ⟨m2, hg2, hid2, hnm2, hex2, hb2, hf2⟩ :=
          walkApply_getAt_take (subB (bSizeOf br)) (setFlatF (some F2))
            (fun _ m => if (some d : Option Nat).isSome then setFlatF (some ret) m else m)
            (fun d2 => (some d : Option Nat).isNone || decide ((some d : Option Nat).getD 0 ≤ d2))
            (fun d2 => (some d : Option Nat) == some d2)
            (fieldOnly_subB _) (fieldOnly_setFlatF _) (flatOf_subB _) (bSizeOf_setFlatF _)
            (fun d2 n => by simp [idOf_setFlatF])
            (i :: p0) j 0 s.root m hjlen hm
        rw [hup _ 0]
        obtain ⟨m3, hg3, hid3, hnm3, hex3, hb3, hf3⟩ :=
          walkApply_getAt_take id id (fun _ => setExpF false) (fun _ => false) (fun _ => false)
            fieldOnly_id fieldOnly_id (fun _ => rfl) (fun _ => rfl)
            (fun _ n => idOf_setExpF false n)
            (i :: p0) j 0 _ m2 hjlen hg2
        unfold bAt
        rw [hg3]
        dsimp only
        rw [hb3]
        simp only [if_neg Bool.false_ne_true, id_eq]
        rw [hb2]
        have hbc : ((some d : Option Nat).isNone || decide ((some d : Option Nat).getD 0 ≤ 0 + j))
            = false := by
          simp
          omega
        rw [hbc]
        simp
      · have hend1 := walkApply_getAt_end (subB (bSizeOf br)) (setFlatF (some F2))
          (fun _ m => if (some d : Option Nat).isSome then setFlatF (some ret) m else m)
          (fun d2 => (some d : Option Nat).isNone || decide ((some d : Option Nat).getD 0 ≤ d2))
          (fun d2 => (some d : Option Nat) == some d2)
          (fieldOnly_subB _) (fieldOnly_setFlatF _)
          (fun d2 n => by simp [idOf_setFlatF])
          (i :: p0) 0 s.root br hget
        rw [hup _ 0]
        have hend2 := walkApply_getAt_end id id (fun _ => setExpF false)
          (fun _ => false) (fun _ => false) fieldOnly_id fieldOnly_id
          (fun _ n => idOf_setExpF false n)
          (i :: p0) 0 _ _ hend1
        unfold bAt
        rw [hend2]
        dsimp only
        simp [bSizeOf_setExpF, bSizeOf_setFlatF]

/-- C4 witness: the amended theorem applied to the counterexample tree,
with the owner (the root, depth 0) losing exactly D's branchSize. -/
theorem c4_witness :
    getAt [1] (FNode.dir 0 "" true (some [.dir 1 "a" true (some [.file 2 "f"]) none 1])
        (some [1, 2]) 2) = some (.dir 1 "a" true (some [.file 2 "f"]) none 1)
    ∧ bAt (setCollapsedM ⟨.dir 0 "" true
        (some [.dir 1 "a" true (some [.file 2 "f"]) none 1]) (some [1, 2]) 2, 3⟩ [1]).1.root []
      = 2 - 1 := by
  refine ⟨rfl, ?_⟩
  have h := (c4_collapse_sizes
    ⟨.dir 0 "" true (some [.dir 1 "a" true (some [.file 2 "f"]) none 1]) (some [1, 2]) 2, 3⟩
    [1] (.dir 1 "a" true (some [.file 2 "f"]) none 1) 0
    (by decide) rfl rfl rfl (by decide)).1 0
    (.dir 0 "" true (some [.dir 1 "a" true (some [.file 2 "f"]) none 1]) (some [1, 2]) 2)
    (by decide) (by decide) rfl
  simpa using h

end Aspen

namespace Aspen



theorem attach_flatMap_eq {α β : Type} (l : List α) (f : α → List β) :
    l.attach.flatMap (fun x => f x.1) = l.flatMap f := by
  induction l with
  | nil => rfl
  | cons a l ih =>
      rw [List.attach_cons, List.flatMap_cons, List.flatMap_cons, ← ih]
      congr 1
      rw [List.flatMap_map]

theorem attach_all_eq {α : Type} (l : List α) (f : α → Bool) :
    l.attach.all (fun x => f x.1) = l.all f := by
  rw [Bool.eq_iff_iff, List.all_eq_true, List.all_eq_true]
  constructor
  · intro h x hx
    exact h ⟨x, hx⟩ (List.mem_attach l ⟨x, hx⟩)
  · intro h x _
    exact h x.1 x.2

theorem attach_map_eq {α β : Type} (l : List α) (f : α → β) :
    l.attach.map (fun x => f x.1) = l.map f := by
  induction l with
  | nil => rfl
  | cons a l ih =>
      rw [List.attach_cons, List.map_cons, List.map_cons, ← ih]
      congr 1
      rw [List.map_map]
      rfl

theorem visSeq_file (a : Nat) (b : String) : visSeq (.file a b) = [] := by rw [visSeq]

theorem visSeq_none (a : Nat) (b : String) (e : Bool) (fl : Option (List Nat)) (bs : Nat) :
    visSeq (.dir a b e none fl bs) = [] := by rw [visSeq]

theorem visSeq_dir (i : Nat) (s : String) (e : Bool) (cs : List FNode)
    (fl : Option (List Nat)) (b : Nat) :
    visSeq (.dir i s e (some cs) fl b) = cs.flatMap contrib := by
  rw [visSeq, ← attach_flatMap_eq cs contrib]
  congr 1

theorem subIds_file (a : Nat) (b : String) : subIds (.file a b) = [] := by rw [subIds]

theorem subIds_none (a : Nat) (b : String) (e : Bool) (fl : Option (List Nat)) (bs : Nat) :
    subIds (.dir a b e none fl bs) = [] := by rw [subIds]

theorem subIds_dir (i : Nat) (s : String) (e : Bool) (cs : List FNode)
    (fl : Option (List Nat)) (b : Nat) :
    subIds (.dir i s e (some cs) fl b) = cs.flatMap allIds := by
  rw [subIds, ← attach_flatMap_eq cs allIds]
  congr 1

theorem allFlats_file (a : Nat) (b : String) : allFlats (.file a b) = [] := by rw [allFlats]

theorem allFlats_none (a : Nat) (b : String) (e : Bool) (fl : Option (List Nat)) (bs : Nat) :
    allFlats (.dir a b e none fl bs) = fl.toList := by rw [allFlats]

theorem allFlats_dir (i : Nat) (s : String) (e : Bool) (cs : List FNode)
    (fl : Option (List Nat)) (b : Nat) :
    allFlats (.dir i s e (some cs) fl b) = fl.toList ++ cs.flatMap allFlats := by
  rw [allFlats, ← attach_flatMap_eq cs allFlats]

theorem goodB_file (a : Nat) (b : String) (isRoot : Bool) :
    goodB (.file a b) isRoot = true := by rw [goodB]

theorem goodB_none (a : Nat) (b : String) (e : Bool) (fl : Option (List Nat)) (bs : Nat)
    (isRoot : Bool) :
    goodB (.dir a b e none fl bs) isRoot = ((bs == 0) && (fl == none) && (e == false)) := by
  rw [goodB]

theorem goodB_dir (i : Nat) (s : String) (e : Bool) (cs : List FNode)
    (fl : Option (List Nat)) (b : Nat) (isRoot : Bool) :
    goodB (.dir i s e (some cs) fl b) isRoot =
      ((b == (visSeq (.dir i s e (some cs) fl b)).length)
        && (fl == (if isRoot || !e then some (visSeq (.dir i s e (some cs) fl b)) else none))
        && sortedB cs
        && cs.all (fun c => goodB c false)) := by
  rw [goodB, ← attach_all_eq cs (fun c => goodB c false)]

theorem ownershipOKB_file (a : Nat) (b : String) (isRoot : Bool) :
    ownershipOKB (.file a b) isRoot = true := by rw [ownershipOKB]

theorem ownershipOKB_none (a : Nat) (b : String) (e : Bool) (fl : Option (List Nat)) (bs : Nat)
    (isRoot : Bool) :
    ownershipOKB (.dir a b e none fl bs) isRoot = (fl == none) := by rw [ownershipOKB]

theorem ownershipOKB_dir (i : Nat) (s : String) (e : Bool) (cs : List FNode)
    (fl : Option (List Nat)) (b : Nat) (isRoot : Bool) :
    ownershipOKB (.dir i s e (some cs) fl b) isRoot =
      ((fl == (if isRoot || !e then some (visSeq (.dir i s e (some cs) fl b)) else none))
        && cs.all (fun c => ownershipOKB c false)) := by
  rw [ownershipOKB, ← attach_all_eq cs (fun c => ownershipOKB c false)]

theorem contrib_eq (c : FNode) :
    contrib c = idOf c :: (if expOf c then visSeq c else []) := by
  cases c with
  | file a b =>
      rw [contrib, visSeq_file, expOf, idOf]
      rfl
  | dir a b e cs fl bs => rfl


theorem visSeq_setExpF (v : Bool) (n : FNode) : visSeq (setExpF v n) = visSeq n := by
  cases n with
  | file a b => rfl
  | dir a b e cs fl bs =>
      cases cs with
      | none => rw [setExpF, visSeq_none, visSeq_none]
      | some l => rw [setExpF, visSeq_dir, visSeq_dir]

theorem visSeq_setFlatF (fl2 : Option (List Nat)) (n : FNode) :
    visSeq (setFlatF fl2 n) = visSeq n := by
  cases n with
  | file a b => rfl
  | dir a b e cs fl bs =>
      cases cs with
      | none => rw [setFlatF, visSeq_none, visSeq_none]
      | some l => rw [setFlatF, visSeq_dir, visSeq_dir]

theorem visSeq_addB (d : Nat) (n : FNode) : visSeq (addB d n) = visSeq n := by
  cases n with
  | file a b => rfl
  | dir a b e cs fl bs =>
      cases cs with
      | none => rw [addB, visSeq_none, visSeq_none]
      | some l => rw [addB, visSeq_dir, visSeq_dir]

theorem visSeq_subB (d : Nat) (n : FNode) : visSeq (subB d n) = visSeq n := by
  cases n with
  | file a b => rfl
  | dir a b e cs fl bs =>
      cases cs with
      | none => rw [subB, visSeq_none, visSeq_none]
      | some l => rw [subB, visSeq_dir, visSeq_dir]

theorem visSeq_loaded (n : FNode) (cs : List FNode) (h : childrenOf n = some cs) :
    visSeq n = cs.flatMap contrib := by
  cases n with
  | file a b => cases h
  | dir a b e ocs fl bs =>
      cases ocs with
      | none => cases h
      | some l =>
          cases h
          exact visSeq_dir a b e cs fl bs

theorem visSeq_unloaded (n : FNode) (h : childrenOf n = none) : visSeq n = [] := by
  cases n with
  | file a b => exact visSeq_file a b
  | dir a b e ocs fl bs =>
      cases ocs with
      | none => exact visSeq_none a b e fl bs
      | some l => cases h

theorem subIds_loaded (n : FNode) (cs : List FNode) (h : childrenOf n = some cs) :
    subIds n = cs.flatMap allIds := by
  cases n with
  | file a b => cases h
  | dir a b e ocs fl bs =>
      cases ocs with
      | none => cases h
      | some l =>
          cases h
          exact subIds_dir a b e cs fl bs

theorem subIds_unloaded (n : FNode) (h : childrenOf n = none) : subIds n = [] := by
  cases n with
  | file a b => exact subIds_file a b
  | dir a b e ocs fl bs =>
      cases ocs with
      | none => exact subIds_none a b e fl bs
      | some l => cases h

theorem visSeq_subset_subIds : ∀ (n : FNode), ∀ x ∈ visSeq n, x ∈ subIds n := by
  intro n
  induction n using visSeq.induct with
  | case1 a b => intro x hx; rw [visSeq_file] at hx; cases hx
  | case2 a b e fl bs => intro x hx; rw [visSeq_none] at hx; cases hx
  | case3 a b e cs fl bs ih =>
      intro x hx
      rw [visSeq_dir] at hx
      rw [subIds_dir]
      rcases List.mem_flatMap.1 hx with ⟨c, hc, hxc⟩
      refine List.mem_flatMap.2 ⟨c, hc, ?_⟩
      rw [contrib_eq] at hxc
      rcases List.mem_cons.1 hxc with rfl | h2
      · exact List.mem_cons_self _ _
      · by_cases he : expOf c
        · rw [if_pos he] at h2
          refine List.mem_cons.2 (Or.inr ?_)
          exact ih ⟨c, hc⟩ x h2
        · rw [if_neg he] at h2
          cases h2

theorem contrib_subset_allIds (c : FNode) : ∀ x ∈ contrib c, x ∈ allIds c := by
  intro x hx
  rw [contrib_eq] at hx
  rcases List.mem_cons.1 hx with rfl | h2
  · exact List.mem_cons_self _ _
  · by_cases he : expOf c
    · rw [if_pos he] at h2
      exact List.mem_cons.2 (Or.inr (visSeq_subset_subIds c x h2))
    · rw [if_neg he] at h2
      cases h2

theorem contrib_length (c : FNode) (h : goodB c false = true) :
    (contrib c).length = 1 + (if expOf c then bSizeOf c else 0) := by
  rw [contrib_eq]
  by_cases he : expOf c
  · rw [if_pos he, if_pos he]
    simp only [List.length_cons]
    cases c with
    | file a b => cases he
    | dir a b e ocs fl bs =>
        cases ocs with
        | none =>
            rw [goodB_none] at h
            simp only [Bool.and_eq_true, beq_iff_eq] at h
            rw [expOf] at he
            rw [h.2] at he
            cases he
        | some l =>
            rw [goodB_dir] at h
            simp only [Bool.and_eq_true, beq_iff_eq] at h
            rw [bSizeOf, ← h.1.1.1]
            omega
  · rw [if_neg he, if_neg he]
    rfl


theorem canon_file (b : Bool) (a : Nat) (s : String) :
    canon b (.file a s) = .file a s := by rw [canon]

theorem canon_none (b : Bool) (a : Nat) (s : String) (e : Bool) (fl : Option (List Nat))
    (bs : Nat) : canon b (.dir a s e none fl bs) = .dir a s e none none 0 := by rw [canon]

theorem canon_dir (b : Bool) (a : Nat) (s : String) (e : Bool) (cs : List FNode)
    (fl : Option (List Nat)) (bs : Nat) :
    canon b (.dir a s e (some cs) fl bs) =
      .dir a s e (some (cs.map (canon false)))
        (if b || !e then some ((cs.map (canon false)).flatMap contrib) else none)
        ((cs.map (canon false)).flatMap contrib).length := by
  rw [canon, attach_map_eq]

theorem skelOKB_file (a : Nat) (s : String) : skelOKB (.file a s) = true := by rw [skelOKB]

theorem skelOKB_none (a : Nat) (s : String) (e : Bool) (fl : Option (List Nat)) (bs : Nat) :
    skelOKB (.dir a s e none fl bs) = (e == false) := by rw [skelOKB]

theorem skelOKB_dir (a : Nat) (s : String) (e : Bool) (cs : List FNode)
    (fl : Option (List Nat)) (bs : Nat) :
    skelOKB (.dir a s e (some cs) fl bs) = (sortedB cs && cs.all skelOKB) := by
  rw [skelOKB, ← attach_all_eq cs skelOKB]

theorem getAt_nil (n : FNode) : getAt [] n = some n := rfl

theorem updAt_nil (f : FNode → FNode) (n : FNode) : updAt f [] n = f n := rfl

theorem updAt_cons (f : FNode → FNode) (i : Nat) (p : List Nat) (n : FNode) :
    updAt f (i :: p) n = mapChildAt i (updAt f p) n := rfl

theorem getAt_cons (i : Nat) (p : List Nat) (n : FNode) :
    getAt (i :: p) n =
      (childrenOf n).bind (fun cs =>
        (cs.find? (fun c => idOf c == i)).bind (fun c => getAt p c)) := by
  rw [getAt]
  rcases childrenOf n with _ | cs
  · rfl
  · dsimp only [Option.bind]
    rcases cs.find? (fun c => idOf c == i) with _ | c <;> rfl

theorem getAt_append (a : List Nat) :
    ∀ (b : List Nat) (n : FNode), getAt (a ++ b) n = (getAt a n).bind (getAt b) := by
  induction a with
  | nil => intro b n; rfl
  | cons i a ih =>
      intro b n
      rw [List.cons_append, getAt_cons, getAt_cons]
      rcases childrenOf n with _ | cs
      · rfl
      · dsimp only [Option.bind]
        rcases cs.find? (fun c => idOf c == i) with _ | c
        · rfl
        · exact ih b c

theorem getAt_split {a b : List Nat} {n m : FNode} (h : getAt (a ++ b) n = some m) :
    ∃ y, getAt a n = some y ∧ getAt b y = some m := by
  rw [getAt_append] at h
  rcases hy : getAt a n with _ | y
  · rw [hy] at h; cases h
  · rw [hy] at h; exact ⟨y, rfl, h⟩

theorem getAt_congr_children (i : Nat) (p : List Nat) (m1 m2 : FNode)
    (h : childrenOf m1 = childrenOf m2) : getAt (i :: p) m1 = getAt (i :: p) m2 := by
  rw [getAt_cons, getAt_cons, h]

theorem updAt_append (f : FNode → FNode) (a : List Nat) :
    ∀ (b : List Nat) (n : FNode), updAt f (a ++ b) n = updAt (updAt f b) a n := by
  induction a with
  | nil => intro b n; rfl
  | cons i a ih =>
      intro b n
      rw [List.cons_append, updAt_cons, updAt_cons]
      cases n with
      | file x y => rfl
      | dir x y e ocs fl bs =>
          cases ocs with
          | none => rfl
          | some cs =>
              rw [mapChildAt, mapChildAt]
              congr 2
              exact List.map_congr_left (fun c _ => by
                by_cases hc : idOf c == i
                · rw [if_pos hc, if_pos hc, ih]
                · rw [if_neg hc, if_neg hc])

theorem idOf_updAt (f : FNode → FNode) (hid : ∀ m, idOf (f m) = idOf m) :
    ∀ (p : List Nat) (n : FNode), idOf (updAt f p n) = idOf n := by
  intro p n
  cases p with
  | nil => exact hid n
  | cons i p => rw [updAt_cons, idOf_mapChildAt]

theorem getAt_updAt (f : FNode → FNode) (hid : ∀ m, idOf (f m) = idOf m) :
    ∀ (p : List Nat) (n : FNode), getAt p (updAt f p n) = (getAt p n).map f := by
  intro p
  induction p with
  | nil => intro n; rfl
  | cons i p ih =>
      intro n
      rw [updAt_cons, getAt_cons, getAt_cons, childrenOf_mapChildAt]
      rcases childrenOf n with _ | cs
      · rfl
      · dsimp only [Option.map_some', Option.bind]
        rw [find?_map_rewrite cs i _ (fun c => idOf_updAt f hid p c)]
        rcases hf : cs.find? (fun c => idOf c == i) with _ | c
        · rfl
        · dsimp only [Option.map_some']
          have hc : (idOf c == i) = true := by simpa using List.find?_some hf
          rw [if_pos hc]
          exact ih c

theorem getAt_updAt_future (f : FNode → FNode) (hid : ∀ m, idOf (f m) = idOf m)
    (hch : ∀ m, childrenOf (f m) = childrenOf m) (a : List Nat) (i : Nat) (ext : List Nat)
    (n : FNode) : getAt (a ++ i :: ext) (updAt f a n) = getAt (a ++ i :: ext) n := by
  rw [getAt_append, getAt_append, getAt_updAt f hid]
  rcases getAt a n with _ | y
  · rfl
  · exact getAt_congr_children i ext (f y) y (hch y)

theorem mapChildAt_congr (i : Nat) (f g : FNode → FNode) (n : FNode)
    (h : ∀ c, f c = g c) : mapChildAt i f n = mapChildAt i g n := by
  cases n with
  | file a b => rfl
  | dir a b e ocs fl bs =>
      cases ocs with
      | none => rfl
      | some cs =>
          rw [mapChildAt, mapChildAt]
          congr 2
          exact List.map_congr_left (fun c _ => by
            by_cases hc : idOf c == i
            · rw [if_pos hc, if_pos hc, h]
            · rw [if_neg hc, if_neg hc])

theorem mapChildAt_mapChildAt (i : Nat) (f g : FNode → FNode) (n : FNode)
    (hgid : ∀ c, idOf (g c) = idOf c) :
    mapChildAt i f (mapChildAt i g n) = mapChildAt i (fun c => f (g c)) n := by
  cases n with
  | file a b => rfl
  | dir a b e ocs fl bs =>
      cases ocs with
      | none => rfl
      | some cs =>
          rw [mapChildAt, mapChildAt, mapChildAt]
          congr 2
          rw [List.map_map]
          exact List.map_congr_left (fun c _ => by
            by_cases hc : idOf c == i
            · have h2 : (idOf (g c) == i) = true := by rw [hgid]; exact hc
              simp only [Function.comp, if_pos hc, if_pos h2]
            · simp only [Function.comp, if_neg hc])

theorem updAt_updAt (f g : FNode → FNode) (hgid : ∀ m, idOf (g m) = idOf m) :
    ∀ (p : List Nat) (n : FNode), updAt f p (updAt g p n) = updAt (fun m => f (g m)) p n := by
  intro p
  induction p with
  | nil => intro n; rfl
  | cons i p ih =>
      intro n
      rw [updAt_cons, updAt_cons, updAt_cons,
        mapChildAt_mapChildAt i _ _ n (fun c => idOf_updAt g hgid p c)]
      exact mapChildAt_congr i _ _ n (fun c => ih c)


theorem find?_split {α : Type} (p : α → Bool) :
    ∀ (l : List α) (a : α), l.find? p = some a →
      ∃ l1 l2, l = l1 ++ a :: l2 ∧ ∀ x ∈ l1, p x = false := by
  intro l
  induction l with
  | nil => intro a h; cases h
  | cons x l ih =>
      intro a h
      by_cases hx : p x
      · rw [List.find?_cons_of_pos _ hx] at h
        cases h
        exact ⟨[], l, rfl, by intro y hy; cases hy⟩
      · rw [List.find?_cons_of_neg _ hx] at h
        rcases ih a h with ⟨l1, l2, rfl, hl1⟩
        refine ⟨x :: l1, l2, rfl, ?_⟩
        intro y hy
        rcases List.mem_cons.1 hy with rfl | hy2
        · simpa using hx
        · exact hl1 y hy2

theorem nodup_flatMap_mem {α β : Type} (f : α → List β) {l : List α} {a : α}
    (hnd : (l.flatMap f).Nodup) (ha : a ∈ l) : (f a).Nodup := by
  rcases List.append_of_mem ha with ⟨s, t, rfl⟩
  rw [List.flatMap_append, List.flatMap_cons] at hnd
  exact ((List.Nodup.of_append_right hnd).of_append_left)

theorem nodup_child {n : FNode} {cs : List FNode} {c : FNode} (hcs : childrenOf n = some cs)
    (hc : c ∈ cs) (hnd : (allIds n).Nodup) : (allIds c).Nodup := by
  have h1 : (subIds n).Nodup := (List.nodup_cons.1 hnd).2
  rw [subIds_loaded n cs hcs] at h1
  exact nodup_flatMap_mem allIds h1 hc

theorem find_child_split {n : FNode} {cs : List FNode} {i : Nat} {c : FNode}
    (hcs : childrenOf n = some cs) (hf : cs.find? (fun x => idOf x == i) = some c)
    (hnd : (allIds n).Nodup) :
    ∃ l1 l2, cs = l1 ++ c :: l2 ∧ (∀ x ∈ l1, (idOf x == i) = false)
      ∧ (∀ x ∈ l2, (idOf x == i) = false) ∧ (idOf c == i) = true := by
  rcases find?_split _ cs c hf with ⟨l1, l2, rfl, hl1⟩
  have hci : (idOf c == i) = true := by simpa using List.find?_some hf
  refine ⟨l1, l2, rfl, hl1, ?_, hci⟩
  intro x hx
  have h1 : (subIds n).Nodup := (List.nodup_cons.1 hnd).2
  rw [subIds_loaded n _ hcs, List.flatMap_append, List.flatMap_cons] at h1
  have h2 := List.Nodup.of_append_right h1
  have h3 := List.disjoint_of_nodup_append h2
  have h4 : idOf c ∈ allIds c := List.mem_cons_self _ _
  have h5 : idOf x ∈ l2.flatMap allIds :=
    List.mem_flatMap.2 ⟨x, hx, List.mem_cons_self _ _⟩
  by_contra hcon
  have hxi : idOf x = i := by simpa using hcon
  have hcieq : idOf c = i := by simpa using hci
  rw [hcieq] at h4
  rw [hxi] at h5
  exact h3 h4 h5

theorem map_guard_split {l1 l2 : List FNode} {c : FNode} {i : Nat} (f : FNode → FNode)
    (h1 : ∀ x ∈ l1, (idOf x == i) = false) (h2 : ∀ x ∈ l2, (idOf x == i) = false)
    (hc : (idOf c == i) = true) :
    (l1 ++ c :: l2).map (fun x => if idOf x == i then f x else x) = l1 ++ f c :: l2 := by
  rw [List.map_append, List.map_cons, if_pos hc]
  congr 1
  · exact (List.map_congr_left (fun x hx => by
      rw [if_neg (by simp [h1 x hx])])).trans (List.map_id' l1)
  · congr 1
    exact (List.map_congr_left (fun x hx => by
      rw [if_neg (by simp [h2 x hx])])).trans (List.map_id' l2)

theorem updAt_fix (f : FNode → FNode) :
    ∀ (p : List Nat) (n m : FNode), (allIds n).Nodup → getAt p n = some m → f m = m →
      updAt f p n = n := by
  intro p
  induction p with
  | nil =>
      intro n m _ hget hfix
      cases hget
      exact hfix
  | cons i p ih =>
      intro n m hnd hget hfix
      rw [getAt_cons] at hget
      rcases hcs : childrenOf n with _ | cs
      · rw [hcs] at hget; cases hget
      · rw [hcs] at hget
        dsimp only [Option.bind] at hget
        rcases hf : cs.find? (fun x => idOf x == i) with _ | c
        · rw [hf] at hget; cases hget
        · rw [hf] at hget
          have hmem := List.mem_of_find?_eq_some hf
          have hndc := nodup_child hcs hmem hnd
          have hcfix : updAt f p c = c := ih c m hndc hget hfix
          rcases find_child_split hcs hf hnd with ⟨l1, l2, hsplit, hl1, hl2, hci⟩
          rw [updAt_cons]
          cases n with
          | file a b => rfl
          | dir a b e ocs fl bs =>
              cases ocs with
              | none => rfl
              | some cs0 =>
                  have : cs0 = cs := by
                    have := hcs
                    simp only [childrenOf] at this
                    exact Option.some.inj this
                  subst this
                  rw [mapChildAt, hsplit, map_guard_split _ hl1 hl2 hci, hcfix]

theorem allIds_updAt :
    ∀ (p : List Nat) (n m : FNode), (allIds n).Nodup → getAt p n = some m →
      ∃ pre post, allIds n = pre ++ allIds m ++ post ∧
        ∀ f, allIds (updAt f p n) = pre ++ allIds (f m) ++ post := by
  intro p
  induction p with
  | nil =>
      intro n m _ hget
      cases hget
      exact ⟨[], [], by simp, fun f => by simp [updAt_nil]⟩
  | cons i p ih =>
      intro n m hnd hget
      rw [getAt_cons] at hget
      rcases hcs : childrenOf n with _ | cs
      · rw [hcs] at hget; cases hget
      · rw [hcs] at hget
        dsimp only [Option.bind] at hget
        rcases hf : cs.find? (fun x => idOf x == i) with _ | c
        · rw [hf] at hget; cases hget
        · rw [hf] at hget
          have hmem := List.mem_of_find?_eq_some hf
          have hndc := nodup_child hcs hmem hnd
          rcases ih c m hndc hget with ⟨pre, post, heq, hupd⟩
          rcases find_child_split hcs hf hnd with ⟨l1, l2, hsplit, hl1, hl2, hci⟩
          cases n with
          | file a b => cases hcs
          | dir a b e ocs fl bs =>
              cases ocs with
              | none => cases hcs
              | some cs0 =>
                  have hcs0 : cs0 = cs := by
                    simp only [childrenOf] at hcs
                    exact Option.some.inj hcs
                  subst hcs0
                  subst hsplit
                  refine ⟨a :: l1.flatMap allIds ++ pre, post ++ l2.flatMap allIds, ?_, ?_⟩
                  · rw [allIds, subIds_dir, List.flatMap_append, List.flatMap_cons, heq]
                    simp only [idOf, List.cons_append, List.append_assoc]
                  · intro f
                    rw [updAt_cons, mapChildAt, map_guard_split _ hl1 hl2 hci]
                    rw [allIds, subIds_dir, List.flatMap_append, List.flatMap_cons,
                      hupd f]
                    simp only [idOf, List.cons_append, List.append_assoc]

theorem goodB_children {n : FNode} {cs : List FNode} {b : Bool}
    (h : goodB n b = true) (hcs : childrenOf n = some cs) :
    ∀ c ∈ cs, goodB c false = true := by
  cases n with
  | file a s => cases hcs
  | dir a s e ocs fl bs =>
      cases ocs with
      | none => cases hcs
      | some cs0 =>
          have hcs0 : cs0 = cs := by
            simp only [childrenOf] at hcs
            exact Option.some.inj hcs
          subst hcs0
          rw [goodB_dir] at h
          simp only [Bool.and_eq_true, List.all_eq_true] at h
          exact h.2

theorem goodB_getAt :
    ∀ (p : List Nat) (b : Bool) (n m : FNode), goodB n b = true → getAt p n = some m →
      p ≠ [] → goodB m false = true := by
  intro p
  induction p with
  | nil => intro b n m _ _ hne; exact absurd rfl hne
  | cons i p ih =>
      intro b n m hg hget _
      rw [getAt_cons] at hget
      rcases hcs : childrenOf n with _ | cs
      · rw [hcs] at hget; cases hget
      · rw [hcs] at hget
        dsimp only [Option.bind] at hget
        rcases hf : cs.find? (fun x => idOf x == i) with _ | c
        · rw [hf] at hget; cases hget
        · rw [hf] at hget
          have hmem := List.mem_of_find?_eq_some hf
          have hgc := goodB_children hg hcs c hmem
          cases p with
          | nil => cases hget; exact hgc
          | cons j q => exact ih false c m hgc hget (by simp)

theorem goodB_props {n : FNode} {cs : List FNode} {b : Bool}
    (hcs : childrenOf n = some cs) (h : goodB n b = true) :
    bSizeOf n = (visSeq n).length
      ∧ flatOf n = (if b || !expOf n then some (visSeq n) else none)
      ∧ sortedB cs = true := by
  cases n with
  | file a s => cases hcs
  | dir a s e ocs fl bs =>
      cases ocs with
      | none => cases hcs
      | some cs0 =>
          have hcs0 : cs0 = cs := by
            simp only [childrenOf] at hcs
            exact Option.some.inj hcs
          subst hcs0
          rw [goodB_dir] at h
          simp only [Bool.and_eq_true, beq_iff_eq] at h
          exact ⟨h.1.1.1, h.1.1.2, h.1.2⟩

theorem goodB_props_none {n : FNode} {b : Bool} (hdir : isDirN n = true)
    (hcs : childrenOf n = none) (h : goodB n b = true) :
    bSizeOf n = 0 ∧ flatOf n = none ∧ expOf n = false := by
  cases n with
  | file a s => cases hdir
  | dir a s e ocs fl bs =>
      cases ocs with
      | some cs0 => cases hcs
      | none =>
          rw [goodB_none] at h
          simp only [Bool.and_eq_true, beq_iff_eq] at h
          exact ⟨h.1.1, by rw [flatOf, h.1.2], h.2⟩


theorem idxOfN_cons_self (x : Nat) (l : List Nat) : idxOfN (x :: l) x = some 0 := by
  rw [idxOfN, if_pos rfl]

theorem idxOfN_append_notmem {A : List Nat} {x : Nat} (hA : x ∉ A) (l : List Nat) :
    idxOfN (A ++ l) x = (idxOfN l x).map (· + A.length) := by
  induction A with
  | nil => simp [Option.map_id']
  | cons a A ih =>
      have ha : a ≠ x := fun h => hA (h ▸ List.mem_cons_self a A)
      have hA2 : x ∉ A := fun h => hA (List.mem_cons_of_mem a h)
      rw [List.cons_append, idxOfN, if_neg ha, ih hA2]
      rcases idxOfN l x with _ | k
      · rfl
      · simp only [Option.map_some', List.length_cons]
        exact congrArg some (by omega)

theorem idxOfN_split {A : List Nat} {x : Nat} (hA : x ∉ A) (B : List Nat) :
    idxOfN (A ++ x :: B) x = some A.length := by
  rw [idxOfN_append_notmem hA, idxOfN_cons_self]
  simp

theorem jsIdx_split {A : List Nat} {x : Nat} (hA : x ∉ A) (B : List Nat) :
    jsIdx (A ++ x :: B) x = (A.length : Int) := by
  rw [jsIdx, idxOfN_split hA]

theorem idxOfN_none_of_notmem : ∀ {l : List Nat} {x : Nat}, x ∉ l → idxOfN l x = none := by
  intro l
  induction l with
  | nil => intro x _; rfl
  | cons a l ih =>
      intro x hx
      have ha : a ≠ x := fun h => hx (h ▸ List.mem_cons_self a l)
      rw [idxOfN, if_neg ha, ih (fun h => hx (List.mem_cons_of_mem a h))]
      rfl

theorem jsIdx_notmem {l : List Nat} {x : Nat} (hx : x ∉ l) : jsIdx l x = -1 := by
  rw [jsIdx, idxOfN_none_of_notmem hx]

theorem spliceTA_insert (A B X : List Nat) : spliceTA (A ++ B) A.length 0 X = A ++ X ++ B := by
  rw [spliceTA, Nat.add_zero, List.take_left, List.drop_left]

theorem spliceTA_remove (A X B : List Nat) :
    spliceTA (A ++ X ++ B) A.length X.length [] = A ++ B := by
  have h : A ++ X ++ B = A ++ (X ++ B) := List.append_assoc A X B
  rw [spliceTA, h, List.take_left, List.append_nil]
  congr 1
  rw [← h, ← List.length_append A X, List.drop_left]

theorem jsSlice_extract (A X B : List Nat) :
    jsSlice (A ++ X ++ B) A.length (A.length + X.length) = X := by
  have h : A ++ X ++ B = A ++ (X ++ B) := List.append_assoc A X B
  rw [jsSlice, h, List.drop_left, Nat.add_sub_cancel_left, List.take_left]

theorem mem_flatMap_contrib_allIds {l : List FNode} {x : Nat}
    (h : x ∈ l.flatMap contrib) : x ∈ l.flatMap allIds := by
  rcases List.mem_flatMap.1 h with ⟨c, hc, hxc⟩
  exact List.mem_flatMap.2 ⟨c, hc, contrib_subset_allIds c x hxc⟩

theorem getAt_mem_allIds :
    ∀ (p : List Nat) (n m : FNode), getAt p n = some m → idOf m ∈ allIds n := by
  intro p
  induction p with
  | nil =>
      intro n m hget
      cases hget
      exact List.mem_cons_self _ _
  | cons i p ih =>
      intro n m hget
      rw [getAt_cons] at hget
      rcases hcs : childrenOf n with _ | cs
      · rw [hcs] at hget; cases hget
      · rw [hcs] at hget
        dsimp only [Option.bind] at hget
        rcases hf : cs.find? (fun x => idOf x == i) with _ | c
        · rw [hf] at hget; cases hget
        · rw [hf] at hget
          have h1 : idOf m ∈ allIds c := ih c m hget
          have h2 : idOf m ∈ subIds n := by
            rw [subIds_loaded n cs hcs]
            exact List.mem_flatMap.2 ⟨c, List.mem_of_find?_eq_some hf, h1⟩
          exact List.mem_cons_of_mem _ h2

theorem getAt_mem_subIds :
    ∀ (p : List Nat) (n m : FNode), p ≠ [] → getAt p n = some m → idOf m ∈ subIds n := by
  intro p
  induction p with
  | nil => intro n m hne _; exact absurd rfl hne
  | cons i p _ =>
      intro n m _ hget
      rw [getAt_cons] at hget
      rcases hcs : childrenOf n with _ | cs
      · rw [hcs] at hget; cases hget
      · rw [hcs] at hget
        dsimp only [Option.bind] at hget
        rcases hf : cs.find? (fun x => idOf x == i) with _ | c
        · rw [hf] at hget; cases hget
        · rw [hf] at hget
          have h1 : idOf m ∈ allIds c := getAt_mem_allIds p c m hget
          rw [subIds_loaded n cs hcs]
          exact List.mem_flatMap.2 ⟨c, List.mem_of_find?_eq_some hf, h1⟩

theorem visSeq_decomp :
    ∀ (p : List Nat) (n m : FNode), (allIds n).Nodup → p ≠ [] → getAt p n = some m →
      (∀ k, 0 < k → k < p.length → ∀ y, getAt (p.take k) n = some y → expOf y = true) →
      ∃ A B, visSeq n = A ++ contrib m ++ B ∧ idOf m ∉ A ∧ idOf m ∉ B
        ∧ ∀ f, visSeq (updAt f p n) = A ++ contrib (f m) ++ B := by
  intro p
  induction p with
  | nil => intro n m _ hne _ _; exact absurd rfl hne
  | cons i p ih =>
      intro n m hnd _ hget hchain
      rw [getAt_cons] at hget
      rcases hcs : childrenOf n with _ | cs
      · rw [hcs] at hget; cases hget
      · rw [hcs] at hget
        dsimp only [Option.bind] at hget
        rcases hf : cs.find? (fun x => idOf x == i) with _ | c
        · rw [hf] at hget; cases hget
        · rw [hf] at hget
          rcases find_child_split hcs hf hnd with ⟨l1, l2, hsplit, hl1, hl2, hci⟩
          have hsub : (subIds n).Nodup := (List.nodup_cons.1 hnd).2
          rw [subIds_loaded n cs hcs, hsplit, List.flatMap_append, List.flatMap_cons] at hsub
          have hdisj1 : (l1.flatMap allIds).Disjoint (allIds c ++ l2.flatMap allIds) :=
            List.disjoint_of_nodup_append hsub
          have hdisj2 : (allIds c).Disjoint (l2.flatMap allIds) :=
            List.disjoint_of_nodup_append (List.Nodup.of_append_right hsub)
          have hmidc : idOf m ∈ allIds c := getAt_mem_allIds p c m hget
          have hnotl1 : idOf m ∉ l1.flatMap contrib := fun h =>
            hdisj1 (mem_flatMap_contrib_allIds h) (List.mem_append_left _ hmidc)
          have hnotl2 : idOf m ∉ l2.flatMap contrib := fun h =>
            hdisj2 hmidc (mem_flatMap_contrib_allIds h)
          cases n with
          | file a b => cases hcs
          | dir a b e ocs fl bs =>
              cases ocs with
              | none => cases hcs
              | some cs0 =>
                  have hcs0 : cs0 = cs := by
                    simp only [childrenOf] at hcs
                    exact Option.some.inj hcs
                  subst hcs0
                  subst hsplit
                  cases p with
                  | nil =>
                      cases hget
                      refine ⟨l1.flatMap contrib, l2.flatMap contrib, ?_, hnotl1, hnotl2, ?_⟩
                      · rw [visSeq_dir, List.flatMap_append, List.flatMap_cons,
                          List.append_assoc]
                      · intro f
                        rw [updAt_cons, mapChildAt_congr i (updAt f []) f _ (fun c => rfl)]
                        rw [mapChildAt, map_guard_split _ hl1 hl2 hci]
                        rw [visSeq_dir, List.flatMap_append, List.flatMap_cons,
                          List.append_assoc]
                  | cons j q =>
                      have hexpc : expOf c = true := by
                        have hlen : 1 < (i :: j :: q).length := by
                          simp only [List.length_cons]
                          omega
                        have h1 := hchain 1 Nat.one_pos hlen
                        refine h1 c ?_
                        have ht : List.take 1 (i :: j :: q) = [i] := rfl
                        rw [ht, getAt_cons, hcs]
                        dsimp only [Option.bind]
                        rw [hf]
                        rfl
                      have hndc := nodup_child hcs (List.mem_of_find?_eq_some hf) hnd
                      have hchainc : ∀ k, 0 < k → k < (j :: q).length →
                          ∀ y, getAt ((j :: q).take k) c = some y → expOf y = true := by
                        intro k hk1 hk2 y hy
                        have hlen : k + 1 < (i :: j :: q).length := by
                          simp only [List.length_cons] at hk2 ⊢
                          omega
                        refine hchain (k + 1) (Nat.succ_pos k) hlen y ?_
                        have ht : List.take (k + 1) (i :: j :: q) = i :: List.take k (j :: q) :=
                          rfl
                        rw [ht, getAt_cons, hcs]
                        dsimp only [Option.bind]
                        rw [hf]
                        exact hy
                      rcases ih c m hndc (by simp) hget hchainc with ⟨A2, B2, hv, hA2, hB2, hu⟩
                      refine ⟨l1.flatMap contrib ++ idOf c :: A2, B2 ++ l2.flatMap contrib,
                        ?_, ?_, ?_, ?_⟩
                      · rw [visSeq_dir, List.flatMap_append, List.flatMap_cons]
                        rw [contrib_eq c, if_pos hexpc, hv]
                        simp [List.append_assoc]
                      · intro h
                        rcases List.mem_append.1 h with h | h
                        · exact hnotl1 h
                        · rcases List.mem_cons.1 h with h | h
                          · have h2 : idOf m ∈ subIds c := getAt_mem_subIds _ c m (by simp) hget
                            have h3 := (List.nodup_cons.1 hndc).1
                            rw [h] at h2
                            exact h3 h2
                          · exact hA2 h
                      · intro h
                        rcases List.mem_append.1 h with h | h
                        · exact hB2 h
                        · exact hnotl2 h
                      · intro f
                        rw [updAt_cons, mapChildAt, map_guard_split _ hl1 hl2 hci]
                        rw [visSeq_dir, List.flatMap_append, List.flatMap_cons]
                        have hid2 : idOf (updAt f (j :: q) c) = idOf c := by
                          rw [updAt_cons, idOf_mapChildAt]
                        have hexp2 : expOf (updAt f (j :: q) c) = expOf c := by
                          rw [updAt_cons, expOf_mapChildAt]
                        rw [contrib_eq (updAt f (j :: q) c), hid2, hexp2, if_pos hexpc,
                          hu f]
                        simp [List.append_assoc]

theorem visSeq_decomp_pos {p : List Nat} {n m : FNode} {A B : List Nat}
    (hv : visSeq n = A ++ contrib m ++ B) (hA : idOf m ∉ A) :
    idxOfN (visSeq n) (idOf m) = some A.length := by
  rw [hv, contrib_eq, List.append_assoc, List.cons_append]
  exact idxOfN_split hA _


theorem flatMap_map_congr {α β : Type} (f : α → α) (g : α → List β) :
    ∀ (l : List α), (∀ c ∈ l, g (f c) = g c) → (l.map f).flatMap g = l.flatMap g := by
  intro l
  induction l with
  | nil => intro _; rfl
  | cons c l ih =>
      intro h
      rw [List.map_cons, List.flatMap_cons, List.flatMap_cons,
        h c (List.mem_cons_self c l), ih (fun x hx => h x (List.mem_cons_of_mem c hx))]

theorem all_map_congr {α : Type} (f : α → α) (g : α → Bool) :
    ∀ (l : List α), (∀ c ∈ l, g (f c) = g c) → (l.map f).all g = l.all g := by
  intro l
  induction l with
  | nil => intro _; rfl
  | cons c l ih =>
      intro h
      rw [List.map_cons, List.all_cons, List.all_cons,
        h c (List.mem_cons_self c l), ih (fun x hx => h x (List.mem_cons_of_mem c hx))]

theorem idOf_canon (b : Bool) (n : FNode) : idOf (canon b n) = idOf n := by
  cases n with
  | file a s => rw [canon_file]
  | dir a s e ocs fl bs =>
      cases ocs with
      | none => rw [canon_none]; rfl
      | some cs => rw [canon_dir]; rfl

theorem nameOf_canon (b : Bool) (n : FNode) : nameOf (canon b n) = nameOf n := by
  cases n with
  | file a s => rw [canon_file]
  | dir a s e ocs fl bs =>
      cases ocs with
      | none => rw [canon_none]; rfl
      | some cs => rw [canon_dir]; rfl

theorem expOf_canon (b : Bool) (n : FNode) : expOf (canon b n) = expOf n := by
  cases n with
  | file a s => rw [canon_file]
  | dir a s e ocs fl bs =>
      cases ocs with
      | none => rw [canon_none]; rfl
      | some cs => rw [canon_dir]; rfl

theorem isDirN_canon (b : Bool) (n : FNode) : isDirN (canon b n) = isDirN n := by
  cases n with
  | file a s => rw [canon_file]
  | dir a s e ocs fl bs =>
      cases ocs with
      | none => rw [canon_none]; rfl
      | some cs => rw [canon_dir]; rfl

theorem childrenOf_canon (b : Bool) (n : FNode) :
    childrenOf (canon b n) = (childrenOf n).map (List.map (canon false)) := by
  cases n with
  | file a s => rw [canon_file]; rfl
  | dir a s e ocs fl bs =>
      cases ocs with
      | none => rw [canon_none]; rfl
      | some cs => rw [canon_dir]; rfl

theorem loadedB_canon (b : Bool) (n : FNode) : loadedB (canon b n) = loadedB n := by
  rw [loadedB, loadedB, childrenOf_canon]
  rcases childrenOf n with _ | cs <;> rfl

theorem visSeq_canon : ∀ (n : FNode), (∀ b, visSeq (canon b n) = visSeq n)
    ∧ contrib (canon false n) = contrib n := by
  intro n
  induction n using visSeq.induct with
  | case1 a s =>
      refine ⟨fun b => by rw [canon_file], ?_⟩
      rw [canon_file]
  | case2 a s e fl bs =>
      refine ⟨fun b => by rw [canon_none, visSeq_none, visSeq_none], ?_⟩
      rw [canon_none, contrib_eq, contrib_eq]
      rw [visSeq_none, visSeq_none]
      rfl
  | case3 a s e cs fl bs ih =>
      have hv : ∀ b, visSeq (canon b (.dir a s e (some cs) fl bs))
          = visSeq (.dir a s e (some cs) fl bs) := by
        intro b
        rw [canon_dir, visSeq_dir, visSeq_dir]
        exact flatMap_map_congr (canon false) contrib cs (fun c hc => (ih ⟨c, hc⟩).2)
      refine ⟨hv, ?_⟩
      rw [contrib_eq, contrib_eq, idOf_canon, expOf_canon, hv false]

theorem contrib_canon (n : FNode) : contrib (canon false n) = contrib n :=
  (visSeq_canon n).2

theorem subIds_canon : ∀ (n : FNode), ∀ (b : Bool), subIds (canon b n) = subIds n := by
  intro n
  induction n using visSeq.induct with
  | case1 a s => intro b; rw [canon_file]
  | case2 a s e fl bs => intro b; rw [canon_none, subIds_none, subIds_none]
  | case3 a s e cs fl bs ih =>
      intro b
      rw [canon_dir, subIds_dir, subIds_dir]
      refine flatMap_map_congr (canon false) allIds cs (fun c hc => ?_)
      rw [allIds, allIds, idOf_canon, ih ⟨c, hc⟩ false]

theorem allIds_canon (b : Bool) (n : FNode) : allIds (canon b n) = allIds n := by
  rw [allIds, allIds, idOf_canon, subIds_canon]

theorem canon_idem : ∀ (n : FNode) (b : Bool), canon b (canon b n) = canon b n := by
  intro n
  induction n using visSeq.induct with
  | case1 a s => intro b; rw [canon_file, canon_file]
  | case2 a s e fl bs => intro b; rw [canon_none, canon_none]
  | case3 a s e cs fl bs ih =>
      intro b
      rw [canon_dir, canon_dir]
      have hmm : (cs.map (canon false)).map (canon false) = cs.map (canon false) := by
        rw [List.map_map]
        exact List.map_congr_left (fun c hc => ih ⟨c, hc⟩ false)
      rw [hmm]

theorem defaultLt_congr {a a2 b b2 : FNode} (h1 : isDirN a2 = isDirN a)
    (h2 : nameOf a2 = nameOf a) (h3 : isDirN b2 = isDirN b) (h4 : nameOf b2 = nameOf b) :
    defaultLt a2 b2 = defaultLt a b := by
  rw [defaultLt, defaultLt, h1, h2, h3, h4]

theorem sortedB_map_congr (f : FNode → FNode)
    (hf : ∀ c, isDirN (f c) = isDirN c ∧ nameOf (f c) = nameOf c) :
    ∀ (l : List FNode), sortedB (l.map f) = sortedB l := by
  intro l
  induction l with
  | nil => rfl
  | cons a l ih =>
      cases l with
      | nil => rfl
      | cons b l2 =>
          rw [List.map_cons, List.map_cons, sortedB, sortedB, ← List.map_cons f b l2, ih]
          rw [defaultLt_congr (hf b).1 (hf b).2 (hf a).1 (hf a).2]

theorem canon_of_goodB : ∀ (n : FNode) (b : Bool), goodB n b = true → canon b n = n := by
  intro n
  induction n using visSeq.induct with
  | case1 a s => intro b _; rw [canon_file]
  | case2 a s e fl bs =>
      intro b h
      rw [goodB_none] at h
      simp only [Bool.and_eq_true, beq_iff_eq] at h
      rw [canon_none, h.1.1, h.1.2]
  | case3 a s e cs fl bs ih =>
      intro b h
      rw [goodB_dir] at h
      simp only [Bool.and_eq_true, beq_iff_eq, List.all_eq_true] at h
      have hcs : cs.map (canon false) = cs :=
        (List.map_congr_left (fun c hc => ih ⟨c, hc⟩ false (h.2 c hc))).trans
          (List.map_id' cs)
      rw [canon_dir, hcs, ← visSeq_dir a s e cs fl bs, ← h.1.1.1, ← h.1.1.2]

theorem skelOKB_of_goodB : ∀ (n : FNode) (b : Bool), goodB n b = true → skelOKB n = true := by
  intro n
  induction n using visSeq.induct with
  | case1 a s => intro b _; rw [skelOKB_file]
  | case2 a s e fl bs =>
      intro b h
      rw [goodB_none] at h
      simp only [Bool.and_eq_true, beq_iff_eq] at h
      rw [skelOKB_none, h.2]
      rfl
  | case3 a s e cs fl bs ih =>
      intro b h
      rw [goodB_dir] at h
      simp only [Bool.and_eq_true, beq_iff_eq, List.all_eq_true] at h
      rw [skelOKB_dir]
      simp only [Bool.and_eq_true, List.all_eq_true]
      exact ⟨h.1.2, fun c hc => ih ⟨c, hc⟩ false (h.2 c hc)⟩

theorem goodB_canon_of_skel : ∀ (n : FNode) (b : Bool), skelOKB n = true →
    goodB (canon b n) b = true := by
  intro n
  induction n using visSeq.induct with
  | case1 a s => intro b _; rw [canon_file, goodB_file]
  | case2 a s e fl bs =>
      intro b h
      rw [skelOKB_none] at h
      have he : e = false := by simpa using h
      subst he
      rw [canon_none, goodB_none]
      rfl
  | case3 a s e cs fl bs ih =>
      intro b h
      rw [skelOKB_dir] at h
      simp only [Bool.and_eq_true, List.all_eq_true] at h
      rw [canon_dir, goodB_dir]
      simp only [Bool.and_eq_true, beq_iff_eq, List.all_eq_true]
      refine ⟨⟨⟨?_, ?_⟩, ?_⟩, ?_⟩
      · rw [visSeq_dir]
      · rw [visSeq_dir]
      · rw [sortedB_map_congr (canon false)
          (fun c => ⟨isDirN_canon false c, nameOf_canon false c⟩) cs]
        exact h.1
      · intro c2 hc2
        rcases List.mem_map.1 hc2 with ⟨c, hc, rfl⟩
        exact ih ⟨c, hc⟩ false (h.2 c hc)

theorem setExpF_setExpF (v w : Bool) (n : FNode) : setExpF v (setExpF w n) = setExpF v n := by
  cases n <;> rfl

theorem setExpF_self {n : FNode} {v : Bool} (h : expOf n = v) : setExpF v n = n := by
  cases n with
  | file a s => rfl
  | dir a s e ocs fl bs =>
      rw [expOf] at h
      rw [setExpF, h]

theorem updAt_congr (f g : FNode → FNode) (h : ∀ m, f m = g m) :
    ∀ (p : List Nat) (n : FNode), updAt f p n = updAt g p n := by
  intro p
  induction p with
  | nil => intro n; exact h n
  | cons i p ih =>
      intro n
      rw [updAt_cons, updAt_cons]
      exact mapChildAt_congr i _ _ n (fun c => ih c)

theorem canon_updAt_setExpF_canon (v : Bool) :
    ∀ (p : List Nat) (n : FNode) (b : Bool),
      canon b (updAt (setExpF v) p (canon b n)) = canon b (updAt (setExpF v) p n) := by
  intro p
  induction p with
  | nil =>
      intro n b
      rw [updAt_nil, updAt_nil]
      cases n with
      | file a s => rw [canon_file]
      | dir a s e ocs fl bs =>
          cases ocs with
          | none => rw [canon_none, setExpF, setExpF, canon_none, canon_none]
          | some cs =>
              rw [canon_dir, setExpF, setExpF, canon_dir, canon_dir, List.map_map]
              have hmm : cs.map (canon false ∘ canon false) = cs.map (canon false) :=
                List.map_congr_left (fun c _ => canon_idem c false)
              rw [hmm]
  | cons i p ih =>
      intro n b
      rw [updAt_cons, updAt_cons]
      cases n with
      | file a s => rw [canon_file]
      | dir a s e ocs fl bs =>
          cases ocs with
          | none =>
              have h1 : mapChildAt i (updAt (setExpF v) p) (FNode.dir a s e none none 0)
                  = FNode.dir a s e none none 0 := rfl
              have h2 : mapChildAt i (updAt (setExpF v) p) (FNode.dir a s e none fl bs)
                  = FNode.dir a s e none fl bs := rfl
              rw [canon_none, h1, h2, canon_none, canon_none]
          | some cs =>
              rw [canon_dir, mapChildAt, mapChildAt, canon_dir, canon_dir]
              have hL : ((cs.map (canon false)).map
                    (fun c => if idOf c == i then updAt (setExpF v) p c else c)).map
                      (canon false)
                  = (cs.map
                      (fun c => if idOf c == i then updAt (setExpF v) p c else c)).map
                        (canon false) := by
                rw [List.map_map, List.map_map, List.map_map]
                refine List.map_congr_left (fun c _ => ?_)
                simp only [Function.comp]
                by_cases hc : idOf c == i
                · have hc2 : (idOf (canon false c) == i) = true := by
                    rw [idOf_canon]; exact hc
                  rw [if_pos hc, if_pos hc2, ih]
                · have hc2 : (idOf (canon false c) == i) = false := by
                    rw [idOf_canon]; simpa using hc
                  rw [if_neg (by simp [hc2]), if_neg (by simpa using hc), canon_idem]
              rw [hL]


theorem hasFlatAt_some {t : FNode} {q : List Nat} {n : FNode} (h : getAt q t = some n) :
    hasFlatAt t q = (flatOf n).isSome := by
  rw [hasFlatAt, h]

theorem hasFlatAt_none {t : FNode} {q : List Nat} (h : getAt q t = none) :
    hasFlatAt t q = false := by
  rw [hasFlatAt, h]

theorem flatAt_some {t : FNode} {q : List Nat} {n : FNode} (h : getAt q t = some n) :
    flatAt t q = (flatOf n).getD [] := by
  rw [flatAt, h]

theorem find?_congr_strong {α : Type} (p1 p2 : α → Bool) :
    ∀ (l : List α), (∀ x ∈ l, p1 x = p2 x) → l.find? p1 = l.find? p2 := by
  intro l
  induction l with
  | nil => intro _; rfl
  | cons a l ih =>
      intro h
      rw [List.find?_cons, List.find?_cons, h a (List.mem_cons_self a l),
        ih (fun x hx => h x (List.mem_cons_of_mem a hx))]

theorem ownerDepth_congr {t1 t2 : FNode} {p : List Nat} {bound : Nat}
    (h : ∀ d, d ≤ bound → hasFlatAt t1 (p.take d) = hasFlatAt t2 (p.take d)) :
    ownerDepth t1 p bound = ownerDepth t2 p bound := by
  rw [ownerDepth, ownerDepth]
  refine find?_congr_strong _ _ _ (fun d hd => ?_)
  rw [List.mem_reverse, List.mem_range] at hd
  exact h d (by omega)

theorem ownerDepth_isSome {t : FNode} {p : List Nat} {bound : Nat}
    (h0 : hasFlatAt t [] = true) : ∃ d, ownerDepth t p bound = some d := by
  rw [ownerDepth]
  have hmem : (0 : Nat) ∈ (List.range (bound + 1)).reverse := by
    rw [List.mem_reverse, List.mem_range]
    omega
  rcases ho : (List.range (bound + 1)).reverse.find? (fun d => hasFlatAt t (p.take d))
    with _ | d
  · exfalso
    have h3 : ¬ hasFlatAt t (p.take 0) = true := List.find?_eq_none.1 ho 0 hmem
    rw [List.take_zero] at h3
    exact h3 h0
  · exact ⟨d, rfl⟩

theorem ownerDepth_spec {t : FNode} {p : List Nat} {bound d : Nat}
    (h : ownerDepth t p bound = some d) :
    hasFlatAt t (p.take d) = true ∧ d ≤ bound
      ∧ ∀ k, d < k → k ≤ bound → hasFlatAt t (p.take k) = false := by
  rw [ownerDepth] at h
  have h1 := List.find?_some h
  have h2 := List.mem_of_find?_eq_some h
  rw [List.mem_reverse, List.mem_range] at h2
  refine ⟨h1, by omega, ?_⟩
  intro k hk1 hk2
  rcases find?_split _ _ _ h with ⟨l1, l2, hsplit, hl1⟩
  have hpair : ((List.range (bound + 1)).reverse.Pairwise (fun a b => b < a)) := by
    rw [List.pairwise_reverse]
    exact List.pairwise_lt_range (bound + 1)
  have hkmem : k ∈ (List.range (bound + 1)).reverse := by
    rw [List.mem_reverse, List.mem_range]
    omega
  rw [hsplit] at hkmem hpair
  rcases List.mem_append.1 hkmem with hk | hk
  · exact hl1 k hk
  · rcases List.mem_cons.1 hk with rfl | hk
    · omega
    · have h3 := List.Pairwise.sublist (List.sublist_append_right l1 (d :: l2)) hpair
      have h4 := (List.pairwise_cons.1 h3).1 k hk
      omega

theorem expanded_of_flat_none {y : FNode} (hg : goodB y false = true)
    (hl : loadedB y = true) (hf : flatOf y = none) : expOf y = true := by
  rw [loadedB] at hl
  rcases hcs : childrenOf y with _ | cs
  · rw [hcs] at hl; cases hl
  · have hp := (goodB_props hcs hg).2.1
    rw [hf] at hp
    by_cases he : expOf y
    · exact he
    · rw [Bool.false_or, if_pos (by simp [he])] at hp
      cases hp

theorem flat_eq_visSeq {y : FNode} {b : Bool} {F : List Nat} (hg : goodB y b = true)
    (hf : flatOf y = some F) : F = visSeq y := by
  rcases hcs : childrenOf y with _ | cs
  · cases y with
    | file a s => cases hf
    | dir a s e ocs fl bs =>
        cases ocs with
        | some cs0 => cases hcs
        | none =>
            rw [goodB_none] at hg
            simp only [Bool.and_eq_true, beq_iff_eq] at hg
            rw [flatOf, hg.1.2] at hf
            cases hf
  · have hp := (goodB_props hcs hg).2.1
    rw [hf] at hp
    by_cases hcond : (b || !expOf y) = true
    · rw [if_pos hcond] at hp
      exact (Option.some.inj hp.symm).symm
    · rw [if_neg hcond] at hp
      cases hp

theorem collapsed_of_flat_some {y : FNode} {F : List Nat} (hg : goodB y false = true)
    (hf : flatOf y = some F) : expOf y = false := by
  rcases hcs : childrenOf y with _ | cs
  · cases y with
    | file a s => cases hf
    | dir a s e ocs fl bs =>
        cases ocs with
        | some cs0 => cases hcs
        | none =>
            rw [goodB_none] at hg
            simp only [Bool.and_eq_true, beq_iff_eq] at hg
            rw [flatOf, hg.1.2] at hf
            cases hf
  · have hp := (goodB_props hcs hg).2.1
    rw [hf] at hp
    by_cases he : expOf y
    · rw [Bool.false_or, if_neg (by simp [he])] at hp
      cases hp
    · simpa using he

theorem idOf_updAt_ne_nil (f : FNode → FNode) {r : List Nat} (hr : r ≠ []) (m : FNode) :
    idOf (updAt f r m) = idOf m := by
  cases r with
  | nil => exact absurd rfl hr
  | cons i r2 => rw [updAt_cons, idOf_mapChildAt]

theorem flatOf_updAt_ne_nil (f : FNode → FNode) {r : List Nat} (hr : r ≠ []) (m : FNode) :
    flatOf (updAt f r m) = flatOf m := by
  cases r with
  | nil => exact absurd rfl hr
  | cons i r2 => rw [updAt_cons, flatOf_mapChildAt]

theorem getAt_take_updAt (f : FNode → FNode) (p : List Nat) (d : Nat) (t : FNode)
    (hd : d < p.length) :
    getAt (p.take d) (updAt f p t) = (getAt (p.take d) t).map (updAt f (p.drop d)) := by
  have hdrop : p.drop d ≠ [] := by
    intro hcon
    have := List.drop_eq_nil_iff_le.1 hcon
    omega
  have h1 : updAt f p t = updAt (updAt f (p.drop d)) (p.take d) t := by
    rw [← updAt_append, List.take_append_drop]
  rw [h1, getAt_updAt _ (fun m => idOf_updAt_ne_nil f hdrop m)]

theorem hasFlatAt_take_updAt (f : FNode → FNode) (p : List Nat) (d : Nat) (t : FNode)
    (hd : d < p.length) :
    hasFlatAt (updAt f p t) (p.take d) = hasFlatAt t (p.take d) := by
  have hdrop : p.drop d ≠ [] := by
    intro hcon
    have := List.drop_eq_nil_iff_le.1 hcon
    omega
  rw [hasFlatAt, hasFlatAt, getAt_take_updAt f p d t hd]
  rcases getAt (p.take d) t with _ | y
  · rfl
  · dsimp only [Option.map_some']
    rw [flatOf_updAt_ne_nil f hdrop]

theorem flatAt_take_updAt (f : FNode → FNode) (p : List Nat) (d : Nat) (t : FNode)
    (hd : d < p.length) :
    flatAt (updAt f p t) (p.take d) = flatAt t (p.take d) := by
  have hdrop : p.drop d ≠ [] := by
    intro hcon
    have := List.drop_eq_nil_iff_le.1 hcon
    omega
  rw [flatAt, flatAt, getAt_take_updAt f p d t hd]
  rcases getAt (p.take d) t with _ | y
  · rfl
  · dsimp only [Option.map_some']
    rw [flatOf_updAt_ne_nil f hdrop]

theorem ownerDepth_updAt (f : FNode → FNode) (p : List Nat) (t : FNode) {bound : Nat}
    (hb : bound < p.length) :
    ownerDepth (updAt f p t) p bound = ownerDepth t p bound :=
  ownerDepth_congr (fun d hd => hasFlatAt_take_updAt f p d t (by omega))


theorem expandApply_nil (brSz d0 : Nat) (od : Option Nat) (F2 : List Nat) (N : FNode)
    (ho : od.isSome = true) :
    expandApply brSz od F2 d0 [] N = setFlatF none N := by
  rw [expandApply, if_pos ho]

theorem expandApply_cons_le (brSz d d0 : Nat) (F2 : List Nat) (i : Nat) (rest : List Nat)
    (N : FNode) (hle : d ≤ d0) :
    expandApply brSz (some d) F2 d0 (i :: rest) N
      = mapChildAt i (expandApply brSz (some d) F2 (d0 + 1) rest)
          (if d = d0 then setFlatF (some F2) (addB brSz N) else addB brSz N) := by
  rw [expandApply]
  have hc1 : ((some d : Option Nat).isNone || decide ((some d : Option Nat).getD 0 ≤ d0))
      = true := by simp [hle]
  by_cases he : d = d0
  · have hc2 : ((some d : Option Nat) == some d0) = true := by simp [he]
    simp only [hc1, hc2, if_true, if_pos he]
  · have hc2 : ((some d : Option Nat) == some d0) = false := by simp [he]
    simp only [hc1, hc2, if_true, Bool.false_eq_true, if_false, if_neg he]

theorem expandApply_cons_gt (brSz d d0 : Nat) (F2 : List Nat) (i : Nat) (rest : List Nat)
    (N : FNode) (hgt : d0 < d) :
    expandApply brSz (some d) F2 d0 (i :: rest) N
      = mapChildAt i (expandApply brSz (some d) F2 (d0 + 1) rest) N := by
  rw [expandApply]
  have hc1 : ((some d : Option Nat).isNone || decide ((some d : Option Nat).getD 0 ≤ d0))
      = false := by simp; omega
  have hc2 : ((some d : Option Nat) == some d0) = false := by simp; omega
  simp only [hc1, hc2, Bool.false_eq_true, if_false]

theorem addB_mapChildAt (d : Nat) (i : Nat) (f : FNode → FNode) (n : FNode) :
    addB d (mapChildAt i f n) = mapChildAt i f (addB d n) := by
  cases n with
  | file a b => rfl
  | dir a b e ocs fl bs => cases ocs <;> rfl

theorem subB_mapChildAt (d : Nat) (i : Nat) (f : FNode → FNode) (n : FNode) :
    subB d (mapChildAt i f n) = mapChildAt i f (subB d n) := by
  cases n with
  | file a b => rfl
  | dir a b e ocs fl bs => cases ocs <;> rfl

theorem setFlatF_mapChildAt (fl : Option (List Nat)) (i : Nat) (f : FNode → FNode)
    (n : FNode) : setFlatF fl (mapChildAt i f n) = mapChildAt i f (setFlatF fl n) := by
  cases n with
  | file a b => rfl
  | dir a b e ocs fl2 bs => cases ocs <;> rfl

theorem expOf_setExpF_dir {n : FNode} (v : Bool) (h : isDirN n = true) :
    expOf (setExpF v n) = v := by
  cases n with
  | file a b => cases h
  | dir a b e ocs fl bs => rfl

theorem canon_end_expand {br : FNode} (hg : goodB br false = true)
    (hl : loadedB br = true) :
    canon false (setExpF true br) = setFlatF none (setExpF true br) := by
  rw [loadedB] at hl
  cases br with
  | file a s => cases hl
  | dir a s e ocs fl bs =>
      cases ocs with
      | none => cases hl
      | some cs =>
          rw [goodB_dir] at hg
          simp only [Bool.and_eq_true, beq_iff_eq, List.all_eq_true] at hg
          rw [setExpF, canon_dir, setFlatF]
          have hcs : cs.map (canon false) = cs :=
            (List.map_congr_left (fun c hc => canon_of_goodB c false (hg.2 c hc))).trans
              (List.map_id' cs)
          rw [hcs]
          have hvs : cs.flatMap contrib = visSeq (FNode.dir a s e (some cs) fl bs) :=
            (visSeq_dir a s e cs fl bs).symm
          rw [hvs, ← hg.1.1.1]
          simp

theorem visSeq_updAt_contrib (g : FNode → FNode) :
    ∀ (p : List Nat) (n m : FNode), p ≠ [] → getAt p n = some m → (allIds n).Nodup →
      contrib (g m) = contrib m → visSeq (updAt g p n) = visSeq n := by
  intro p
  induction p with
  | nil => intro n m hne _ _ _; exact absurd rfl hne
  | cons i p ih =>
      intro n m _ hget hnd hc
      rw [getAt_cons] at hget
      rcases hcs : childrenOf n with _ | cs
      · rw [hcs] at hget; cases hget
      · rw [hcs] at hget
        dsimp only [Option.bind] at hget
        rcases hf : cs.find? (fun x => idOf x == i) with _ | c
        · rw [hf] at hget; cases hget
        · rw [hf] at hget
          rcases find_child_split hcs hf hnd with ⟨l1, l2, hsplit, hl1, hl2, hci⟩
          have hctr : contrib (updAt g p c) = contrib c := by
            cases p with
            | nil =>
                cases hget
                exact hc
            | cons j q =>
                have hid2 : idOf (updAt g (j :: q) c) = idOf c := by
                  rw [updAt_cons, idOf_mapChildAt]
                have hexp2 : expOf (updAt g (j :: q) c) = expOf c := by
                  rw [updAt_cons, expOf_mapChildAt]
                rw [contrib_eq, contrib_eq, hid2, hexp2]
                by_cases he : expOf c
                · rw [if_pos he, if_pos he]
                  have hndc := nodup_child hcs (List.mem_of_find?_eq_some hf) hnd
                  rw [ih c m (by simp) hget hndc hc]
                · rw [if_neg he, if_neg he]
          cases n with
          | file a s => cases hcs
          | dir a s e ocs fl bs =>
              cases ocs with
              | none => cases hcs
              | some cs0 =>
                  have hcs0 : cs0 = cs := by
                    simp only [childrenOf] at hcs
                    exact Option.some.inj hcs
                  subst hcs0
                  subst hsplit
                  rw [updAt_cons, mapChildAt, map_guard_split _ hl1 hl2 hci]
                  rw [visSeq_dir, visSeq_dir, List.flatMap_append, List.flatMap_append,
                    List.flatMap_cons, List.flatMap_cons, hctr]

theorem getAt_take_loaded {p : List Nat} {n m : FNode} (hget : getAt p n = some m)
    {k : Nat} (hk : k < p.length) :
    ∀ y, getAt (p.take k) n = some y → loadedB y = true := by
  intro y hy
  have hsplitp : p = p.take k ++ p.drop k := (List.take_append_drop k p).symm
  rw [hsplitp] at hget
  rcases getAt_split hget with ⟨y2, hy2, hdrop⟩
  rw [hy] at hy2
  cases hy2
  rcases hd : p.drop k with _ | ⟨j, r⟩
  · exfalso
    have := List.drop_eq_nil_iff_le.1 hd
    omega
  · rw [hd, getAt_cons] at hdrop
    rcases hcs : childrenOf y with _ | cs
    · rw [hcs] at hdrop
      cases hdrop
    · rw [loadedB, hcs]
      rfl

theorem chain_exp_of_flat_none {rest : List Nat} {n br : FNode} {b : Bool}
    (hg : goodB n b = true) (hget : getAt rest n = some br)
    (hchain : ∀ k, 0 < k → k < rest.length → ∀ y, getAt (rest.take k) n = some y →
      flatOf y = none) :
    ∀ k, 0 < k → k < rest.length → ∀ y, getAt (rest.take k) n = some y →
      expOf y = true := by
  intro k h1 h2 y hy
  refine expanded_of_flat_none ?_ ?_ (hchain k h1 h2 y hy)
  · refine goodB_getAt (rest.take k) b n y hg hy ?_
    intro hcon
    have : (rest.take k).length = 0 := by rw [hcon]; rfl
    rw [List.length_take] at this
    omega
  · exact getAt_take_loaded hget h2 y hy



theorem isDirN_of_loaded {br : FNode} (hload : loadedB br = true) : isDirN br = true := by
  rw [loadedB] at hload
  rcases hcs : childrenOf br with _ | cs
  · rw [hcs] at hload; cases hload
  · exact isDirN_of_children br cs hcs

theorem visSeq_expand_len {rest : List Nat} {n br : FNode} {b : Bool}
    (hg : goodB n b = true) (hnd : (allIds n).Nodup) (hne : rest ≠ [])
    (hget : getAt rest n = some br)
    (hchain : ∀ k, 0 < k → k < rest.length → ∀ y, getAt (rest.take k) n = some y →
      flatOf y = none)
    (hcoll : expOf br = false) (hload : loadedB br = true) :
    (visSeq (updAt (setExpF true) rest n)).length = (visSeq n).length + bSizeOf br := by
  have hchainE := chain_exp_of_flat_none hg hget hchain
  rcases visSeq_decomp rest n br hnd hne hget hchainE with ⟨A, B, hv, _, _, hu⟩
  rw [hu (setExpF true), hv]
  have hdir : isDirN br = true := isDirN_of_loaded hload
  have hc1 : contrib br = [idOf br] := by
    rw [contrib_eq, if_neg (by simp [hcoll])]
  have hc2 : contrib (setExpF true br) = idOf br :: visSeq br := by
    rw [contrib_eq, idOf_setExpF, expOf_setExpF_dir true hdir, if_pos rfl, visSeq_setExpF]
  have hgbr : goodB br false = true := goodB_getAt rest b n br hg hget hne
  have hbs : bSizeOf br = (visSeq br).length := by
    rw [loadedB] at hload
    rcases hcs : childrenOf br with _ | cs
    · rw [hcs] at hload; cases hload
    · exact (goodB_props hcs hgbr).1
  rw [hc1, hc2]
  simp only [List.length_append, List.length_cons, List.length_nil]
  omega

theorem walk_children_eq {l1 l2 : List FNode} {c : FNode} {i : Nat}
    (hl1 : ∀ x ∈ l1, (idOf x == i) = false) (hl2 : ∀ x ∈ l2, (idOf x == i) = false)
    (hgood : ∀ x ∈ l1 ++ c :: l2, goodB x false = true)
    (mid : FNode) (W : FNode → FNode) (hmidi : (idOf mid == i) = true)
    (hmid : W mid = canon false mid) :
    ((l1 ++ mid :: l2).map (fun x => if idOf x == i then W x else x))
      = (l1 ++ mid :: l2).map (canon false) := by
  rw [map_guard_split W hl1 hl2 hmidi]
  rw [List.map_append, List.map_cons]
  have e1 : l1.map (canon false) = l1 :=
    (List.map_congr_left (fun x hx =>
      canon_of_goodB x false (hgood x (List.mem_append_left _ hx)))).trans
      (List.map_id' l1)
  have e2 : l2.map (canon false) = l2 :=
    (List.map_congr_left (fun x hx =>
      canon_of_goodB x false (hgood x
        (List.mem_append_right _ (List.mem_cons_of_mem c hx))))).trans
      (List.map_id' l2)
  rw [e1, e2, hmid]

theorem expandApply_le :
    ∀ (rest : List Nat) (n br : FNode) (b : Bool) (d0 d : Nat) (F2 : List Nat),
      d ≤ d0 →
      goodB n b = true → (allIds n).Nodup →
      (d = d0 → (b || !(expOf n)) = true ∧ F2 = visSeq (updAt (setExpF true) rest n)) →
      (d < d0 → b = false ∧ flatOf n = none) →
      rest ≠ [] → getAt rest n = some br →
      (∀ k, 0 < k → k < rest.length → ∀ y, getAt (rest.take k) n = some y →
        flatOf y = none) →
      expOf br = false → loadedB br = true →
      expandApply (bSizeOf br) (some d) F2 d0 rest (updAt (setExpF true) rest n)
        = canon b (updAt (setExpF true) rest n) := by
  intro rest
  induction rest with
  | nil => intro n br b d0 d F2 _ _ _ _ _ hne _ _ _ _; exact absurd rfl hne
  | cons i rest ih =>
      intro n br b d0 d F2 hle hg hnd hat hbelow _ hget0 hchain hcoll hload
      have hlen := visSeq_expand_len hg hnd (by simp) hget0 hchain hcoll hload
      have hget := hget0
      rw [getAt_cons] at hget
      rcases hcs : childrenOf n with _ | cs
      · rw [hcs] at hget; cases hget
      · rw [hcs] at hget
        dsimp only [Option.bind] at hget
        rcases hf : cs.find? (fun x => idOf x == i) with _ | c
        · rw [hf] at hget; cases hget
        · rw [hf] at hget
          rcases find_child_split hcs hf hnd with ⟨l1, l2, hsplit, hl1, hl2, hci⟩
          have hmem := List.mem_of_find?_eq_some hf
          have hgood := goodB_children hg hcs
          have hndc := nodup_child hcs hmem hnd
          have hgc : goodB c false = true := hgood c hmem
          have hgetc1 : getAt ((i :: rest).take 1) n = some c := by
            have ht : (i :: rest).take 1 = [i] := rfl
            rw [ht, getAt_cons, hcs]
            dsimp only [Option.bind]
            rw [hf]
            rfl
          have hmidW : expandApply (bSizeOf br) (some d) F2 (d0 + 1) rest
              (updAt (setExpF true) rest c) = canon false (updAt (setExpF true) rest c) := by
            cases rest with
            | nil =>
                cases hget
                rw [updAt_nil, expandApply_nil (bSizeOf br) (d0 + 1) (some d) F2 _ rfl]
                exact (canon_end_expand hgc hload).symm
            | cons j q =>
                have hflc : flatOf c = none := by
                  refine hchain 1 Nat.one_pos (by simp) c hgetc1
                refine ih c br false (d0 + 1) d F2 (by omega) hgc hndc
                  (fun hd => absurd hd (by omega)) (fun _ => ⟨rfl, hflc⟩) (by simp) hget
                  ?_ hcoll hload
                intro k h1 h2 y hy
                have h2b : k + 1 < (i :: j :: q).length := by
                  simp only [List.length_cons] at h2 ⊢
                  omega
                refine hchain (k + 1) (by omega) h2b y ?_
                have ht : (i :: j :: q).take (k + 1) = i :: (j :: q).take k := rfl
                rw [ht, getAt_cons, hcs]
                dsimp only [Option.bind]
                rw [hf]
                exact hy
          have hmidi : (idOf (updAt (setExpF true) rest c) == i) = true := by
            rw [idOf_updAt (setExpF true) (fun m => idOf_setExpF true m) rest c]
            exact hci
          cases n with
          | file a s => cases hcs
          | dir a s e ocs fl bs =>
              cases ocs with
              | none => cases hcs
              | some cs0 =>
                  have hcs0 : cs0 = cs := by
                    simp only [childrenOf] at hcs
                    exact Option.some.inj hcs
                  subst hcs0
                  subst hsplit
                  have hbsn : bs = (visSeq (FNode.dir a s e (some (l1 ++ c :: l2)) fl bs)).length :=
                    (goodB_props hcs hg).1
                  rw [updAt_cons, mapChildAt, map_guard_split _ hl1 hl2 hci] at hlen ⊢
                  rw [expandApply_cons_le _ _ _ _ _ _ _ hle, canon_dir]
                  have hLm : (l1 ++ updAt (setExpF true) rest c :: l2).map (canon false)
                      = l1 ++ canon false (updAt (setExpF true) rest c) :: l2 := by
                    have hgood2 : ∀ x ∈ l1 ++ c :: l2, goodB x false = true := hgood
                    rw [List.map_append, List.map_cons]
                    have e1 : l1.map (canon false) = l1 :=
                      (List.map_congr_left (fun x hx =>
                        canon_of_goodB x false (hgood2 x (List.mem_append_left _ hx)))).trans
                        (List.map_id' l1)
                    have e2 : l2.map (canon false) = l2 :=
                      (List.map_congr_left (fun x hx =>
                        canon_of_goodB x false (hgood2 x
                          (List.mem_append_right _ (List.mem_cons_of_mem c hx))))).trans
                        (List.map_id' l2)
                    rw [e1, e2]
                  have hflv : (l1 ++ canon false (updAt (setExpF true) rest c) :: l2).flatMap
                        contrib
                      = visSeq (FNode.dir a s e
                          (some (l1 ++ updAt (setExpF true) rest c :: l2)) fl bs) := by
                    rw [visSeq_dir, List.flatMap_append, List.flatMap_append,
                      List.flatMap_cons, List.flatMap_cons, contrib_canon]
                  rw [hLm, hflv]
                  by_cases hd : d = d0
                  · rcases hat hd with ⟨hb, hF2⟩
                    rw [updAt_cons, mapChildAt, map_guard_split _ hl1 hl2 hci] at hF2
                    rw [if_pos hd, addB, setFlatF, mapChildAt]
                    rw [map_guard_split _ hl1 hl2 hmidi, hmidW]
                    have hbe : (b || !e) = true := hb
                    have hF2len : F2.length = bs + bSizeOf br := by
                      rw [hF2, hlen, ← hbsn]
                    rw [if_pos hbe, ← hF2, hF2len]
                  · have hlt : d < d0 := by omega
                    rcases hbelow hlt with ⟨hbf, hfl⟩
                    subst hbf
                    have hfl2 : fl = none := hfl
                    subst hfl2
                    have he : e = true := by
                      have := expanded_of_flat_none hg (by rw [loadedB, hcs]; rfl) hfl
                      exact this
                    subst he
                    rw [if_neg hd, addB, mapChildAt]
                    rw [map_guard_split _ hl1 hl2 hmidi, hmidW]
                    rw [if_neg (by simp)]
                    have hlen2 : (visSeq (FNode.dir a s true
                        (some (l1 ++ updAt (setExpF true) rest c :: l2)) none bs)).length
                        = bs + bSizeOf br := by
                      rw [hlen, ← hbsn]
                    rw [hlen2]


theorem expandApply_above :
    ∀ (rest : List Nat) (n br m : FNode) (b : Bool) (d0 d : Nat),
      d0 < d →
      goodB n b = true → (allIds n).Nodup →
      d - d0 < rest.length →
      getAt (rest.take (d - d0)) n = some m → (flatOf m).isSome = true →
      (∀ k, d - d0 < k → k < rest.length → ∀ y, getAt (rest.take k) n = some y →
        flatOf y = none) →
      getAt rest n = some br →
      expOf br = false → loadedB br = true →
      expandApply (bSizeOf br) (some d)
          (visSeq (updAt (setExpF true) (rest.drop (d - d0)) m)) d0 rest
          (updAt (setExpF true) rest n)
        = canon b (updAt (setExpF true) rest n) := by
  intro rest
  induction rest with
  | nil =>
      intro n br m b d0 d _ _ _ hjlen _ _ _ _ _ _
      simp at hjlen
  | cons i rest ih =>
      intro n br m b d0 d hgt hg hnd hjlen hgetm hflm hchain hget0 hcoll hload
      have hj1 : 1 ≤ d - d0 := by omega
      have hget := hget0
      rw [getAt_cons] at hget
      rcases hcs : childrenOf n with _ | cs
      · rw [hcs] at hget; cases hget
      · rw [hcs] at hget
        dsimp only [Option.bind] at hget
        rcases hf : cs.find? (fun x => idOf x == i) with _ | c
        · rw [hf] at hget; cases hget
        · rw [hf] at hget
          rcases find_child_split hcs hf hnd with ⟨l1, l2, hsplit, hl1, hl2, hci⟩
          have hmem := List.mem_of_find?_eq_some hf
          have hgood := goodB_children hg hcs
          have hndc := nodup_child hcs hmem hnd
          have hgc : goodB c false = true := hgood c hmem
          have hrestne : rest ≠ [] := by
            intro hcon
            rw [hcon] at hjlen
            simp at hjlen
            omega
          have hgm : goodB m false = true := by
            refine goodB_getAt ((i :: rest).take (d - d0)) b n m hg hgetm ?_
            intro hcon
            have : ((i :: rest).take (d - d0)).length = 0 := by rw [hcon]; rfl
            rw [List.length_take] at this
            simp only [List.length_cons] at this hjlen
            omega
          have hcollm : expOf m = false := by
            rcases hfq : flatOf m with _ | F
            · rw [hfq] at hflm; cases hflm
            · exact collapsed_of_flat_some hgm hfq
          -- block: the visible sequence of n is unchanged by the deep flag write
          have hblock : visSeq (updAt (setExpF true) (i :: rest) n) = visSeq n := by
            have hsplitp : (i :: rest) = (i :: rest).take (d - d0) ++ (i :: rest).drop (d - d0) :=
              (List.take_append_drop _ _).symm
            have hdropne : (i :: rest).drop (d - d0) ≠ [] := by
              intro hcon
              have := List.drop_eq_nil_iff_le.1 hcon
              simp only [List.length_cons] at this hjlen
              omega
            have htakene : (i :: rest).take (d - d0) ≠ [] := by
              intro hcon
              have : ((i :: rest).take (d - d0)).length = 0 := by rw [hcon]; rfl
              rw [List.length_take] at this
              simp only [List.length_cons] at this hjlen
              omega
            conv_lhs => rw [hsplitp]
            rw [updAt_append]
            refine visSeq_updAt_contrib _ _ n m htakene hgetm hnd ?_
            rw [contrib_eq, contrib_eq]
            rw [idOf_updAt_ne_nil _ hdropne]
            have hexpu : expOf (updAt (setExpF true) ((i :: rest).drop (d - d0)) m)
                = expOf m := by
              rcases hdd : (i :: rest).drop (d - d0) with _ | ⟨z, zs⟩
              · exact absurd hdd hdropne
              · rw [updAt_cons, expOf_mapChildAt]
            rw [hexpu, if_neg (by simp [hcollm]), if_neg (by simp [hcollm])]
          -- the walk on the child
          have hmidW : expandApply (bSizeOf br) (some d)
              (visSeq (updAt (setExpF true) ((i :: rest).drop (d - d0)) m)) (d0 + 1) rest
              (updAt (setExpF true) rest c) = canon false (updAt (setExpF true) rest c) := by
            by_cases hj : d - d0 = 1
            · -- the child is the owner
              have hmc : m = c := by
                have ht : (i :: rest).take (d - d0) = [i] := by rw [hj]; rfl
                rw [ht, getAt_cons, hcs] at hgetm
                dsimp only [Option.bind] at hgetm
                rw [hf] at hgetm
                exact (Option.some.inj hgetm).symm
              subst hmc
              have hdrop : (i :: rest).drop (d - d0) = rest := by rw [hj]; rfl
              have hdeq : d = d0 + 1 := by omega
              subst hdeq
              rw [hdrop]
              refine expandApply_le rest m br false (d0 + 1) (d0 + 1) _ (by omega) hgc hndc
                (fun _ => ⟨by simp [hcollm], rfl⟩) (fun hlt => absurd hlt (by omega))
                hrestne hget ?_ hcoll hload
              intro k h1 h2 y hy
              have h2b : k + 1 < (i :: rest).length := by
                simp only [List.length_cons] at h2 ⊢
                omega
              refine hchain (k + 1) (by omega) h2b y ?_
              have ht : (i :: rest).take (k + 1) = i :: rest.take k := rfl
              rw [ht, getAt_cons, hcs]
              dsimp only [Option.bind]
              rw [hf]
              exact hy
            · -- the owner is deeper
              have hj2 : 2 ≤ d - d0 := by omega
              have hgetm2 : getAt (rest.take (d - (d0 + 1))) c = some m := by
                have ht : (i :: rest).take (d - d0) = i :: rest.take (d - (d0 + 1)) := by
                  have : d - d0 = (d - (d0 + 1)) + 1 := by omega
                  rw [this]
                  rfl
                rw [ht, getAt_cons, hcs] at hgetm
                dsimp only [Option.bind] at hgetm
                rw [hf] at hgetm
                exact hgetm
              have hdrop : (i :: rest).drop (d - d0) = rest.drop (d - (d0 + 1)) := by
                have : d - d0 = (d - (d0 + 1)) + 1 := by omega
                rw [this]
                rfl
              rw [hdrop]
              refine ih c br m false (d0 + 1) d (by omega) hgc hndc ?_ hgetm2 hflm ?_ hget
                hcoll hload
              · simp only [List.length_cons] at hjlen
                omega
              · intro k h1 h2 y hy
                have h2b : k + 1 < (i :: rest).length := by
                  simp only [List.length_cons] at h2 ⊢
                  omega
                refine hchain (k + 1) (by omega) h2b y ?_
                have ht : (i :: rest).take (k + 1) = i :: rest.take k := rfl
                rw [ht, getAt_cons, hcs]
                dsimp only [Option.bind]
                rw [hf]
                exact hy
          have hmidi : (idOf (updAt (setExpF true) rest c) == i) = true := by
            rw [idOf_updAt (setExpF true) (fun x => idOf_setExpF true x) rest c]
            exact hci
          cases n with
          | file a s => cases hcs
          | dir a s e ocs fl bs =>
              cases ocs with
              | none => cases hcs
              | some cs0 =>
                  have hcs0 : cs0 = cs := by
                    simp only [childrenOf] at hcs
                    exact Option.some.inj hcs
                  subst hcs0
                  subst hsplit
                  have hprops := goodB_props hcs hg
                  rw [updAt_cons, mapChildAt, map_guard_split _ hl1 hl2 hci] at hblock ⊢
                  rw [expandApply_cons_gt _ _ _ _ _ _ _ hgt, canon_dir, mapChildAt]
                  rw [map_guard_split _ hl1 hl2 hmidi, hmidW]
                  have hLm : (l1 ++ updAt (setExpF true) rest c :: l2).map (canon false)
                      = l1 ++ canon false (updAt (setExpF true) rest c) :: l2 := by
                    rw [List.map_append, List.map_cons]
                    have e1 : l1.map (canon false) = l1 :=
                      (List.map_congr_left (fun x hx =>
                        canon_of_goodB x false (hgood x (List.mem_append_left _ hx)))).trans
                        (List.map_id' l1)
                    have e2 : l2.map (canon false) = l2 :=
                      (List.map_congr_left (fun x hx =>
                        canon_of_goodB x false (hgood x
                          (List.mem_append_right _ (List.mem_cons_of_mem c hx))))).trans
                        (List.map_id' l2)
                    rw [e1, e2]
                  have hflv : (l1 ++ canon false (updAt (setExpF true) rest c) :: l2).flatMap
                        contrib
                      = visSeq (FNode.dir a s e
                          (some (l1 ++ updAt (setExpF true) rest c :: l2)) fl bs) := by
                    rw [visSeq_dir, List.flatMap_append, List.flatMap_append,
                      List.flatMap_cons, List.flatMap_cons, contrib_canon]
                  rw [hLm, hflv, hblock]
                  have hflat : fl = if (b || !e) = true
                      then some (visSeq (FNode.dir a s e (some (l1 ++ c :: l2)) fl bs))
                      else none := hprops.2.1
                  have hbs : bs = (visSeq (FNode.dir a s e (some (l1 ++ c :: l2)) fl bs)).length :=
                    hprops.1
                  rw [← hflat, ← hbs]


theorem nodup_getAt :
    ∀ (p : List Nat) (n m : FNode), (allIds n).Nodup → getAt p n = some m →
      (allIds m).Nodup := by
  intro p
  induction p with
  | nil => intro n m hnd hget; cases hget; exact hnd
  | cons i p ih =>
      intro n m hnd hget
      rw [getAt_cons] at hget
      rcases hcs : childrenOf n with _ | cs
      · rw [hcs] at hget; cases hget
      · rw [hcs] at hget
        dsimp only [Option.bind] at hget
        rcases hf : cs.find? (fun x => idOf x == i) with _ | c
        · rw [hf] at hget; cases hget
        · rw [hf] at hget
          exact ih c m (nodup_child hcs (List.mem_of_find?_eq_some hf) hnd) hget

theorem expandStep_canon {t : FNode} {q : List Nat} {br : FNode}
    (hg : goodB t true = true) (hnd : (allIds t).Nodup) (hqne : q ≠ [])
    (hget : getAt q t = some br) (hcoll : expOf br = false) (hload : loadedB br = true)
    (hroot : loadedB t = true) :
    expandStep t q = canon true (updAt (setExpF true) q t) := by
  have hgbr : goodB br false = true := goodB_getAt q true t br hg hget hqne
  have hbrcs : ∃ bcs, childrenOf br = some bcs := by
    rcases hx : childrenOf br with _ | bcs
    · rw [loadedB, hx] at hload
      simp at hload
    · exact ⟨bcs, rfl⟩
  have hflbr : flatOf br = some (visSeq br) := by
    rcases hbrcs with ⟨bcs, hbcs⟩
    have := (goodB_props hbcs hgbr).2.1
    rw [hcoll] at this
    simpa using this
  have htrootflat : flatOf t = some (visSeq t) := by
    rw [loadedB] at hroot
    rcases hx : childrenOf t with _ | tcs
    · rw [hx] at hroot; cases hroot
    · have := (goodB_props hx hg).2.1
      simpa using this
  have hhf0 : hasFlatAt t [] = true := by
    rw [hasFlatAt_some (getAt_nil t), htrootflat]
    rfl
  obtain ⟨d, hodt⟩ := @ownerDepth_isSome _ q (q.length - 1) hhf0
  obtain ⟨hfd, hdle, hmax⟩ := ownerDepth_spec hodt
  have hqpos : 0 < q.length := by
    cases q with
    | nil => exact absurd rfl hqne
    | cons a b => simp
  -- owner node
  have hm : ∃ m, getAt (q.take d) t = some m ∧ (flatOf m).isSome = true := by
    rw [hasFlatAt] at hfd
    rcases hx : getAt (q.take d) t with _ | m
    · rw [hx] at hfd; cases hfd
    · rw [hx] at hfd
      exact ⟨m, rfl, hfd⟩
  rcases hm with ⟨m, hgetm, hflm⟩
  have hsplitq : q = q.take d ++ q.drop d := (List.take_append_drop d q).symm
  have hgdrop : getAt (q.drop d) m = some br := by
    rw [hsplitq] at hget
    rcases getAt_split hget with ⟨y, hy, hdrop⟩
    rw [hgetm] at hy
    cases hy
    exact hdrop
  have hdropne : q.drop d ≠ [] := by
    intro hcon
    have := List.drop_eq_nil_iff_le.1 hcon
    omega
  have hgm : goodB m (decide (d = 0)) = true := by
    by_cases hd0 : d = 0
    · subst hd0
      rw [List.take_zero] at hgetm
      cases hgetm
      simpa using hg
    · have : goodB m false = true := by
        refine goodB_getAt (q.take d) true t m hg hgetm ?_
        intro hcon
        have : (q.take d).length = 0 := by rw [hcon]; rfl
        rw [List.length_take] at this
        omega
      simpa [hd0] using this
  have hndm : (allIds m).Nodup := nodup_getAt (q.take d) t m hnd hgetm
  -- flat of the owner
  have hFm : flatOf m = some (visSeq m) := by
    rcases hfq : flatOf m with _ | F
    · rw [hfq] at hflm; cases hflm
    · rw [flat_eq_visSeq hgm hfq]
  -- chain below the owner has no flat
  have hchainm : ∀ k, 0 < k → k < (q.drop d).length → ∀ y,
      getAt ((q.drop d).take k) m = some y → flatOf y = none := by
    intro k h1 h2 y hy
    have htk : q.take (d + k) = q.take d ++ (q.drop d).take k := List.take_add q d k
    have hgy : getAt (q.take (d + k)) t = some y := by
      rw [htk, getAt_append, hgetm]
      exact hy
    have hnf : hasFlatAt t (q.take (d + k)) = false := by
      refine hmax (d + k) (by omega) ?_
      rw [List.length_drop] at h2
      omega
    rw [hasFlatAt_some hgy] at hnf
    rcases hfy : flatOf y with _ | F
    · rfl
    · rw [hfy] at hnf; cases hnf
  -- identify the computed splice with the canonical flat of the edited owner
  have hchainmE := chain_exp_of_flat_none hgm hgdrop hchainm
  rcases visSeq_decomp (q.drop d) m br hndm hdropne hgdrop hchainmE
    with ⟨A, B, hv, hA, hB, hu⟩
  have hdir : isDirN br = true := isDirN_of_loaded hload
  have hc1 : contrib br = [idOf br] := by
    rw [contrib_eq, if_neg (by simp [hcoll])]
  have hc2 : contrib (setExpF true br) = idOf br :: visSeq br := by
    rw [contrib_eq, idOf_setExpF, expOf_setExpF_dir true hdir, if_pos rfl, visSeq_setExpF]
  have hveq : visSeq m = (A ++ [idOf br]) ++ B := by
    rw [hv, hc1]
  have hjs : jsIdx (visSeq m) (idOf br) = (A.length : Int) := by
    rw [hv, hc1, List.append_assoc, List.cons_append, List.nil_append]
    exact jsIdx_split hA B
  have hsplice : spliceTA (visSeq m) ((jsIdx (visSeq m) (idOf br) + 1).toNat) 0 (visSeq br)
      = visSeq (updAt (setExpF true) (q.drop d) m) := by
    rw [hjs]
    have htn : ((A.length : Int) + 1).toNat = (A ++ [idOf br]).length := by
      simp only [List.length_append, List.length_cons, List.length_nil]
      omega
    rw [htn, hveq, spliceTA_insert, hu (setExpF true), hc2]
    simp [List.append_assoc]
  -- unfold the step
  cases q with
  | nil => exact absurd rfl hqne
  | cons i qs =>
      rw [expandStep, donateStep]
      have hget1 : getAt (i :: qs) (updAt (setExpF true) (i :: qs) t)
          = some (setExpF true br) := by
        rw [getAt_updAt (setExpF true) (fun x => idOf_setExpF true x), hget]
        rfl
      rw [hget1]
      dsimp only
      have hod1 : ownerDepth (updAt (setExpF true) (i :: qs) t) (i :: qs)
          ((i :: qs).length - 1) = some d := by
        rw [ownerDepth_updAt (setExpF true) (i :: qs) t (by simp)]
        exact hodt
      rw [hod1]
      dsimp only
      have hFat : flatAt (updAt (setExpF true) (i :: qs) t) ((i :: qs).take d)
          = visSeq m := by
        rw [flatAt_take_updAt (setExpF true) (i :: qs) d t (by omega),
          flatAt_some hgetm, hFm]
        rfl
      rw [hFat]
      have hidbr : idOf (setExpF true br) = idOf br := idOf_setExpF true br
      have hflbr1 : flatOf (setExpF true br) = some (visSeq br) := by
        rw [flatOf_setExpF, hflbr]
      have hbsbr : bSizeOf (setExpF true br) = bSizeOf br := bSizeOf_setExpF true br
      rw [hidbr, hflbr1, hbsbr]
      dsimp only [Option.getD]
      rw [hsplice]
      by_cases hd0 : d = 0
      · subst hd0
        rw [List.take_zero] at hgetm
        cases hgetm
        refine expandApply_le (i :: qs) t br true 0 0 _ (by omega) hg hnd
          (fun _ => ⟨by simp, by rw [List.drop_zero]⟩) (fun h => absurd h (by omega))
          (by simp) hget ?_ hcoll hload
        intro k h1 h2 y hy
        have hnf : hasFlatAt t ((i :: qs).take k) = false := hmax k (by omega) (by omega)
        rw [hasFlatAt_some hy] at hnf
        rcases hfy : flatOf y with _ | F
        · rfl
        · rw [hfy] at hnf; cases hnf
      · refine expandApply_above (i :: qs) t br m true 0 d (by omega) hg hnd
          (by simp only [Nat.sub_zero]; omega) ?_ hflm ?_ hget hcoll hload
        · rw [Nat.sub_zero]
          exact hgetm
        · intro k h1 h2 y hy
          rw [Nat.sub_zero] at h1
          have hnf : hasFlatAt t ((i :: qs).take k) = false := hmax k (by omega) (by omega)
          rw [hasFlatAt_some hy] at hnf
          rcases hfy : flatOf y with _ | F
          · rfl
          · rw [hfy] at hnf; cases hnf


theorem shrinkApply_nil (brSz d0 : Nat) (od : Option Nat) (F2 ret : List Nat) (N : FNode)
    (ho : od.isSome = true) :
    shrinkApply brSz od F2 ret d0 [] N = setFlatF (some ret) N := by
  rw [shrinkApply, if_pos ho]

theorem shrinkApply_cons_le (brSz d d0 : Nat) (F2 ret : List Nat) (i : Nat)
    (rest : List Nat) (N : FNode) (hle : d ≤ d0) :
    shrinkApply brSz (some d) F2 ret d0 (i :: rest) N
      = mapChildAt i (shrinkApply brSz (some d) F2 ret (d0 + 1) rest)
          (if d = d0 then setFlatF (some F2) (subB brSz N) else subB brSz N) := by
  rw [shrinkApply]
  have hc1 : ((some d : Option Nat).isNone || decide ((some d : Option Nat).getD 0 ≤ d0))
      = true := by simp [hle]
  by_cases he : d = d0
  · have hc2 : ((some d : Option Nat) == some d0) = true := by simp [he]
    simp only [hc1, hc2, if_true, if_pos he]
  · have hc2 : ((some d : Option Nat) == some d0) = false := by simp [he]
    simp only [hc1, hc2, if_true, Bool.false_eq_true, if_false, if_neg he]

theorem shrinkApply_cons_gt (brSz d d0 : Nat) (F2 ret : List Nat) (i : Nat)
    (rest : List Nat) (N : FNode) (hgt : d0 < d) :
    shrinkApply brSz (some d) F2 ret d0 (i :: rest) N
      = mapChildAt i (shrinkApply brSz (some d) F2 ret (d0 + 1) rest) N := by
  rw [shrinkApply]
  have hc1 : ((some d : Option Nat).isNone || decide ((some d : Option Nat).getD 0 ≤ d0))
      = false := by simp; omega
  have hc2 : ((some d : Option Nat) == some d0) = false := by simp; omega
  simp only [hc1, hc2, Bool.false_eq_true, if_false]

theorem idOf_shrinkApply (brSz : Nat) (od : Option Nat) (F2 ret : List Nat) :
    ∀ (rest : List Nat) (d0 : Nat) (n : FNode),
      idOf (shrinkApply brSz od F2 ret d0 rest n) = idOf n := by
  intro rest
  induction rest with
  | nil =>
      intro d0 n
      rw [shrinkApply]
      by_cases ho : od.isSome
      · rw [if_pos ho, idOf_setFlatF]
      · rw [if_neg ho]
  | cons i rest _ =>
      intro d0 n
      rw [shrinkApply]
      rw [idOf_mapChildAt]
      by_cases h1 : (od.isNone || decide (od.getD 0 ≤ d0)) = true <;>
        by_cases h2 : (od == some d0) = true <;>
          simp [h1, h2, idOf_setFlatF, idOf_subB]

theorem loaded_of_expanded {br : FNode} (hg : goodB br false = true)
    (hexp : expOf br = true) : loadedB br = true := by
  cases br with
  | file a s => cases hexp
  | dir a s e ocs fl bs =>
      cases ocs with
      | none =>
          rw [goodB_none] at hg
          simp only [Bool.and_eq_true, beq_iff_eq] at hg
          rw [expOf] at hexp
          rw [hg.2] at hexp
          cases hexp
      | some cs => rfl

theorem canon_end_collapse {br : FNode} (hg : goodB br false = true)
    (hexp : expOf br = true) :
    canon false (setExpF false br)
      = setExpF false (setFlatF (some (visSeq br)) br) := by
  have hload := loaded_of_expanded hg hexp
  rw [loadedB] at hload
  cases br with
  | file a s => cases hexp
  | dir a s e ocs fl bs =>
      cases ocs with
      | none => cases hload
      | some cs =>
          rw [goodB_dir] at hg
          simp only [Bool.and_eq_true, beq_iff_eq, List.all_eq_true] at hg
          rw [setExpF, setFlatF, setExpF, canon_dir]
          have hcs : cs.map (canon false) = cs :=
            (List.map_congr_left (fun c hc => canon_of_goodB c false (hg.2 c hc))).trans
              (List.map_id' cs)
          rw [hcs]
          have hvs : cs.flatMap contrib = visSeq (FNode.dir a s e (some cs) fl bs) :=
            (visSeq_dir a s e cs fl bs).symm
          rw [hvs, ← hg.1.1.1]
          have hv2 : visSeq (FNode.dir a s e (some cs) fl bs)
              = visSeq (FNode.dir a s false (some cs) fl bs) := by
            rw [visSeq_dir, visSeq_dir]
          rw [hv2]
          simp

theorem visSeq_collapse_len {rest : List Nat} {n br : FNode} {b : Bool}
    (hg : goodB n b = true) (hnd : (allIds n).Nodup) (hne : rest ≠ [])
    (hget : getAt rest n = some br)
    (hchain : ∀ k, 0 < k → k < rest.length → ∀ y, getAt (rest.take k) n = some y →
      flatOf y = none)
    (hexp : expOf br = true) :
    (visSeq (updAt (setExpF false) rest n)).length + bSizeOf br = (visSeq n).length := by
  have hchainE := chain_exp_of_flat_none hg hget hchain
  rcases visSeq_decomp rest n br hnd hne hget hchainE with ⟨A, B, hv, _, _, hu⟩
  rw [hu (setExpF false), hv]
  have hgbr : goodB br false = true := goodB_getAt rest b n br hg hget hne
  have hload := loaded_of_expanded hgbr hexp
  have hdir : isDirN br = true := isDirN_of_loaded hload
  have hc1 : contrib br = idOf br :: visSeq br := by
    rw [contrib_eq, if_pos hexp]
  have hc2 : contrib (setExpF false br) = [idOf br] := by
    rw [contrib_eq, idOf_setExpF, expOf_setExpF_dir false hdir, if_neg (by simp)]
  have hbs : bSizeOf br = (visSeq br).length := by
    rw [loadedB] at hload
    rcases hcs : childrenOf br with _ | cs
    · rw [hcs] at hload; cases hload
    · exact (goodB_props hcs hgbr).1
  rw [hc1, hc2]
  simp only [List.length_append, List.length_cons, List.length_nil]
  omega

theorem shrink_le :
    ∀ (rest : List Nat) (n br : FNode) (b : Bool) (d0 d : Nat) (F2 ret : List Nat),
      d ≤ d0 →
      goodB n b = true → (allIds n).Nodup →
      (d = d0 → (b || !(expOf n)) = true ∧ F2 = visSeq (updAt (setExpF false) rest n)) →
      (d < d0 → b = false ∧ flatOf n = none) →
      rest ≠ [] → getAt rest n = some br →
      (∀ k, 0 < k → k < rest.length → ∀ y, getAt (rest.take k) n = some y →
        flatOf y = none) →
      expOf br = true →
      ret = visSeq br →
      updAt (setExpF false) rest (shrinkApply (bSizeOf br) (some d) F2 ret d0 rest n)
        = canon b (updAt (setExpF false) rest n) := by
  intro rest
  induction rest with
  | nil => intro n br b d0 d F2 ret _ _ _ _ _ hne _ _ _ _; exact absurd rfl hne
  | cons i rest ih =>
      intro n br b d0 d F2 ret hle hg hnd hat hbelow _ hget0 hchain hexp hret
      have hlen := visSeq_collapse_len hg hnd (by simp) hget0 hchain hexp
      have hget := hget0
      rw [getAt_cons] at hget
      rcases hcs : childrenOf n with _ | cs
      · rw [hcs] at hget; cases hget
      · rw [hcs] at hget
        dsimp only [Option.bind] at hget
        rcases hf : cs.find? (fun x => idOf x == i) with _ | c
        · rw [hf] at hget; cases hget
        · rw [hf] at hget
          rcases find_child_split hcs hf hnd with ⟨l1, l2, hsplit, hl1, hl2, hci⟩
          have hmem := List.mem_of_find?_eq_some hf
          have hgood := goodB_children hg hcs
          have hndc := nodup_child hcs hmem hnd
          have hgc : goodB c false = true := hgood c hmem
          have hgetc1 : getAt ((i :: rest).take 1) n = some c := by
            have ht : (i :: rest).take 1 = [i] := rfl
            rw [ht, getAt_cons, hcs]
            dsimp only [Option.bind]
            rw [hf]
            rfl
          have hmidW : updAt (setExpF false) rest
              (shrinkApply (bSizeOf br) (some d) F2 ret (d0 + 1) rest c)
              = canon false (updAt (setExpF false) rest c) := by
            cases rest with
            | nil =>
                cases hget
                rw [shrinkApply_nil (bSizeOf br) (d0 + 1) (some d) F2 ret _ rfl, updAt_nil,
                  updAt_nil, hret]
                exact (canon_end_collapse hgc hexp).symm
            | cons j q =>
                have hflc : flatOf c = none := by
                  refine hchain 1 Nat.one_pos (by simp) c hgetc1
                refine ih c br false (d0 + 1) d F2 ret (by omega) hgc hndc
                  (fun hd => absurd hd (by omega)) (fun _ => ⟨rfl, hflc⟩) (by simp) hget
                  ?_ hexp hret
                intro k h1 h2 y hy
                have h2b : k + 1 < (i :: j :: q).length := by
                  simp only [List.length_cons] at h2 ⊢
                  omega
                refine hchain (k + 1) (by omega) h2b y ?_
                have ht : (i :: j :: q).take (k + 1) = i :: (j :: q).take k := rfl
                rw [ht, getAt_cons, hcs]
                dsimp only [Option.bind]
                rw [hf]
                exact hy
          cases n with
          | file a s => cases hcs
          | dir a s e ocs fl bs =>
              cases ocs with
              | none => cases hcs
              | some cs0 =>
                  have hcs0 : cs0 = cs := by
                    simp only [childrenOf] at hcs
                    exact Option.some.inj hcs
                  subst hcs0
                  subst hsplit
                  have hbsn : bs
                      = (visSeq (FNode.dir a s e (some (l1 ++ c :: l2)) fl bs)).length :=
                    (goodB_props hcs hg).1
                  rw [updAt_cons, mapChildAt, map_guard_split _ hl1 hl2 hci] at hlen
                  rw [shrinkApply_cons_le _ _ _ _ _ _ _ _ hle]
                  conv_rhs => rw [updAt_cons, mapChildAt, map_guard_split _ hl1 hl2 hci]
                  rw [canon_dir]
                  have hLm : (l1 ++ updAt (setExpF false) rest c :: l2).map (canon false)
                      = l1 ++ canon false (updAt (setExpF false) rest c) :: l2 := by
                    rw [List.map_append, List.map_cons]
                    have e1 : l1.map (canon false) = l1 :=
                      (List.map_congr_left (fun x hx =>
                        canon_of_goodB x false (hgood x (List.mem_append_left _ hx)))).trans
                        (List.map_id' l1)
                    have e2 : l2.map (canon false) = l2 :=
                      (List.map_congr_left (fun x hx =>
                        canon_of_goodB x false (hgood x
                          (List.mem_append_right _ (List.mem_cons_of_mem c hx))))).trans
                        (List.map_id' l2)
                    rw [e1, e2]
                  have hflv : (l1 ++ canon false (updAt (setExpF false) rest c) :: l2).flatMap
                        contrib
                      = visSeq (FNode.dir a s e
                          (some (l1 ++ updAt (setExpF false) rest c :: l2)) fl bs) := by
                    rw [visSeq_dir, List.flatMap_append, List.flatMap_append,
                      List.flatMap_cons, List.flatMap_cons, contrib_canon]
                  rw [hLm, hflv]
                  have hWid : ∀ x, idOf (shrinkApply (bSizeOf br) (some d) F2 ret
                      (d0 + 1) rest x) = idOf x :=
                    fun x => idOf_shrinkApply (bSizeOf br) (some d) F2 ret rest (d0 + 1) x
                  by_cases hd : d = d0
                  · rcases hat hd with ⟨hb, hF2⟩
                    rw [updAt_cons, mapChildAt, map_guard_split _ hl1 hl2 hci] at hF2
                    rw [if_pos hd, updAt_cons,
                      mapChildAt_mapChildAt i (updAt (setExpF false) rest)
                        (shrinkApply (bSizeOf br) (some d) F2 ret (d0 + 1) rest) _ hWid,
                      subB, setFlatF, mapChildAt,
                      map_guard_split (fun x => updAt (setExpF false) rest
                        (shrinkApply (bSizeOf br) (some d) F2 ret (d0 + 1) rest x))
                        hl1 hl2 hci,
                      hmidW]
                    have hbe : (b || !e) = true := hb
                    have hF2len : F2.length = bs - bSizeOf br := by
                      rw [hF2]
                      omega
                    rw [if_pos hbe, ← hF2, hF2len]
                  · have hlt : d < d0 := by omega
                    rcases hbelow hlt with ⟨hbf, hfl⟩
                    subst hbf
                    have hfl2 : fl = none := hfl
                    subst hfl2
                    have he : e = true := by
                      exact expanded_of_flat_none hg (by rw [loadedB, hcs]; rfl) hfl
                    subst he
                    rw [if_neg hd, updAt_cons,
                      mapChildAt_mapChildAt i (updAt (setExpF false) rest)
                        (shrinkApply (bSizeOf br) (some d) F2 ret (d0 + 1) rest) _ hWid,
                      subB, mapChildAt,
                      map_guard_split (fun x => updAt (setExpF false) rest
                        (shrinkApply (bSizeOf br) (some d) F2 ret (d0 + 1) rest x))
                        hl1 hl2 hci,
                      hmidW]
                    rw [if_neg (by simp)]
                    have hlen2 : (visSeq (FNode.dir a s true
                        (some (l1 ++ updAt (setExpF false) rest c :: l2)) none bs)).length
                        = bs - bSizeOf br := by
                      omega
                    rw [hlen2]


theorem shrink_above :
    ∀ (rest : List Nat) (n br m : FNode) (b : Bool) (d0 d : Nat) (ret : List Nat),
      d0 < d →
      goodB n b = true → (allIds n).Nodup →
      d - d0 < rest.length →
      getAt (rest.take (d - d0)) n = some m → (flatOf m).isSome = true →
      (∀ k, d - d0 < k → k < rest.length → ∀ y, getAt (rest.take k) n = some y →
        flatOf y = none) →
      getAt rest n = some br →
      expOf br = true →
      ret = visSeq br →
      updAt (setExpF false) rest (shrinkApply (bSizeOf br) (some d)
          (visSeq (updAt (setExpF false) (rest.drop (d - d0)) m)) ret d0 rest n)
        = canon b (updAt (setExpF false) rest n) := by
  intro rest
  induction rest with
  | nil =>
      intro n br m b d0 d ret _ _ _ hjlen _ _ _ _ _ _
      simp at hjlen
  | cons i rest ih =>
      intro n br m b d0 d ret hgt hg hnd hjlen hgetm hflm hchain hget0 hexp hret
      have hj1 : 1 ≤ d - d0 := by omega
      have hget := hget0
      rw [getAt_cons] at hget
      rcases hcs : childrenOf n with _ | cs
      · rw [hcs] at hget; cases hget
      · rw [hcs] at hget
        dsimp only [Option.bind] at hget
        rcases hf : cs.find? (fun x => idOf x == i) with _ | c
        · rw [hf] at hget; cases hget
        · rw [hf] at hget
          rcases find_child_split hcs hf hnd with ⟨l1, l2, hsplit, hl1, hl2, hci⟩
          have hmem := List.mem_of_find?_eq_some hf
          have hgood := goodB_children hg hcs
          have hndc := nodup_child hcs hmem hnd
          have hgc : goodB c false = true := hgood c hmem
          have hrestne : rest ≠ [] := by
            intro hcon
            rw [hcon] at hjlen
            simp at hjlen
            omega
          have hgm : goodB m false = true := by
            refine goodB_getAt ((i :: rest).take (d - d0)) b n m hg hgetm ?_
            intro hcon
            have : ((i :: rest).take (d - d0)).length = 0 := by rw [hcon]; rfl
            rw [List.length_take] at this
            simp only [List.length_cons] at this hjlen
            omega
          have hcollm : expOf m = false := by
            rcases hfq : flatOf m with _ | F
            · rw [hfq] at hflm; cases hflm
            · exact collapsed_of_flat_some hgm hfq
          have hblock : visSeq (updAt (setExpF false) (i :: rest) n) = visSeq n := by
            have hsplitp : (i :: rest) = (i :: rest).take (d - d0) ++ (i :: rest).drop (d - d0) :=
              (List.take_append_drop _ _).symm
            have hdropne : (i :: rest).drop (d - d0) ≠ [] := by
              intro hcon
              have := List.drop_eq_nil_iff_le.1 hcon
              simp only [List.length_cons] at this hjlen
              omega
            have htakene : (i :: rest).take (d - d0) ≠ [] := by
              intro hcon
              have : ((i :: rest).take (d - d0)).length = 0 := by rw [hcon]; rfl
              rw [List.length_take] at this
              simp only [List.length_cons] at this hjlen
              omega
            conv_lhs => rw [hsplitp]
            rw [updAt_append]
            refine visSeq_updAt_contrib _ _ n m htakene hgetm hnd ?_
            rw [contrib_eq, contrib_eq]
            rw [idOf_updAt_ne_nil _ hdropne]
            have hexpu : expOf (updAt (setExpF false) ((i :: rest).drop (d - d0)) m)
                = expOf m := by
              rcases hdd : (i :: rest).drop (d - d0) with _ | ⟨z, zs⟩
              · exact absurd hdd hdropne
              · rw [updAt_cons, expOf_mapChildAt]
            rw [hexpu, if_neg (by simp [hcollm]), if_neg (by simp [hcollm])]
          have hmidW : updAt (setExpF false) rest (shrinkApply (bSizeOf br) (some d)
              (visSeq (updAt (setExpF false) ((i :: rest).drop (d - d0)) m)) ret (d0 + 1)
              rest c) = canon false (updAt (setExpF false) rest c) := by
            by_cases hj : d - d0 = 1
            · have hmc : m = c := by
                have ht : (i :: rest).take (d - d0) = [i] := by rw [hj]; rfl
                rw [ht, getAt_cons, hcs] at hgetm
                dsimp only [Option.bind] at hgetm
                rw [hf] at hgetm
                exact (Option.some.inj hgetm).symm
              subst hmc
              have hdrop : (i :: rest).drop (d - d0) = rest := by rw [hj]; rfl
              have hdeq : d = d0 + 1 := by omega
              subst hdeq
              rw [hdrop]
              refine shrink_le rest m br false (d0 + 1) (d0 + 1) _ ret (by omega) hgc hndc
                (fun _ => ⟨by simp [hcollm], rfl⟩) (fun hlt => absurd hlt (by omega))
                hrestne hget ?_ hexp hret
              intro k h1 h2 y hy
              have h2b : k + 1 < (i :: rest).length := by
                simp only [List.length_cons] at h2 ⊢
                omega
              refine hchain (k + 1) (by omega) h2b y ?_
              have ht : (i :: rest).take (k + 1) = i :: rest.take k := rfl
              rw [ht, getAt_cons, hcs]
              dsimp only [Option.bind]
              rw [hf]
              exact hy
            · have hj2 : 2 ≤ d - d0 := by omega
              have hgetm2 : getAt (rest.take (d - (d0 + 1))) c = some m := by
                have ht : (i :: rest).take (d - d0) = i :: rest.take (d - (d0 + 1)) := by
                  have : d - d0 = (d - (d0 + 1)) + 1 := by omega
                  rw [this]
                  rfl
                rw [ht, getAt_cons, hcs] at hgetm
                dsimp only [Option.bind] at hgetm
                rw [hf] at hgetm
                exact hgetm
              have hdrop : (i :: rest).drop (d - d0) = rest.drop (d - (d0 + 1)) := by
                have : d - d0 = (d - (d0 + 1)) + 1 := by omega
                rw [this]
                rfl
              rw [hdrop]
              refine ih c br m false (d0 + 1) d ret (by omega) hgc hndc ?_ hgetm2 hflm ?_
                hget hexp hret
              · simp only [List.length_cons] at hjlen
                omega
              · intro k h1 h2 y hy
                have h2b : k + 1 < (i :: rest).length := by
                  simp only [List.length_cons] at h2 ⊢
                  omega
                refine hchain (k + 1) (by omega) h2b y ?_
                have ht : (i :: rest).take (k + 1) = i :: rest.take k := rfl
                rw [ht, getAt_cons, hcs]
                dsimp only [Option.bind]
                rw [hf]
                exact hy
          cases n with
          | file a s => cases hcs
          | dir a s e ocs fl bs =>
              cases ocs with
              | none => cases hcs
              | some cs0 =>
                  have hcs0 : cs0 = cs := by
                    simp only [childrenOf] at hcs
                    exact Option.some.inj hcs
                  subst hcs0
                  subst hsplit
                  have hprops := goodB_props hcs hg
                  have hWid : ∀ x, idOf (shrinkApply (bSizeOf br) (some d)
                      (visSeq (updAt (setExpF false) ((i :: rest).drop (d - d0)) m)) ret
                      (d0 + 1) rest x) = idOf x :=
                    fun x => idOf_shrinkApply _ _ _ _ rest (d0 + 1) x
                  rw [updAt_cons, mapChildAt, map_guard_split _ hl1 hl2 hci] at hblock
                  conv_rhs => rw [updAt_cons, mapChildAt, map_guard_split _ hl1 hl2 hci]
                  rw [canon_dir]
                  rw [shrinkApply_cons_gt _ _ _ _ _ _ _ _ hgt, updAt_cons,
                    mapChildAt_mapChildAt i (updAt (setExpF false) rest)
                      (shrinkApply (bSizeOf br) (some d)
                        (visSeq (updAt (setExpF false) ((i :: rest).drop (d - d0)) m)) ret
                        (d0 + 1) rest) _ hWid,
                    mapChildAt,
                    map_guard_split (fun x => updAt (setExpF false) rest
                      (shrinkApply (bSizeOf br) (some d)
                        (visSeq (updAt (setExpF false) ((i :: rest).drop (d - d0)) m)) ret
                        (d0 + 1) rest x)) hl1 hl2 hci,
                    hmidW]
                  have hLm : (l1 ++ updAt (setExpF false) rest c :: l2).map (canon false)
                      = l1 ++ canon false (updAt (setExpF false) rest c) :: l2 := by
                    rw [List.map_append, List.map_cons]
                    have e1 : l1.map (canon false) = l1 :=
                      (List.map_congr_left (fun x hx =>
                        canon_of_goodB x false (hgood x (List.mem_append_left _ hx)))).trans
                        (List.map_id' l1)
                    have e2 : l2.map (canon false) = l2 :=
                      (List.map_congr_left (fun x hx =>
                        canon_of_goodB x false (hgood x
                          (List.mem_append_right _ (List.mem_cons_of_mem c hx))))).trans
                        (List.map_id' l2)
                    rw [e1, e2]
                  have hflv : (l1 ++ canon false (updAt (setExpF false) rest c) :: l2).flatMap
                        contrib
                      = visSeq (FNode.dir a s e
                          (some (l1 ++ updAt (setExpF false) rest c :: l2)) fl bs) := by
                    rw [visSeq_dir, List.flatMap_append, List.flatMap_append,
                      List.flatMap_cons, List.flatMap_cons, contrib_canon]
                  rw [hLm, hflv, hblock]
                  have hflat : fl = if (b || !e) = true
                      then some (visSeq (FNode.dir a s e (some (l1 ++ c :: l2)) fl bs))
                      else none := hprops.2.1
                  have hbs : bs
                      = (visSeq (FNode.dir a s e (some (l1 ++ c :: l2)) fl bs)).length :=
                    hprops.1
                  rw [← hflat, ← hbs]


theorem collapseStep_canon {t : FNode} {q : List Nat} {br : FNode}
    (hg : goodB t true = true) (hnd : (allIds t).Nodup) (hqne : q ≠ [])
    (hget : getAt q t = some br) (hexp : expOf br = true) (hroot : loadedB t = true) :
    updAt (setExpF false) q (shrinkStep t q) = canon true (updAt (setExpF false) q t) := by
  have hgbr : goodB br false = true := goodB_getAt q true t br hg hget hqne
  have hload := loaded_of_expanded hgbr hexp
  have hdir : isDirN br = true := isDirN_of_loaded hload
  have hbsbr : bSizeOf br = (visSeq br).length := by
    rw [loadedB] at hload
    rcases hcs : childrenOf br with _ | bcs
    · rw [hcs] at hload; cases hload
    · exact (goodB_props hcs hgbr).1
  have htrootflat : flatOf t = some (visSeq t) := by
    rw [loadedB] at hroot
    rcases hx : childrenOf t with _ | tcs
    · rw [hx] at hroot; cases hroot
    · have := (goodB_props hx hg).2.1
      simpa using this
  have hhf0 : hasFlatAt t [] = true := by
    rw [hasFlatAt_some (getAt_nil t), htrootflat]
    rfl
  obtain ⟨d, hodt⟩ := @ownerDepth_isSome _ q (q.length - 1) hhf0
  obtain ⟨hfd, hdle, hmax⟩ := ownerDepth_spec hodt
  have hqpos : 0 < q.length := by
    cases q with
    | nil => exact absurd rfl hqne
    | cons a b => simp
  have hm : ∃ m, getAt (q.take d) t = some m ∧ (flatOf m).isSome = true := by
    rw [hasFlatAt] at hfd
    rcases hx : getAt (q.take d) t with _ | m
    · rw [hx] at hfd; cases hfd
    · rw [hx] at hfd
      exact ⟨m, rfl, hfd⟩
  rcases hm with ⟨m, hgetm, hflm⟩
  have hsplitq : q = q.take d ++ q.drop d := (List.take_append_drop d q).symm
  have hgdrop : getAt (q.drop d) m = some br := by
    rw [hsplitq] at hget
    rcases getAt_split hget with ⟨y, hy, hdrop⟩
    rw [hgetm] at hy
    cases hy
    exact hdrop
  have hdropne : q.drop d ≠ [] := by
    intro hcon
    have := List.drop_eq_nil_iff_le.1 hcon
    omega
  have hgm : goodB m (decide (d = 0)) = true := by
    by_cases hd0 : d = 0
    · subst hd0
      rw [List.take_zero] at hgetm
      cases hgetm
      simpa using hg
    · have : goodB m false = true := by
        refine goodB_getAt (q.take d) true t m hg hgetm ?_
        intro hcon
        have : (q.take d).length = 0 := by rw [hcon]; rfl
        rw [List.length_take] at this
        omega
      simpa [hd0] using this
  have hndm : (allIds m).Nodup := nodup_getAt (q.take d) t m hnd hgetm
  have hFm : flatOf m = some (visSeq m) := by
    rcases hfq : flatOf m with _ | F
    · rw [hfq] at hflm; cases hflm
    · rw [flat_eq_visSeq hgm hfq]
  have hchainm : ∀ k, 0 < k → k < (q.drop d).length → ∀ y,
      getAt ((q.drop d).take k) m = some y → flatOf y = none := by
    intro k h1 h2 y hy
    have htk : q.take (d + k) = q.take d ++ (q.drop d).take k := List.take_add q d k
    have hgy : getAt (q.take (d + k)) t = some y := by
      rw [htk, getAt_append, hgetm]
      exact hy
    have hnf : hasFlatAt t (q.take (d + k)) = false := by
      refine hmax (d + k) (by omega) ?_
      rw [List.length_drop] at h2
      omega
    rw [hasFlatAt_some hgy] at hnf
    rcases hfy : flatOf y with _ | F
    · rfl
    · rw [hfy] at hnf; cases hnf
  have hchainmE := chain_exp_of_flat_none hgm hgdrop hchainm
  rcases visSeq_decomp (q.drop d) m br hndm hdropne hgdrop hchainmE
    with ⟨A, B, hv, hA, hB, hu⟩
  have hc1 : contrib br = idOf br :: visSeq br := by
    rw [contrib_eq, if_pos hexp]
  have hc2 : contrib (setExpF false br) = [idOf br] := by
    rw [contrib_eq, idOf_setExpF, expOf_setExpF_dir false hdir, if_neg (by simp)]
  have hveq : visSeq m = (A ++ [idOf br]) ++ visSeq br ++ B := by
    rw [hv, hc1]
    simp [List.append_assoc]
  have hjs : jsIdx (visSeq m) (idOf br) = (A.length : Int) := by
    rw [hv, hc1, List.append_assoc, List.cons_append]
    exact jsIdx_split hA _
  have htn : ((A.length : Int) + 1).toNat = (A ++ [idOf br]).length := by
    simp only [List.length_append, List.length_cons, List.length_nil]
    omega
  have hret : jsSlice (visSeq m) ((jsIdx (visSeq m) (idOf br) + 1).toNat)
      (((jsIdx (visSeq m) (idOf br) + 1).toNat) + bSizeOf br) = visSeq br := by
    rw [hjs, htn, hveq, hbsbr]
    exact jsSlice_extract (A ++ [idOf br]) (visSeq br) B
  have hF2 : spliceTA (visSeq m) ((jsIdx (visSeq m) (idOf br) + 1).toNat) (visSeq br).length []
      = visSeq (updAt (setExpF false) (q.drop d) m) := by
    rw [hjs, htn, hveq, spliceTA_remove, hu (setExpF false), hc2]
  cases q with
  | nil => exact absurd rfl hqne
  | cons i qs =>
      rw [shrinkStep]
      rw [hget]
      dsimp only
      rw [hodt]
      dsimp only
      rw [flatAt_some hgetm, hFm]
      dsimp only [Option.getD]
      rw [hret, hF2]
      by_cases hd0 : d = 0
      · subst hd0
        rw [List.take_zero] at hgetm
        cases hgetm
        rw [List.drop_zero]
        refine shrink_le (i :: qs) t br true 0 0 _ _ (by omega) hg hnd
          (fun _ => ⟨by simp, rfl⟩) (fun h => absurd h (by omega))
          (by simp) hget ?_ hexp rfl
        intro k h1 h2 y hy
        have hnf : hasFlatAt t ((i :: qs).take k) = false := hmax k (by omega) (by omega)
        rw [hasFlatAt_some hy] at hnf
        rcases hfy : flatOf y with _ | F
        · rfl
        · rw [hfy] at hnf; cases hnf
      · refine shrink_above (i :: qs) t br m true 0 d _ (by omega) hg hnd
          (by simp only [Nat.sub_zero]; omega) ?_ hflm ?_ hget hexp rfl
        · rw [Nat.sub_zero]
          exact hgetm
        · intro k h1 h2 y hy
          rw [Nat.sub_zero] at h1
          have hnf : hasFlatAt t ((i :: qs).take k) = false := hmax k (by omega) (by omega)
          rw [hasFlatAt_some hy] at hnf
          rcases hfy : flatOf y with _ | F
          · rfl
          · rw [hfy] at hnf; cases hnf


theorem insertApply_nil (delta od d0 : Nat) (F2 : List Nat) (cs2 : List FNode) (N : FNode) :
    insertApply delta od F2 cs2 d0 [] N
      = (if od = d0 then setFlatF (some F2) (addB delta (setChildrenF (some cs2) N))
          else addB delta (setChildrenF (some cs2) N)) := by
  rw [insertApply]
  by_cases he : od = d0
  · rw [if_pos (by simp [he]), if_pos he]
  · rw [if_neg (by simp [he]), if_neg he]

theorem insertApply_cons_le (delta d d0 : Nat) (F2 : List Nat) (cs2 : List FNode) (i : Nat)
    (rest : List Nat) (N : FNode) (hle : d ≤ d0) :
    insertApply delta d F2 cs2 d0 (i :: rest) N
      = mapChildAt i (insertApply delta d F2 cs2 (d0 + 1) rest)
          (if d = d0 then setFlatF (some F2) (addB delta N) else addB delta N) := by
  rw [insertApply]
  have hc1 : (decide (d ≤ d0)) = true := by simp [hle]
  by_cases he : d = d0
  · rw [hc1, if_pos (by simp [he])]
    simp only [if_true, if_pos he]
  · rw [hc1, if_neg (show ¬ ((d == d0) = true) by simp [he])]
    simp only [if_true, if_neg he]

theorem insertApply_cons_gt (delta d d0 : Nat) (F2 : List Nat) (cs2 : List FNode) (i : Nat)
    (rest : List Nat) (N : FNode) (hgt : d0 < d) :
    insertApply delta d F2 cs2 d0 (i :: rest) N
      = mapChildAt i (insertApply delta d F2 cs2 (d0 + 1) rest) N := by
  rw [insertApply]
  have hc1 : (decide (d ≤ d0)) = false := by simp; omega
  have hc2 : ((d == d0) : Bool) = false := by simp; omega
  simp only [hc1, hc2, Bool.false_eq_true, if_false]

theorem length_flatMap_eq_sum {α : Type} (f : α → List Nat) :
    ∀ (l : List α), (l.flatMap f).length = (l.map (fun x => (f x).length)).sum := by
  intro l
  induction l with
  | nil => rfl
  | cons a l ih =>
      rw [List.flatMap_cons, List.map_cons, List.length_append, List.sum_cons, ih]

theorem flatMap_perm_length {l1 l2 : List FNode} (h : l1.Perm l2) (f : FNode → List Nat) :
    (l1.flatMap f).length = (l2.flatMap f).length := by
  rw [length_flatMap_eq_sum, length_flatMap_eq_sum]
  exact (h.map (fun x => (f x).length)).sum_eq

theorem canon_fix_of_perm {cs cs2 : List FNode} {item : FNode}
    (hgood : ∀ x ∈ cs, goodB x false = true) (hperm : cs2.Perm (cs ++ [item]))
    (hci : canon false item = item) :
    cs2.map (canon false) = cs2 := by
  refine (List.map_congr_left (fun x hx => ?_)).trans (List.map_id' cs2)
  have hx2 : x ∈ cs ++ [item] := hperm.mem_iff.1 hx
  rcases List.mem_append.1 hx2 with hx3 | hx3
  · exact canon_of_goodB x false (hgood x hx3)
  · rcases List.mem_singleton.1 hx3 with rfl
    exact hci

theorem visSeq_insert_len {rest : List Nat} {n br item : FNode} {cs cs2 : List FNode}
    {b : Bool}
    (hg : goodB n b = true) (hnd : (allIds n).Nodup) (hne : rest ≠ [])
    (hget : getAt rest n = some br)
    (hchain : ∀ k, 0 < k → k < rest.length → ∀ y, getAt (rest.take k) n = some y →
      flatOf y = none)
    (hbrcs : childrenOf br = some cs) (hexpbr : expOf br = true)
    (hperm : cs2.Perm (cs ++ [item])) (hcitem : contrib item = [idOf item]) :
    (visSeq (updAt (setChildrenF (some cs2)) rest n)).length = (visSeq n).length + 1 := by
  have hchainE := chain_exp_of_flat_none hg hget hchain
  rcases visSeq_decomp rest n br hnd hne hget hchainE with ⟨A, B, hv, _, _, hu⟩
  rw [hu (setChildrenF (some cs2)), hv]
  have hgbr : goodB br false = true := goodB_getAt rest b n br hg hget hne
  have hc1 : contrib br = idOf br :: visSeq br := by
    rw [contrib_eq, if_pos hexpbr]
  have hc2 : contrib (setChildrenF (some cs2) br)
      = idOf br :: visSeq (setChildrenF (some cs2) br) := by
    rw [contrib_eq, idOf_setChildrenF, expOf_setChildrenF, if_pos hexpbr]
  have hvbr : visSeq br = cs.flatMap contrib := visSeq_loaded br cs hbrcs
  have hvbr2 : visSeq (setChildrenF (some cs2) br) = cs2.flatMap contrib := by
    refine visSeq_loaded _ cs2 ?_
    cases br with
    | file a s => cases hbrcs
    | dir a s e ocs fl bs => rfl
  have hlen2 : (cs2.flatMap contrib).length = (cs.flatMap contrib).length + 1 := by
    rw [flatMap_perm_length hperm contrib, List.flatMap_append, List.flatMap_cons,
      List.flatMap_nil, List.length_append, hcitem]
    rfl
  rw [hc1, hc2, hvbr, hvbr2]
  simp only [List.length_append, List.length_cons]
  omega

theorem insertApply_le :
    ∀ (rest : List Nat) (n br item : FNode) (cs cs2 : List FNode) (b : Bool) (d0 d : Nat)
      (F2 : List Nat),
      d ≤ d0 →
      goodB n b = true → (allIds n).Nodup →
      (d = d0 → (b || !(expOf n)) = true
        ∧ F2 = visSeq (updAt (setChildrenF (some cs2)) rest n)) →
      (d < d0 → b = false ∧ flatOf n = none) →
      (d < d0 + rest.length → flatOf br = none) →
      getAt rest n = some br →
      (∀ k, 0 < k → k < rest.length → ∀ y, getAt (rest.take k) n = some y →
        flatOf y = none) →
      childrenOf br = some cs →
      cs2.Perm (cs ++ [item]) →
      canon false item = item →
      contrib item = [idOf item] →
      insertApply 1 d F2 cs2 d0 rest n
        = canon b (updAt (setChildrenF (some cs2)) rest n) := by
  intro rest
  induction rest with
  | nil =>
      intro n br item cs cs2 b d0 d F2 hle hg hnd hat hbelow _ hget hchain hbrcs hperm
        hci hcc
      cases hget
      rw [updAt_nil, insertApply_nil]
      have hgood : ∀ x ∈ cs, goodB x false = true := goodB_children hg hbrcs
      have hfix := canon_fix_of_perm hgood hperm hci
      cases n with
      | file a s => cases hbrcs
      | dir a s e ocs fl bs =>
          cases ocs with
          | none => cases hbrcs
          | some cs0 =>
              have hcs0 : cs0 = cs := by
                simp only [childrenOf] at hbrcs
                exact Option.some.inj hbrcs
              subst hcs0
              have hprops := goodB_props hbrcs hg
              have hbs : bs = (cs0.flatMap contrib).length := by
                have h1 := hprops.1
                rw [visSeq_dir] at h1
                exact h1
              have hlen2 : (cs2.flatMap contrib).length
                  = (cs0.flatMap contrib).length + 1 := by
                rw [flatMap_perm_length hperm contrib, List.flatMap_append,
                  List.flatMap_cons, List.flatMap_nil, List.length_append, hcc]
                rfl
              rw [setChildrenF, addB, canon_dir, hfix]
              by_cases hd : d = d0
              · rcases hat hd with ⟨hb, hF2⟩
                rw [updAt_nil, setChildrenF] at hF2
                have hbe : (b || !e) = true := hb
                rw [if_pos hd, setFlatF, if_pos hbe]
                have hF2v : F2 = cs2.flatMap contrib := by
                  rw [hF2, visSeq_dir]
                rw [← hF2v]
                congr 1
                rw [hF2v]
                omega
              · have hlt : d < d0 := by omega
                rcases hbelow hlt with ⟨hbf, hfl⟩
                subst hbf
                have hfl2 : fl = none := hfl
                subst hfl2
                have he : e = true :=
                  expanded_of_flat_none hg (by rw [loadedB, hbrcs]; rfl) hfl
                subst he
                rw [if_neg hd, if_neg (by simp)]
                congr 1
                omega
  | cons i rest ih =>
      intro n br item cs cs2 b d0 d F2 hle hg hnd hat hbelow hbrfl hget0 hchain hbrcs
        hperm hci hcc
      have hbrfl2 : flatOf br = none := by
        refine hbrfl ?_
        simp only [List.length_cons]
        omega
      have hexpbr : expOf br = true :=
        expanded_of_flat_none (goodB_getAt (i :: rest) b n br hg hget0 (by simp))
          (by rw [loadedB, hbrcs]; rfl) hbrfl2
      have hlen := visSeq_insert_len hg hnd (by simp) hget0 hchain hbrcs hexpbr hperm hcc
      have hget := hget0
      rw [getAt_cons] at hget
      rcases hcs : childrenOf n with _ | ncs
      · rw [hcs] at hget; cases hget
      · rw [hcs] at hget
        dsimp only [Option.bind] at hget
        rcases hf : ncs.find? (fun x => idOf x == i) with _ | c
        · rw [hf] at hget; cases hget
        · rw [hf] at hget
          rcases find_child_split hcs hf hnd with ⟨l1, l2, hsplit, hl1, hl2, hci2⟩
          have hmem := List.mem_of_find?_eq_some hf
          have hgood := goodB_children hg hcs
          have hndc := nodup_child hcs hmem hnd
          have hgc : goodB c false = true := hgood c hmem
          have hgetc1 : getAt ((i :: rest).take 1) n = some c := by
            have ht : (i :: rest).take 1 = [i] := rfl
            rw [ht, getAt_cons, hcs]
            dsimp only [Option.bind]
            rw [hf]
            rfl
          have hflc : flatOf c = none := by
            cases rest with
            | nil =>
                cases hget
                exact hbrfl2
            | cons j q =>
                exact hchain 1 Nat.one_pos (by simp) c hgetc1
          have hmidW : insertApply 1 d F2 cs2 (d0 + 1) rest c
              = canon false (updAt (setChildrenF (some cs2)) rest c) := by
            refine ih c br item cs cs2 false (d0 + 1) d F2 (by omega) hgc hndc
              (fun hd => absurd hd (by omega)) (fun _ => ⟨rfl, hflc⟩)
              (fun _ => hbrfl2) hget ?_ hbrcs hperm hci hcc
            intro k h1 h2 y hy
            have h2b : k + 1 < (i :: rest).length := by
              simp only [List.length_cons] at h2 ⊢
              omega
            refine hchain (k + 1) (by omega) h2b y ?_
            have ht : (i :: rest).take (k + 1) = i :: rest.take k := rfl
            rw [ht, getAt_cons, hcs]
            dsimp only [Option.bind]
            rw [hf]
            exact hy
          cases n with
          | file a s => cases hcs
          | dir a s e ocs fl bs =>
              cases ocs with
              | none => cases hcs
              | some cs0 =>
                  have hcs0 : cs0 = ncs := by
                    simp only [childrenOf] at hcs
                    exact Option.some.inj hcs
                  subst hcs0
                  subst hsplit
                  have hbsn : bs
                      = (visSeq (FNode.dir a s e (some (l1 ++ c :: l2)) fl bs)).length :=
                    (goodB_props hcs hg).1
                  rw [updAt_cons, mapChildAt, map_guard_split _ hl1 hl2 hci2] at hlen ⊢
                  rw [insertApply_cons_le _ _ _ _ _ _ _ _ hle, canon_dir]
                  have hLm : (l1 ++ updAt (setChildrenF (some cs2)) rest c :: l2).map
                        (canon false)
                      = l1 ++ canon false (updAt (setChildrenF (some cs2)) rest c) :: l2 := by
                    rw [List.map_append, List.map_cons]
                    have e1 : l1.map (canon false) = l1 :=
                      (List.map_congr_left (fun x hx =>
                        canon_of_goodB x false (hgood x (List.mem_append_left _ hx)))).trans
                        (List.map_id' l1)
                    have e2 : l2.map (canon false) = l2 :=
                      (List.map_congr_left (fun x hx =>
                        canon_of_goodB x false (hgood x
                          (List.mem_append_right _ (List.mem_cons_of_mem c hx))))).trans
                        (List.map_id' l2)
                    rw [e1, e2]
                  have hflv : (l1 ++ canon false (updAt (setChildrenF (some cs2)) rest c)
                        :: l2).flatMap contrib
                      = visSeq (FNode.dir a s e
                          (some (l1 ++ updAt (setChildrenF (some cs2)) rest c :: l2))
                          fl bs) := by
                    rw [visSeq_dir, List.flatMap_append, List.flatMap_append,
                      List.flatMap_cons, List.flatMap_cons, contrib_canon]
                  rw [hLm, hflv]
                  by_cases hd : d = d0
                  · rcases hat hd with ⟨hb, hF2⟩
                    rw [updAt_cons, mapChildAt, map_guard_split _ hl1 hl2 hci2] at hF2
                    rw [if_pos hd, addB, setFlatF, mapChildAt]
                    rw [map_guard_split _ hl1 hl2 ?hmidi, hmidW]
                    case hmidi => exact hci2
                    have hbe : (b || !e) = true := hb
                    have hF2len : F2.length = bs + 1 := by
                      rw [hF2, hlen, ← hbsn]
                    rw [if_pos hbe, ← hF2, hF2len]
                  · have hlt : d < d0 := by omega
                    rcases hbelow hlt with ⟨hbf, hfl⟩
                    subst hbf
                    have hfl2 : fl = none := hfl
                    subst hfl2
                    have he : e = true :=
                      expanded_of_flat_none hg (by rw [loadedB, hcs]; rfl) hfl
                    subst he
                    rw [if_neg hd, addB, mapChildAt]
                    rw [map_guard_split _ hl1 hl2 ?hmidi2, hmidW]
                    case hmidi2 => exact hci2
                    rw [if_neg (by simp)]
                    have hlen2 : (visSeq (FNode.dir a s true
                        (some (l1 ++ updAt (setChildrenF (some cs2)) rest c :: l2))
                        none bs)).length = bs + 1 := by
                      rw [hlen, ← hbsn]
                    rw [hlen2]


theorem insertApply_above :
    ∀ (rest : List Nat) (n br item m : FNode) (cs cs2 : List FNode) (b : Bool) (d0 d : Nat),
      d0 < d →
      goodB n b = true → (allIds n).Nodup →
      d - d0 ≤ rest.length →
      getAt (rest.take (d - d0)) n = some m → (flatOf m).isSome = true →
      (∀ k, d - d0 < k → k < rest.length → ∀ y, getAt (rest.take k) n = some y →
        flatOf y = none) →
      (d < d0 + rest.length → flatOf br = none) →
      getAt rest n = some br →
      childrenOf br = some cs →
      cs2.Perm (cs ++ [item]) →
      canon false item = item →
      contrib item = [idOf item] →
      insertApply 1 d (visSeq (updAt (setChildrenF (some cs2)) (rest.drop (d - d0)) m))
          cs2 d0 rest n
        = canon b (updAt (setChildrenF (some cs2)) rest n) := by
  intro rest
  induction rest with
  | nil =>
      intro n br item m cs cs2 b d0 d hgt _ _ hjlen _ _ _ _ _ _ _ _ _
      simp at hjlen
      omega
  | cons i rest ih =>
      intro n br item m cs cs2 b d0 d hgt hg hnd hjlen hgetm hflm hchain hbrfl hget0
        hbrcs hperm hci hcc
      have hj1 : 1 ≤ d - d0 := by omega
      have hget := hget0
      rw [getAt_cons] at hget
      rcases hcs : childrenOf n with _ | ncs
      · rw [hcs] at hget; cases hget
      · rw [hcs] at hget
        dsimp only [Option.bind] at hget
        rcases hf : ncs.find? (fun x => idOf x == i) with _ | c
        · rw [hf] at hget; cases hget
        · rw [hf] at hget
          rcases find_child_split hcs hf hnd with ⟨l1, l2, hsplit, hl1, hl2, hci2⟩
          have hmem := List.mem_of_find?_eq_some hf
          have hgood := goodB_children hg hcs
          have hndc := nodup_child hcs hmem hnd
          have hgc : goodB c false = true := hgood c hmem
          have hgm : goodB m false = true := by
            refine goodB_getAt ((i :: rest).take (d - d0)) b n m hg hgetm ?_
            intro hcon
            have : ((i :: rest).take (d - d0)).length = 0 := by rw [hcon]; rfl
            rw [List.length_take] at this
            simp only [List.length_cons] at this hjlen
            omega
          have hcollm : expOf m = false := by
            rcases hfq : flatOf m with _ | F
            · rw [hfq] at hflm; cases hflm
            · exact collapsed_of_flat_some hgm hfq
          have hblock : visSeq (updAt (setChildrenF (some cs2)) (i :: rest) n)
              = visSeq n := by
            have hsplitp : (i :: rest)
                = (i :: rest).take (d - d0) ++ (i :: rest).drop (d - d0) :=
              (List.take_append_drop _ _).symm
            have hdropne : (i :: rest).drop (d - d0) ≠ [] ∨ (d - d0) = (i :: rest).length := by
              by_cases hx : (d - d0) = (i :: rest).length
              · exact Or.inr hx
              · refine Or.inl ?_
                intro hcon
                have := List.drop_eq_nil_iff_le.1 hcon
                simp only [List.length_cons] at this hjlen hx
                omega
            have htakene : (i :: rest).take (d - d0) ≠ [] := by
              intro hcon
              have : ((i :: rest).take (d - d0)).length = 0 := by rw [hcon]; rfl
              rw [List.length_take] at this
              simp only [List.length_cons] at this hjlen
              omega
            conv_lhs => rw [hsplitp]
            rw [updAt_append]
            refine visSeq_updAt_contrib _ _ n m htakene hgetm hnd ?_
            rcases hdropne with hdropne | howner
            · rw [contrib_eq, contrib_eq]
              rw [idOf_updAt_ne_nil _ hdropne]
              have hexpu : expOf (updAt (setChildrenF (some cs2))
                  ((i :: rest).drop (d - d0)) m) = expOf m := by
                rcases hdd : (i :: rest).drop (d - d0) with _ | ⟨z, zs⟩
                · exact absurd hdd hdropne
                · rw [updAt_cons, expOf_mapChildAt]
              rw [hexpu, if_neg (by simp [hcollm]), if_neg (by simp [hcollm])]
            · -- the owner is the target itself
              have hdr : (i :: rest).drop (d - d0) = [] := by
                rw [howner, List.drop_length]
              rw [hdr, updAt_nil]
              have hmbr : m = br := by
                have ht : (i :: rest).take (d - d0) = i :: rest := by
                  rw [howner, List.take_length]
                rw [ht, hget0] at hgetm
                exact (Option.some.inj hgetm).symm
              subst hmbr
              rw [contrib_eq, contrib_eq, idOf_setChildrenF, expOf_setChildrenF,
                if_neg (by simp [hcollm]), if_neg (by simp [hcollm])]
          have hmidW : insertApply 1 d
              (visSeq (updAt (setChildrenF (some cs2)) ((i :: rest).drop (d - d0)) m))
              cs2 (d0 + 1) rest c = canon false (updAt (setChildrenF (some cs2)) rest c) := by
            by_cases hj : d - d0 = 1
            · have hmc : m = c := by
                have ht : (i :: rest).take (d - d0) = [i] := by rw [hj]; rfl
                rw [ht, getAt_cons, hcs] at hgetm
                dsimp only [Option.bind] at hgetm
                rw [hf] at hgetm
                exact (Option.some.inj hgetm).symm
              subst hmc
              have hdrop : (i :: rest).drop (d - d0) = rest := by rw [hj]; rfl
              have hdeq : d = d0 + 1 := by omega
              subst hdeq
              rw [hdrop]
              refine insertApply_le rest m br item cs cs2 false (d0 + 1) (d0 + 1) _
                (by omega) hgc hndc (fun _ => ⟨by simp [hcollm], rfl⟩)
                (fun hlt => absurd hlt (by omega)) ?_ hget ?_ hbrcs hperm hci hcc
              · intro hlt
                refine hbrfl ?_
                simp only [List.length_cons]
                omega
              · intro k h1 h2 y hy
                have h2b : k + 1 < (i :: rest).length := by
                  simp only [List.length_cons] at h2 ⊢
                  omega
                refine hchain (k + 1) (by omega) h2b y ?_
                have ht : (i :: rest).take (k + 1) = i :: rest.take k := rfl
                rw [ht, getAt_cons, hcs]
                dsimp only [Option.bind]
                rw [hf]
                exact hy
            · have hj2 : 2 ≤ d - d0 := by omega
              have hgetm2 : getAt (rest.take (d - (d0 + 1))) c = some m := by
                have ht : (i :: rest).take (d - d0) = i :: rest.take (d - (d0 + 1)) := by
                  have : d - d0 = (d - (d0 + 1)) + 1 := by omega
                  rw [this]
                  rfl
                rw [ht, getAt_cons, hcs] at hgetm
                dsimp only [Option.bind] at hgetm
                rw [hf] at hgetm
                exact hgetm
              have hdrop : (i :: rest).drop (d - d0) = rest.drop (d - (d0 + 1)) := by
                have : d - d0 = (d - (d0 + 1)) + 1 := by omega
                rw [this]
                rfl
              rw [hdrop]
              refine ih c br item m cs cs2 false (d0 + 1) d (by omega) hgc hndc ?_ hgetm2
                hflm ?_ ?_ hget hbrcs hperm hci hcc
              · simp only [List.length_cons] at hjlen
                omega
              · intro k h1 h2 y hy
                have h2b : k + 1 < (i :: rest).length := by
                  simp only [List.length_cons] at h2 ⊢
                  omega
                refine hchain (k + 1) (by omega) h2b y ?_
                have ht : (i :: rest).take (k + 1) = i :: rest.take k := rfl
                rw [ht, getAt_cons, hcs]
                dsimp only [Option.bind]
                rw [hf]
                exact hy
              · intro hlt
                refine hbrfl ?_
                simp only [List.length_cons] at hlt ⊢
                omega
          cases n with
          | file a s => cases hcs
          | dir a s e ocs fl bs =>
              cases ocs with
              | none => cases hcs
              | some cs0 =>
                  have hcs0 : cs0 = ncs := by
                    simp only [childrenOf] at hcs
                    exact Option.some.inj hcs
                  subst hcs0
                  subst hsplit
                  have hprops := goodB_props hcs hg
                  rw [updAt_cons, mapChildAt, map_guard_split _ hl1 hl2 hci2] at hblock ⊢
                  rw [insertApply_cons_gt _ _ _ _ _ _ _ _ hgt, canon_dir, mapChildAt]
                  rw [map_guard_split _ hl1 hl2 hci2, hmidW]
                  have hLm : (l1 ++ updAt (setChildrenF (some cs2)) rest c :: l2).map
                        (canon false)
                      = l1 ++ canon false (updAt (setChildrenF (some cs2)) rest c) :: l2 := by
                    rw [List.map_append, List.map_cons]
                    have e1 : l1.map (canon false) = l1 :=
                      (List.map_congr_left (fun x hx =>
                        canon_of_goodB x false (hgood x (List.mem_append_left _ hx)))).trans
                        (List.map_id' l1)
                    have e2 : l2.map (canon false) = l2 :=
                      (List.map_congr_left (fun x hx =>
                        canon_of_goodB x false (hgood x
                          (List.mem_append_right _ (List.mem_cons_of_mem c hx))))).trans
                        (List.map_id' l2)
                    rw [e1, e2]
                  have hflv : (l1 ++ canon false (updAt (setChildrenF (some cs2)) rest c)
                        :: l2).flatMap contrib
                      = visSeq (FNode.dir a s e
                          (some (l1 ++ updAt (setChildrenF (some cs2)) rest c :: l2))
                          fl bs) := by
                    rw [visSeq_dir, List.flatMap_append, List.flatMap_append,
                      List.flatMap_cons, List.flatMap_cons, contrib_canon]
                  rw [hLm, hflv, hblock]
                  have hflat : fl = if (b || !e) = true
                      then some (visSeq (FNode.dir a s e (some (l1 ++ c :: l2)) fl bs))
                      else none := hprops.2.1
                  have hbs : bs
                      = (visSeq (FNode.dir a s e (some (l1 ++ c :: l2)) fl bs)).length :=
                    hprops.1
                  rw [← hflat, ← hbs]


theorem defaultLt_nlt_trans {a b c : FNode} (h1 : defaultLt b a = false)
    (h2 : defaultLt c b = false) : defaultLt c a = false := by
  rw [defaultLt] at h1 h2 ⊢
  rcases hda : isDirN a with _ | _ <;> rcases hdb : isDirN b with _ | _ <;>
    rcases hdc : isDirN c with _ | _ <;>
      rw [hda, hdb] at h1 <;> rw [hdb, hdc] at h2 <;>
        simp only [show ((false : Bool) == false) = true from rfl,
          show ((true : Bool) == true) = true from rfl,
          show ((false : Bool) == true) = false from rfl,
          show ((true : Bool) == false) = false from rfl,
          if_true, Bool.false_eq_true, if_false] at h1 h2 ⊢ <;>
        first
        | rfl
        | exact Bool.noConfusion h1
        | exact Bool.noConfusion h2
        | (simp only [decide_eq_false_iff_not] at h1 h2 ⊢
           intro h
           exact h1 (lt_of_le_of_lt (le_of_not_lt h2) h))

theorem sortedB_pairwise : ∀ (l : List FNode), sortedB l = true →
    l.Pairwise (fun a b => defaultLt b a = false) := by
  intro l
  induction l with
  | nil => intro _; exact List.Pairwise.nil
  | cons a l ih =>
      intro h
      cases l with
      | nil => exact List.pairwise_singleton _ a
      | cons b l2 =>
          rw [sortedB] at h
          simp only [Bool.and_eq_true] at h
          have hpb := ih h.2
          refine List.pairwise_cons.2 ⟨?_, hpb⟩
          intro x hx
          rcases List.mem_cons.1 hx with rfl | hx2
          · exact h.1 |> (fun hh => by simpa using hh)
          · have hxb : defaultLt x b = false := (List.pairwise_cons.1 hpb).1 x hx2
            have hba : defaultLt b a = false := by simpa using h.1
            exact defaultLt_nlt_trans hba hxb

theorem insAfter_append_last (lt : α → α → Bool) :
    ∀ (l : List α) (x : α), (∀ y ∈ l, lt x y = false) → insAfter lt l x = l ++ [x] := by
  intro l
  induction l with
  | nil => intro x _; rfl
  | cons a l ih =>
      intro x h
      rw [insAfter, h a (List.mem_cons_self a l)]
      simp only [Bool.false_eq_true, if_false, List.cons_append]
      rw [ih x (fun y hy => h y (List.mem_cons_of_mem a hy))]

theorem foldl_insAfter_sorted :
    ∀ (l acc : List FNode),
      (acc ++ l).Pairwise (fun a b => defaultLt b a = false) →
      l.foldl (insAfter defaultLt) acc = acc ++ l := by
  intro l
  induction l with
  | nil => intro acc _; rw [List.foldl_nil, List.append_nil]
  | cons x l ih =>
      intro acc h
      rw [List.foldl_cons]
      have hacc : ∀ y ∈ acc, defaultLt x y = false := by
        intro y hy
        have := (List.pairwise_append.1 h).2.2 y hy x (List.mem_cons_self x l)
        exact this
      rw [insAfter_append_last defaultLt acc x hacc]
      have h2 : ((acc ++ [x]) ++ l).Pairwise (fun a b => defaultLt b a = false) := by
        rw [List.append_assoc, List.singleton_append]
        exact h
      rw [ih (acc ++ [x]) h2, List.append_assoc, List.singleton_append]

theorem jsSort_of_sorted {l : List FNode} (h : sortedB l = true) :
    jsSort defaultLt l = l := by
  rw [jsSort]
  have := foldl_insAfter_sorted l [] (by simpa using sortedB_pairwise l h)
  simpa using this

theorem jsSort_insert {cs : List FNode} (item : FNode) (h : sortedB cs = true) :
    jsSort defaultLt (cs ++ [item]) = insAfter defaultLt cs item := by
  rw [jsSort, List.foldl_append, List.foldl_cons, List.foldl_nil]
  rw [show cs.foldl (insAfter defaultLt) [] = jsSort defaultLt cs from rfl,
    jsSort_of_sorted h]

theorem insAfter_split (lt : α → α → Bool) :
    ∀ (l : List α) (x : α), ∃ k, k ≤ l.length
      ∧ insAfter lt l x = l.take k ++ x :: l.drop k := by
  intro l
  induction l with
  | nil => intro x; exact ⟨0, by simp, rfl⟩
  | cons a l ih =>
      intro x
      rw [insAfter]
      by_cases hx : lt x a
      · exact ⟨0, by simp, by rw [if_pos hx]; rfl⟩
      · rcases ih x with ⟨k, hk, heq⟩
        refine ⟨k + 1, by simp; omega, ?_⟩
        rw [if_neg hx, heq]
        rfl

theorem nodup_prefix_notmem {pre post : List Nat} {x : Nat}
    (h : (pre ++ x :: post).Nodup) : x ∉ pre := by
  intro hx
  have hd := List.disjoint_of_nodup_append h
  exact hd hx (List.mem_cons_self x post)

theorem contrib_nodup {c : FNode} (hnd : (allIds c).Nodup) (hv : (visSeq c).Nodup) :
    (contrib c).Nodup := by
  rw [contrib_eq]
  by_cases he : expOf c
  · rw [if_pos he]
    refine List.nodup_cons.2 ⟨?_, hv⟩
    intro hmem
    have h2 := visSeq_subset_subIds c (idOf c) hmem
    exact (List.nodup_cons.1 hnd).1 h2
  · rw [if_neg he]
    exact List.nodup_singleton _

theorem nodup_flatMap_contrib :
    ∀ (l : List FNode), (l.flatMap allIds).Nodup →
      (∀ c ∈ l, (allIds c).Nodup → (visSeq c).Nodup) →
      (l.flatMap contrib).Nodup := by
  intro l
  induction l with
  | nil => intro _ _; exact List.nodup_nil
  | cons c cs ih2 =>
      intro hsub hvis
      rw [List.flatMap_cons]
      rw [List.flatMap_cons] at hsub
      have hndc : (allIds c).Nodup := List.Nodup.of_append_left hsub
      have hvc : (visSeq c).Nodup := hvis c (List.mem_cons_self c cs) hndc
      refine List.nodup_append.2 ⟨contrib_nodup hndc hvc, ?_, ?_⟩
      · exact ih2 (List.Nodup.of_append_right hsub)
          (fun x hx => hvis x (List.mem_cons_of_mem c hx))
      · intro x hx1 hx2
        have h1 : x ∈ allIds c := contrib_subset_allIds c x hx1
        have h2 : x ∈ cs.flatMap allIds := by
          rcases List.mem_flatMap.1 hx2 with ⟨y, hy, hxy⟩
          exact List.mem_flatMap.2 ⟨y, hy, contrib_subset_allIds y x hxy⟩
        exact List.disjoint_of_nodup_append hsub h1 h2

theorem visSeq_nodup : ∀ (n : FNode), (allIds n).Nodup → (visSeq n).Nodup := by
  intro n
  induction n using visSeq.induct with
  | case1 a s => intro _; rw [visSeq_file]; exact List.nodup_nil
  | case2 a s e fl bs => intro _; rw [visSeq_none]; exact List.nodup_nil
  | case3 a s e cs fl bs ih =>
      intro hnd
      rw [visSeq_dir]
      have hsub : (cs.flatMap allIds).Nodup := by
        have h1 := (List.nodup_cons.1 hnd).2
        rw [subIds_dir] at h1
        exact h1
      exact nodup_flatMap_contrib cs hsub (fun c hc hndc => ih ⟨c, hc⟩ hndc)

theorem allIds_getAt_sub :
    ∀ (p : List Nat) (n m : FNode), getAt p n = some m → ∀ x ∈ allIds m, x ∈ allIds n := by
  intro p
  induction p with
  | nil => intro n m hget; cases hget; exact fun x hx => hx
  | cons i p ih =>
      intro n m hget x hx
      rw [getAt_cons] at hget
      rcases hcs : childrenOf n with _ | cs
      · rw [hcs] at hget; cases hget
      · rw [hcs] at hget
        dsimp only [Option.bind] at hget
        rcases hf : cs.find? (fun y => idOf y == i) with _ | c
        · rw [hf] at hget; cases hget
        · rw [hf] at hget
          have h1 : x ∈ allIds c := ih c m hget x hx
          refine List.mem_cons_of_mem _ ?_
          rw [subIds_loaded n cs hcs]
          exact List.mem_flatMap.2 ⟨c, List.mem_of_find?_eq_some hf, h1⟩


theorem insert_pos_pack {item : FNode} {cs cs2 : List FNode} {k0 : Nat}
    (hgood : ∀ x ∈ cs, goodB x false = true)
    (hk0 : k0 ≤ cs.length)
    (hcs2 : cs2 = cs.take k0 ++ item :: cs.drop k0)
    (hcc : contrib item = [idOf item]) :
    cs.flatMap contrib
        = (cs.take k0).flatMap contrib ++ (cs.drop k0).flatMap contrib
    ∧ cs2.flatMap contrib
        = (cs.take k0).flatMap contrib ++ [idOf item] ++ (cs.drop k0).flatMap contrib
    ∧ (0 < k0 → ∃ ls cT, cs2.get? (k0 - 1) = some ls
        ∧ contrib ls = idOf ls :: cT
        ∧ (expBump ls : Int) = (cT.length : Int)
        ∧ (cs.take k0).flatMap contrib
            = (cs.take (k0 - 1)).flatMap contrib ++ idOf ls :: cT) := by
  refine ⟨?_, ?_, ?_⟩
  · conv_lhs => rw [← List.take_append_drop k0 cs]
    rw [List.flatMap_append]
  · rw [hcs2, List.flatMap_append, List.flatMap_cons, hcc]
    simp [List.append_assoc]
  · intro hpos
    have hk1 : k0 - 1 < cs.length := by omega
    rcases hls : cs.get? (k0 - 1) with _ | ls
    · exfalso
      rw [List.get?_eq_none] at hls
      omega
    · have hlsmem : ls ∈ cs := List.get?_mem hls
      have hgls : goodB ls false = true := hgood ls hlsmem
      have hcT : contrib ls = idOf ls :: (if expOf ls then visSeq ls else []) := contrib_eq ls
      refine ⟨ls, (if expOf ls then visSeq ls else []), ?_, hcT, ?_, ?_⟩
      · rw [hcs2]
        rw [List.get?_append (by rw [List.length_take]; omega)]
        rw [List.get?_take (by omega)]
        exact hls
      · cases ls with
        | file a s => rfl
        | dir a s e2 ocs fl bs =>
            cases e2 with
            | false => rw [expOf, if_neg (by simp)]; rfl
            | true =>
                rw [expOf, if_pos rfl]
                have hload : loadedB (FNode.dir a s true ocs fl bs) = true :=
                  loaded_of_expanded hgls rfl
                rw [loadedB] at hload
                rcases hocs : ocs with _ | cs3
                · rw [hocs] at hload; cases hload
                · subst hocs
                  have hbsl := (@goodB_props (FNode.dir a s true (some cs3) fl bs) _ _ rfl
                    hgls).1
                  exact congrArg (fun n : Nat => (n : Int)) hbsl
      · have htk : cs.take k0 = cs.take (k0 - 1) ++ [ls] := by
          have hsucc : k0 = (k0 - 1) + 1 := by omega
          conv_lhs => rw [hsucc]
          rw [List.take_succ, ← List.get?_eq_getElem?, hls]
          rfl
        rw [htk, List.flatMap_append, List.flatMap_cons, List.flatMap_nil, hcT]
        simp [List.append_assoc]


theorem insert_F2 {t : FNode} {p : List Nat} {item br m : FNode} {cs cs2 : List FNode}
    {d k0 : Nat}
    (hg : goodB t true = true) (hnd : (allIds t).Nodup)
    (hget : getAt p t = some br) (hbrcs : childrenOf br = some cs)
    (hdle : d ≤ p.length) (hgetm : getAt (p.take d) t = some m)
    (hmax : ∀ k, d < k → k ≤ p.length → hasFlatAt t (p.take k) = false)
    (hk0 : k0 ≤ cs.length) (hcs2 : cs2 = cs.take k0 ++ item :: cs.drop k0)
    (hcc : contrib item = [idOf item]) :
    spliceTA (visSeq m)
        (((if k0 = 0 then jsIdx (visSeq m) (idAtD t p)
           else match cs2.get? (k0 - 1) with
                | some ls => jsIdx (visSeq m) (idOf ls) + (expBump ls : Int)
                | none => 0) + 1).toNat)
        0 [idOf item]
      = visSeq (updAt (setChildrenF (some cs2)) (p.drop d) m) := by
  have hndm : (allIds m).Nodup := nodup_getAt (p.take d) t m hnd hgetm
  have hvndm : (visSeq m).Nodup := visSeq_nodup m hndm
  have hidat : idAtD t p = idOf br := by rw [idAtD, hget]
  by_cases hdp : d = p.length
  · -- the owner is the target directory itself
    have hpt : p.take d = p := by rw [hdp, List.take_length]
    rw [hpt] at hgetm
    rw [hget] at hgetm
    have hmbr : m = br := (Option.some.inj hgetm).symm
    subst hmbr
    have hpd : p.drop d = [] := by rw [hdp, List.drop_length]
    rw [hpd, updAt_nil]
    have hgm : goodB m (decide (d = 0)) = true := by
      by_cases hd0 : d = 0
      · have hpnil : p = [] := by
          cases p with
          | nil => rfl
          | cons x xs => rw [hdp] at hd0; simp at hd0
        rw [hpnil] at hget
        cases hget
        simpa [hd0] using hg
      · simp only [hd0, decide_eq_true_eq, decide_eq_false_iff_not]
        refine goodB_getAt p true t m hg hget ?_
        intro hcon
        rw [hcon] at hdp
        simp at hdp
        omega
    have hgood : ∀ x ∈ cs, goodB x false = true := goodB_children hgm hbrcs
    obtain ⟨hFsplit, hF2tgt, hls⟩ := insert_pos_pack hgood hk0 hcs2 hcc
    have hvm : visSeq m = cs.flatMap contrib := visSeq_loaded m cs hbrcs
    have hvm2 : visSeq (setChildrenF (some cs2) m) = cs2.flatMap contrib := by
      refine visSeq_loaded _ cs2 ?_
      cases m with
      | file a s => cases hbrcs
      | dir a s e ocs fl bs => rfl
    rw [hvm2, hF2tgt]
    by_cases hk : k0 = 0
    · rw [if_pos hk]
      rw [hidat]
      have hnm : idOf m ∉ visSeq m := by
        intro hmem
        have h2 := visSeq_subset_subIds m (idOf m) hmem
        exact (List.nodup_cons.1 hndm).1 h2
      rw [jsIdx_notmem hnm]
      have ht0 : ((-1 : Int) + 1).toNat = 0 := rfl
      rw [ht0]
      have hsp : spliceTA (visSeq m) 0 0 [idOf item]
          = [idOf item] ++ visSeq m := by
        have := spliceTA_insert [] (visSeq m) [idOf item]
        simpa using this
      rw [hsp, hvm, hk]
      simp
    · rw [if_neg hk]
      rcases hls (by omega) with ⟨ls, cT, hlsget, hlsc, hlsm, htke⟩
      rw [hlsget]
      dsimp only
      rw [hlsm]
      have hF : visSeq m = (cs.take (k0 - 1)).flatMap contrib
          ++ idOf ls :: (cT ++ (cs.drop k0).flatMap contrib) := by
        rw [hvm]
        conv_lhs => rw [← List.take_append_drop k0 cs]
        rw [List.flatMap_append, htke]
        simp [List.append_assoc]
      have hnotin : idOf ls ∉ (cs.take (k0 - 1)).flatMap contrib := by
        have h := hvndm
        rw [hF] at h
        exact nodup_prefix_notmem h
      have hjs : jsIdx (visSeq m) (idOf ls)
          = (((cs.take (k0 - 1)).flatMap contrib).length : Int) := by
        rw [hF]
        exact jsIdx_split hnotin _
      rw [hjs]
      have htn : ((((cs.take (k0 - 1)).flatMap contrib).length : Int)
            + (cT.length : Int) + 1).toNat
          = ((cs.take (k0 - 1)).flatMap contrib ++ idOf ls :: cT).length := by
        simp only [List.length_append, List.length_cons]
        omega
      rw [htn]
      have hF2 : visSeq m = ((cs.take (k0 - 1)).flatMap contrib ++ idOf ls :: cT)
          ++ (cs.drop k0).flatMap contrib := by
        rw [hF]
        simp [List.append_assoc]
      rw [hF2, spliceTA_insert, htke]
  · -- the owner is a strict ancestor of the target
    have hdlt : d < p.length := by omega
    have hpne : p ≠ [] := by
      intro hcon
      rw [hcon] at hdlt
      simp at hdlt
    have hgbr : goodB br false = true := goodB_getAt p true t br hg hget hpne
    have hbrfl : flatOf br = none := by
      have hnf : hasFlatAt t (p.take p.length) = false := hmax p.length (by omega) (by omega)
      rw [List.take_length] at hnf
      rw [hasFlatAt_some hget] at hnf
      rcases hfy : flatOf br with _ | F
      · rfl
      · rw [hfy] at hnf; cases hnf
    have hexpbr : expOf br = true :=
      expanded_of_flat_none hgbr (by rw [loadedB, hbrcs]; rfl) hbrfl
    have hgm : goodB m (decide (d = 0)) = true := by
      by_cases hd0 : d = 0
      · subst hd0
        rw [List.take_zero] at hgetm
        cases hgetm
        simpa using hg
      · simp only [hd0, decide_eq_true_eq, decide_eq_false_iff_not]
        refine goodB_getAt (p.take d) true t m hg hgetm ?_
        intro hcon
        have : (p.take d).length = 0 := by rw [hcon]; rfl
        rw [List.length_take] at this
        omega
    have hgood : ∀ x ∈ cs, goodB x false = true := goodB_children hgbr hbrcs
    obtain ⟨hFsplit, hF2tgt, hls⟩ := insert_pos_pack hgood hk0 hcs2 hcc
    have hsplitq : p = p.take d ++ p.drop d := (List.take_append_drop d p).symm
    have hgdrop : getAt (p.drop d) m = some br := by
      conv at hget => rw [hsplitq]
      rcases getAt_split hget with ⟨y, hy, hdrop⟩
      rw [hgetm] at hy
      cases hy
      exact hdrop
    have hdropne : p.drop d ≠ [] := by
      intro hcon
      have := List.drop_eq_nil_iff.1 hcon
      omega
    have hchainm : ∀ k, 0 < k → k < (p.drop d).length → ∀ y,
        getAt ((p.drop d).take k) m = some y → flatOf y = none := by
      intro k h1 h2 y hy
      have htk : p.take (d + k) = p.take d ++ (p.drop d).take k := List.take_add p d k
      have hgy : getAt (p.take (d + k)) t = some y := by
        rw [htk, getAt_append, hgetm]
        exact hy
      have hnf : hasFlatAt t (p.take (d + k)) = false := by
        refine hmax (d + k) (by omega) ?_
        rw [List.length_drop] at h2
        omega
      rw [hasFlatAt_some hgy] at hnf
      rcases hfy : flatOf y with _ | F
      · rfl
      · rw [hfy] at hnf; cases hnf
    have hchainmE := chain_exp_of_flat_none hgm hgdrop hchainm
    rcases visSeq_decomp (p.drop d) m br hndm hdropne hgdrop hchainmE
      with ⟨A, B, hv, hA, hB, hu⟩
    have hvbr : visSeq br = cs.flatMap contrib := visSeq_loaded br cs hbrcs
    have hcbr : contrib br = idOf br :: cs.flatMap contrib := by
      rw [contrib_eq, if_pos hexpbr, hvbr]
    have hcbr2 : contrib (setChildrenF (some cs2) br)
        = idOf br :: cs2.flatMap contrib := by
      rw [contrib_eq, idOf_setChildrenF, expOf_setChildrenF, if_pos hexpbr]
      congr 1
      refine visSeq_loaded _ cs2 ?_
      cases br with
      | file a s => cases hbrcs
      | dir a s e ocs fl bs => rfl
    have htgt : visSeq (updAt (setChildrenF (some cs2)) (p.drop d) m)
        = A ++ (idOf br :: cs2.flatMap contrib) ++ B := by
      rw [hu (setChildrenF (some cs2)), hcbr2]
    rw [htgt]
    by_cases hk : k0 = 0
    · rw [if_pos hk]
      rw [hidat]
      have hF : visSeq m = A ++ idOf br :: (cs.flatMap contrib ++ B) := by
        rw [hv, hcbr]
        simp [List.append_assoc]
      have hjs : jsIdx (visSeq m) (idOf br) = (A.length : Int) := by
        rw [hF]
        exact jsIdx_split hA _
      rw [hjs]
      have htn : ((A.length : Int) + 1).toNat = (A ++ [idOf br]).length := by
        simp only [List.length_append, List.length_cons, List.length_nil]
        omega
      rw [htn]
      have hF2 : visSeq m = (A ++ [idOf br]) ++ (cs.flatMap contrib ++ B) := by
        rw [hF]
        simp [List.append_assoc]
      rw [hF2, spliceTA_insert, hF2tgt, hk]
      simp [List.append_assoc]
    · rw [if_neg hk]
      rcases hls (by omega) with ⟨ls, cT, hlsget, hlsc, hlsm, htke⟩
      rw [hlsget]
      dsimp only
      rw [hlsm]
      have hF : visSeq m = (A ++ idOf br :: (cs.take (k0 - 1)).flatMap contrib)
          ++ idOf ls :: (cT ++ ((cs.drop k0).flatMap contrib ++ B)) := by
        rw [hv, hcbr]
        conv_lhs => rw [hFsplit]
        rw [htke]
        simp [List.append_assoc]
      have hnotin : idOf ls ∉ A ++ idOf br :: (cs.take (k0 - 1)).flatMap contrib := by
        have h := hvndm
        rw [hF] at h
        exact nodup_prefix_notmem h
      have hjs : jsIdx (visSeq m) (idOf ls)
          = ((A ++ idOf br :: (cs.take (k0 - 1)).flatMap contrib).length : Int) := by
        rw [hF]
        exact jsIdx_split hnotin _
      rw [hjs]
      have htn : (((A ++ idOf br :: (cs.take (k0 - 1)).flatMap contrib).length : Int)
            + (cT.length : Int) + 1).toNat
          = ((A ++ idOf br :: (cs.take (k0 - 1)).flatMap contrib)
              ++ idOf ls :: cT).length := by
        simp only [List.length_append, List.length_cons]
        omega
      rw [htn]
      have hF2 : visSeq m = ((A ++ idOf br :: (cs.take (k0 - 1)).flatMap contrib)
          ++ idOf ls :: cT) ++ ((cs.drop k0).flatMap contrib ++ B) := by
        rw [hF]
        simp [List.append_assoc]
      rw [hF2, spliceTA_insert, hF2tgt, htke]
      simp [List.append_assoc]

theorem insert_walk {t : FNode} {p : List Nat} {item br m : FNode}
    {cs cs2 : List FNode} {d : Nat}
    (hg : goodB t true = true) (hnd : (allIds t).Nodup)
    (hget : getAt p t = some br) (hbrcs : childrenOf br = some cs)
    (hdle : d ≤ p.length) (hgetm : getAt (p.take d) t = some m)
    (hflm : (flatOf m).isSome = true)
    (hmax : ∀ k, d < k → k ≤ p.length → hasFlatAt t (p.take k) = false)
    (hperm : cs2.Perm (cs ++ [item]))
    (hci : canon false item = item)
    (hcc : contrib item = [idOf item]) :
    insertApply 1 d (visSeq (updAt (setChildrenF (some cs2)) (p.drop d) m)) cs2 0 p t
      = canon true (updAt (setChildrenF (some cs2)) p t) := by
  have hbrfl : d < 0 + p.length → flatOf br = none := by
    intro hlt
    have hnf : hasFlatAt t (p.take p.length) = false := hmax p.length (by omega) (by omega)
    rw [List.take_length, hasFlatAt_some hget] at hnf
    rcases hfy : flatOf br with _ | F
    · rfl
    · rw [hfy] at hnf; cases hnf
  by_cases hd0 : d = 0
  · subst hd0
    have hmt : t = m := by
      rw [List.take_zero, getAt_nil] at hgetm
      exact Option.some.inj hgetm
    subst hmt
    refine insertApply_le p t br item cs cs2 true 0 0 _
      (by omega) hg hnd ?_ (by omega) hbrfl hget ?_ hbrcs hperm hci hcc
    · intro _
      exact ⟨rfl, rfl⟩
    · intro k h1 h2 y hy
      have hnf : hasFlatAt t (p.take k) = false := hmax k (by omega) (by omega)
      rw [hasFlatAt_some hy] at hnf
      rcases hfy : flatOf y with _ | F
      · rfl
      · rw [hfy] at hnf; cases hnf
  · refine insertApply_above p t br item m cs cs2 true 0 d (by omega) hg hnd
      (by omega) hgetm hflm ?_ hbrfl hget hbrcs hperm hci hcc
    intro k h1 h2 y hy
    have hnf : hasFlatAt t (p.take k) = false := hmax k (by omega) (by omega)
    rw [hasFlatAt_some hy] at hnf
    rcases hfy : flatOf y with _ | F
    · rfl
    · rw [hfy] at hnf; cases hnf

theorem insertItemM_main {t : FNode} {p : List Nat} {item : FNode} {ba sa : Nat}
    {sb : String} {e : Bool} {fl : Option (List Nat)}
    {cs : List FNode}
    (hg : goodB t true = true) (hnd : (allIds t).Nodup)
    (hget : getAt p t = some (FNode.dir ba sb e (some cs) fl sa))
    (hmem : cs.any (fun c => idOf c == idOf item) = false)
    (hstrip : donateStrip item = item)
    (hbump : expBump item = 0)
    (hib : insertBlock item 1 = [idOf item])
    (hci : canon false item = item)
    (hcc : contrib item = [idOf item]) :
    (insertItemM t p item).1
      = canon true (updAt (setChildrenF (some (jsSort defaultLt (cs ++ [item])))) p t) := by
  have hbrcs : childrenOf (FNode.dir ba sb e (some cs) fl sa) = some cs := rfl
  have hload : ∃ ncs, childrenOf t = some ncs := by
    cases p with
    | nil =>
        cases hget
        exact ⟨cs, rfl⟩
    | cons i rest =>
        rw [getAt_cons] at hget
        rcases hcs0 : childrenOf t with _ | ncs
        · rw [hcs0] at hget; cases hget
        · exact ⟨ncs, rfl⟩
  rcases hload with ⟨ncs, hncs⟩
  have hrootflat : hasFlatAt t [] = true := by
    have hp := (goodB_props hncs hg).2.1
    have h00 : getAt ([] : List Nat) t = some t := rfl
    rw [hasFlatAt_some h00, hp]
    simp
  rcases @ownerDepth_isSome _ p p.length hrootflat with ⟨d, hod⟩
  rcases ownerDepth_spec hod with ⟨hflat, hdle, hmax⟩
  rcases hgetm : getAt (p.take d) t with _ | m
  · rw [hasFlatAt, hgetm] at hflat; cases hflat
  have hflm : (flatOf m).isSome = true := by
    rw [hasFlatAt_some hgetm] at hflat
    exact hflat
  have hgm : goodB m (decide (d = 0)) = true := by
    by_cases hd0 : d = 0
    · subst hd0
      rw [List.take_zero, getAt_nil] at hgetm
      cases hgetm
      simpa using hg
    · simp only [hd0, decide_eq_true_eq, decide_eq_false_iff_not]
      refine goodB_getAt (p.take d) true t m hg hgetm ?_
      intro hcon
      have : (p.take d).length = 0 := by rw [hcon]; rfl
      rw [List.length_take] at this
      omega
  rcases hfm : flatOf m with _ | F0
  · rw [hfm] at hflm; cases hflm
  have hF0 : F0 = visSeq m := flat_eq_visSeq hgm hfm
  have hfa : flatAt t (p.take d) = visSeq m := by
    rw [flatAt_some hgetm, hfm, hF0]
    rfl
  have hgbb : ∃ bb, goodB (FNode.dir ba sb e (some cs) fl sa) bb = true := by
    cases p with
    | nil =>
        cases hget
        exact ⟨true, hg⟩
    | cons i rest =>
        exact ⟨false, goodB_getAt (i :: rest) true t _ hg hget (by intro h; cases h)⟩
  rcases hgbb with ⟨bb, hgbr⟩
  have hsorted : sortedB cs = true := (goodB_props hbrcs hgbr).2.2
  rcases insAfter_split defaultLt cs item with ⟨k0, hk0le, hins⟩
  have hjs2 : jsSort defaultLt (cs ++ [item]) = cs.take k0 ++ item :: cs.drop k0 := by
    rw [jsSort_insert item hsorted, hins]
  have hnmem : idOf item ∉ cs.map idOf := by
    intro hx
    rcases List.mem_map.1 hx with ⟨c, hc, hcid⟩
    have hany : cs.any (fun c => idOf c == idOf item) = true :=
      List.any_eq_true.2 ⟨c, hc, by simp [hcid]⟩
    rw [hmem] at hany
    cases hany
  have hidx : idxOfN ((jsSort defaultLt (cs ++ [item])).map idOf) (idOf item) = some k0 := by
    rw [hjs2, List.map_append, List.map_cons]
    have hA : idOf item ∉ (cs.take k0).map idOf := by
      intro hx
      rcases List.mem_map.1 hx with ⟨c, hc, hcid⟩
      exact hnmem (List.mem_map.2 ⟨c, List.mem_of_mem_take hc, hcid⟩)
    rw [idxOfN_split hA]
    congr 1
    rw [List.length_map, List.length_take]
    omega
  have hperm : (jsSort defaultLt (cs ++ [item])).Perm (cs ++ [item]) := by
    rw [hjs2]
    refine List.Perm.trans List.perm_middle ?_
    rw [List.take_append_drop]
    exact (List.perm_append_singleton item cs).symm
  have hlen2 : (jsSort defaultLt (cs ++ [item])).length = cs.length + 1 := by
    rw [hjs2]
    simp only [List.length_append, List.length_cons, List.length_take, List.length_drop]
    omega
  have hndm : (allIds m).Nodup := nodup_getAt (p.take d) t m hnd hgetm
  have hF2 := insert_F2 hg hnd hget hbrcs hdle hgetm hmax hk0le hjs2 hcc
  rw [insertItemM, hget]
  dsimp only
  rw [hmem]
  simp only [Bool.false_eq_true, if_false]
  rw [hod]
  dsimp only
  rw [hstrip, hbump, hidx]
  dsimp only [Option.getD]
  rw [Nat.add_zero, hib, hfa]
  by_cases hk : k0 = 0
  · rw [if_pos hk]
    rw [if_pos hk] at hF2
    rw [hF2]
    exact insert_walk hg hnd hget hbrcs hdle hgetm hflm hmax hperm hci hcc
  · rw [if_neg hk]
    rw [if_neg hk] at hF2
    rcases hq : (jsSort defaultLt (cs ++ [item])).get? (k0 - 1) with _ | ls
    · exfalso
      have hle := List.get?_eq_none.1 hq
      rw [hlen2] at hle
      omega
    · rw [hq] at hF2
      dsimp only
      dsimp only at hF2
      rw [hF2]
      exact insert_walk hg hnd hget hbrcs hdle hgetm hflm hmax hperm hci hcc

theorem isDirN_mapChildAt (i : Nat) (f : FNode → FNode) (n : FNode) :
    isDirN (mapChildAt i f n) = isDirN n := by
  cases n with
  | file a s => rfl
  | dir a b e ocs fl bs => cases ocs <;> rfl

theorem isDirN_updAt (f : FNode → FNode) (hf : ∀ m, isDirN (f m) = isDirN m)
    (p : List Nat) (n : FNode) : isDirN (updAt f p n) = isDirN n := by
  cases p with
  | nil => exact hf n
  | cons i p => rw [updAt_cons, isDirN_mapChildAt]

theorem nameOf_updAt (f : FNode → FNode) (hf : ∀ m, nameOf (f m) = nameOf m)
    (p : List Nat) (n : FNode) : nameOf (updAt f p n) = nameOf n := by
  cases p with
  | nil => exact hf n
  | cons i p => rw [updAt_cons, nameOf_mapChildAt]

theorem skelOKB_updAt_children (cs2 : List FNode)
    (hs : sortedB cs2 = true) (hall : ∀ x ∈ cs2, skelOKB x = true) :
    ∀ (p : List Nat) (n : FNode), skelOKB n = true →
      skelOKB (updAt (setChildrenF (some cs2)) p n) = true := by
  intro p
  induction p with
  | nil =>
      intro n h
      rw [updAt_nil]
      cases n with
      | file a s => exact h
      | dir a b e ocs fl bs =>
          rw [setChildrenF, skelOKB_dir]
          simp only [Bool.and_eq_true, List.all_eq_true]
          exact ⟨hs, hall⟩
  | cons i p ih =>
      intro n h
      rw [updAt_cons]
      cases n with
      | file a s => exact h
      | dir a b e ocs fl bs =>
          cases ocs with
          | none => exact h
          | some cs =>
              rw [mapChildAt, skelOKB_dir]
              rw [skelOKB_dir] at h
              simp only [Bool.and_eq_true, List.all_eq_true] at h ⊢
              constructor
              · rw [sortedB_map_congr _ ?_ cs]
                · exact h.1
                · intro c
                  by_cases hc : idOf c == i
                  · simp only [hc, if_true]
                    constructor
                    · exact isDirN_updAt _ (fun m => by cases m <;> rfl) p c
                    · exact nameOf_updAt _ (fun m => by cases m <;> rfl) p c
                  · simp only [hc, if_false]
                    exact ⟨rfl, rfl⟩
              · intro x hx
                rcases List.mem_map.1 hx with ⟨c, hc, rfl⟩
                by_cases hci2 : idOf c == i
                · simp only [hci2, if_true]
                  exact ih c (h.2 c hc)
                · simp only [hci2, if_false]
                  exact h.2 c hc

theorem defaultLt_trans {a b c : FNode} (h1 : defaultLt a b = true)
    (h2 : defaultLt b c = true) : defaultLt a c = true := by
  rw [defaultLt] at h1 h2 ⊢
  rcases hda : isDirN a with _ | _ <;> rcases hdb : isDirN b with _ | _ <;>
      rcases hdc : isDirN c with _ | _ <;> simp_all <;> exact lt_trans h1 h2

theorem defaultLt_asym {a b : FNode} (h : defaultLt a b = true) :
    defaultLt b a = false := by
  rw [defaultLt] at h ⊢
  rcases hda : isDirN a with _ | _ <;> rcases hdb : isDirN b with _ | _ <;>
      simp_all <;> exact le_of_lt h

theorem pairwise_sortedB : ∀ (l : List FNode),
    l.Pairwise (fun a b => defaultLt b a = false) → sortedB l = true := by
  intro l
  induction l with
  | nil => intro _; rfl
  | cons a l ih =>
      intro h
      cases l with
      | nil => rfl
      | cons b l2 =>
          rcases List.pairwise_cons.1 h with ⟨ha, hb⟩
          rw [sortedB]
          simp only [Bool.and_eq_true]
          refine ⟨?_, ih hb⟩
          rw [ha b (List.mem_cons_self b l2)]
          rfl

theorem idOf_mkFresh (i : Nat) (r : RawItem) : idOf (mkFresh i r) = i := by
  rw [mkFresh]
  rcases h : r.isDir with _ | _
  · rw [if_neg (by simp)]
    rfl
  · rw [if_pos rfl]
    rfl

theorem mkFresh_facts (i : Nat) (r : RawItem) :
    donateStrip (mkFresh i r) = mkFresh i r
      ∧ expBump (mkFresh i r) = 0
      ∧ insertBlock (mkFresh i r) 1 = [idOf (mkFresh i r)]
      ∧ canon false (mkFresh i r) = mkFresh i r
      ∧ contrib (mkFresh i r) = [idOf (mkFresh i r)]
      ∧ skelOKB (mkFresh i r) = true
      ∧ allIds (mkFresh i r) = [i] := by
  rw [mkFresh]
  rcases h : r.isDir with _ | _
  · rw [if_neg (by simp)]
    refine ⟨rfl, rfl, rfl, ?_, rfl, ?_, ?_⟩
    · rw [canon_file]
    · rw [skelOKB_file]
    · rw [allIds, subIds_file]
      rfl
  · rw [if_pos rfl]
    refine ⟨rfl, rfl, rfl, ?_, rfl, ?_, ?_⟩
    · rw [canon_none]
    · rw [skelOKB_none]
      rfl
    · rw [allIds, subIds_none]
      rfl

theorem Inv_addedM {s : TreeState} (p : List Nat) (r : RawItem) (h : Inv s) :
    Inv (addedM s p r).1 := by
  rcases h with ⟨hg, hnd, hlt⟩
  rw [addedM]
  rcases hget : getAt p s.root with _ | br
  · dsimp only
    exact ⟨hg, hnd, hlt⟩
  rcases br with ⟨ba, sb⟩ | ⟨ba, sb, e, ocs, fl, sa⟩
  · dsimp only
    exact ⟨hg, hnd, hlt⟩
  rcases ocs with _ | cs
  · dsimp only
    exact ⟨hg, hnd, hlt⟩
  dsimp only
  rcases mkFresh_facts s.nextId r with ⟨hstrip, hbump, hib, hci, hcc, hsk, hai⟩
  have hbrcs : childrenOf (FNode.dir ba sb e (some cs) fl sa) = some cs := rfl
  have hmem : cs.any (fun c => idOf c == idOf (mkFresh s.nextId r)) = false := by
    rw [List.any_eq_false]
    intro c hc
    simp only [beq_iff_eq, idOf_mkFresh]
    intro hcon
    have h1 : idOf c ∈ allIds (FNode.dir ba sb e (some cs) fl sa) := by
      rw [allIds, subIds_loaded _ cs hbrcs]
      refine List.mem_cons_of_mem _ ?_
      exact List.mem_flatMap.2 ⟨c, hc, List.mem_cons_self _ _⟩
    have h2 := allIds_getAt_sub p s.root _ hget (idOf c) h1
    have h3 := hlt (idOf c) h2
    omega
  have hmain := insertItemM_main hg hnd hget hmem hstrip hbump hib hci hcc
  rw [hmain]
  have hgbb : ∃ bb, goodB (FNode.dir ba sb e (some cs) fl sa) bb = true := by
    cases p with
    | nil =>
        have h5 : s.root = FNode.dir ba sb e (some cs) fl sa := Option.some.inj hget
        exact ⟨true, by rw [← h5]; exact hg⟩
    | cons i rest =>
        exact ⟨false, goodB_getAt (i :: rest) true s.root _ hg hget (by intro hx; cases hx)⟩
  rcases hgbb with ⟨bb, hgbr⟩
  have hsorted : sortedB cs = true := (goodB_props hbrcs hgbr).2.2
  rcases insAfter_split defaultLt cs (mkFresh s.nextId r) with ⟨k0, hk0le, hins⟩
  have hjs2 : jsSort defaultLt (cs ++ [mkFresh s.nextId r])
      = cs.take k0 ++ mkFresh s.nextId r :: cs.drop k0 := by
    rw [jsSort_insert _ hsorted, hins]
  have hperm : (jsSort defaultLt (cs ++ [mkFresh s.nextId r])).Perm
      (cs ++ [mkFresh s.nextId r]) := by
    rw [hjs2]
    refine List.Perm.trans List.perm_middle ?_
    rw [List.take_append_drop]
    exact (List.perm_append_singleton _ cs).symm
  have hsorted2 : sortedB (jsSort defaultLt (cs ++ [mkFresh s.nextId r])) = true := by
    rw [jsSort_insert _ hsorted]
    exact pairwise_sortedB _
      (insAfter_pairwise defaultLt (fun a b c => defaultLt_trans)
        (fun a b => defaultLt_asym) cs (mkFresh s.nextId r)
        (sortedB_pairwise cs hsorted))
  have hallsk : ∀ x ∈ jsSort defaultLt (cs ++ [mkFresh s.nextId r]), skelOKB x = true := by
    intro x hx
    have hx2 := hperm.subset hx
    rcases List.mem_append.1 hx2 with hx3 | hx3
    · have hskbr : skelOKB (FNode.dir ba sb e (some cs) fl sa) = true :=
        skelOKB_of_goodB _ bb hgbr
      rw [skelOKB_dir] at hskbr
      simp only [Bool.and_eq_true, List.all_eq_true] at hskbr
      exact hskbr.2 x hx3
    · rcases List.mem_singleton.1 hx3 with rfl
      exact hsk
  rcases allIds_updAt p s.root _ hnd hget with ⟨pre, post, heq, hupd⟩
  have hfinal : (allIds (canon true (updAt (setChildrenF (some (jsSort defaultLt
        (cs ++ [mkFresh s.nextId r])))) p s.root))).Perm
      (allIds s.root ++ [s.nextId]) := by
    rw [allIds_canon, hupd]
    have hpm : (allIds (setChildrenF (some (jsSort defaultLt (cs ++ [mkFresh s.nextId r])))
          (FNode.dir ba sb e (some cs) fl sa))).Perm
        (allIds (FNode.dir ba sb e (some cs) fl sa) ++ [s.nextId]) := by
      rw [setChildrenF, allIds, subIds_dir, allIds, subIds_dir]
      have h1 : ((jsSort defaultLt (cs ++ [mkFresh s.nextId r])).flatMap allIds).Perm
          (cs.flatMap allIds ++ [s.nextId]) := by
        refine List.Perm.trans (hperm.flatMap_right allIds) ?_
        rw [List.flatMap_append, List.flatMap_cons, List.flatMap_nil, hai]
        exact List.Perm.refl _
      exact h1.cons _
    refine List.Perm.trans (List.Perm.append_right post (List.Perm.append_left pre hpm)) ?_
    have ha1 : pre ++ (allIds (FNode.dir ba sb e (some cs) fl sa) ++ [s.nextId]) ++ post
        = pre ++ allIds (FNode.dir ba sb e (some cs) fl sa) ++ ([s.nextId] ++ post) := by
      simp [List.append_assoc]
    have ha2 : (pre ++ allIds (FNode.dir ba sb e (some cs) fl sa) ++ post) ++ [s.nextId]
        = pre ++ allIds (FNode.dir ba sb e (some cs) fl sa) ++ (post ++ [s.nextId]) := by
      simp [List.append_assoc]
    rw [ha1, heq, ha2]
    exact List.Perm.append_left _ List.perm_append_comm
  have hnd2 : (allIds s.root ++ [s.nextId]).Nodup := by
    rw [List.nodup_append]
    refine ⟨hnd, List.nodup_singleton _, ?_⟩
    intro x hx
    have := hlt x hx
    simp only [List.mem_singleton]
    omega
  refine ⟨?_, ?_, ?_⟩
  · exact goodB_canon_of_skel _ true
      (skelOKB_updAt_children _ hsorted2 hallsk p s.root (skelOKB_of_goodB _ true hg))
  · exact hfinal.nodup_iff.2 hnd2
  · intro i hi
    dsimp only
    rcases List.mem_append.1 ((hfinal.mem_iff).1 hi) with h1 | h1
    · have := hlt i h1
      omega
    · rcases List.mem_singleton.1 h1 with rfl
      omega



theorem unlinkApply_nil (delta od d0 : Nat) (F2 : List Nat) (cs2 : List FNode) (N : FNode) :
    unlinkApply delta od (some F2) cs2 d0 [] N
      = (if od = d0 then setFlatF (some F2) (subB delta (setChildrenF (some cs2) N))
          else subB delta (setChildrenF (some cs2) N)) := by
  rw [unlinkApply]
  by_cases he : od = d0
  · rw [if_pos (by simp [he]), if_pos he]
  · rw [if_neg (by simp [he]), if_neg he]

theorem unlinkApply_cons_le (delta d d0 : Nat) (F2 : List Nat) (cs2 : List FNode) (i : Nat)
    (rest : List Nat) (N : FNode) (hle : d ≤ d0) :
    unlinkApply delta d (some F2) cs2 d0 (i :: rest) N
      = mapChildAt i (unlinkApply delta d (some F2) cs2 (d0 + 1) rest)
          (if d = d0 then setFlatF (some F2) (subB delta N) else subB delta N) := by
  rw [unlinkApply]
  have hc1 : (decide (d ≤ d0)) = true := by simp [hle]
  by_cases he : d = d0
  · rw [hc1, if_pos (by simp [he])]
    simp only [if_true, if_pos he]
  · rw [hc1, if_neg (show ¬ ((d == d0) = true) by simp [he])]
    simp only [if_true, if_neg he]

theorem unlinkApply_cons_gt (delta d d0 : Nat) (F2 : List Nat) (cs2 : List FNode) (i : Nat)
    (rest : List Nat) (N : FNode) (hgt : d0 < d) :
    unlinkApply delta d (some F2) cs2 d0 (i :: rest) N
      = mapChildAt i (unlinkApply delta d (some F2) cs2 (d0 + 1) rest) N := by
  rw [unlinkApply]
  have hc1 : (decide (d ≤ d0)) = false := by simp; omega
  have hc2 : ((d == d0) : Bool) = false := by simp; omega
  simp only [hc1, hc2, Bool.false_eq_true, if_false]

theorem expBump_contrib {item : FNode} (hg : goodB item false = true) :
    (contrib item).length = 1 + expBump item := by
  cases item with
  | file a s =>
      rw [contrib_eq]
      rfl
  | dir a s e ocs fl bs =>
      cases e with
      | false =>
          rw [contrib_eq]
          simp only [expOf, Bool.false_eq_true, if_false]
          cases ocs <;> rfl
      | true =>
          cases ocs with
          | none =>
              exfalso
              rw [goodB_none] at hg
              simp only [Bool.and_eq_true] at hg
              have h2 := hg.2
              simp at h2
          | some cs =>
              rw [contrib_eq]
              rw [if_pos (show expOf (FNode.dir a s true (some cs) fl bs) = true from rfl)]
              have hbs := (goodB_props (show childrenOf
                  (FNode.dir a s true (some cs) fl bs) = some cs from rfl) hg).1
              have hv : visSeq (FNode.dir a s true (some cs) fl bs)
                  = cs.flatMap contrib := visSeq_dir a s true cs fl bs
              have hbs2 : bs = (cs.flatMap contrib).length := by
                rw [hv] at hbs
                exact hbs
              rw [expBump, List.length_cons, hv]
              omega

theorem canon_fix_of_rm {cs cs2 : List FNode} {item : FNode}
    (hgood : ∀ x ∈ cs, goodB x false = true) (hperm : cs.Perm (cs2 ++ [item])) :
    cs2.map (canon false) = cs2 := by
  refine (List.map_congr_left (fun x hx => ?_)).trans (List.map_id' cs2)
  have hx2 : x ∈ cs := hperm.symm.mem_iff.1 (List.mem_append_left _ hx)
  exact canon_of_goodB x false (hgood x hx2)

theorem visSeq_unlink_len {rest : List Nat} {n br item : FNode} {cs cs2 : List FNode}
    {b : Bool}
    (hg : goodB n b = true) (hnd : (allIds n).Nodup) (hne : rest ≠ [])
    (hget : getAt rest n = some br)
    (hchain : ∀ k, 0 < k → k < rest.length → ∀ y, getAt (rest.take k) n = some y →
      flatOf y = none)
    (hbrcs : childrenOf br = some cs) (hexpbr : expOf br = true)
    (hperm : cs.Perm (cs2 ++ [item])) :
    (visSeq n).length
      = (visSeq (updAt (setChildrenF (some cs2)) rest n)).length + (contrib item).length := by
  have hchainE := chain_exp_of_flat_none hg hget hchain
  rcases visSeq_decomp rest n br hnd hne hget hchainE with ⟨A, B, hv, _, _, hu⟩
  rw [hu (setChildrenF (some cs2)), hv]
  have hc1 : contrib br = idOf br :: visSeq br := by
    rw [contrib_eq, if_pos hexpbr]
  have hc2 : contrib (setChildrenF (some cs2) br)
      = idOf br :: visSeq (setChildrenF (some cs2) br) := by
    rw [contrib_eq, idOf_setChildrenF, expOf_setChildrenF, if_pos hexpbr]
  have hvbr : visSeq br = cs.flatMap contrib := visSeq_loaded br cs hbrcs
  have hvbr2 : visSeq (setChildrenF (some cs2) br) = cs2.flatMap contrib := by
    refine visSeq_loaded _ cs2 ?_
    cases br with
    | file a s => cases hbrcs
    | dir a s e ocs fl bs => rfl
  have hlen2 : (cs.flatMap contrib).length
      = (cs2.flatMap contrib).length + (contrib item).length := by
    rw [flatMap_perm_length hperm contrib, List.flatMap_append, List.flatMap_cons,
      List.flatMap_nil, List.append_nil, List.length_append]
  rw [hc1, hc2, hvbr, hvbr2]
  simp only [List.length_append, List.length_cons]
  omega

theorem idxOfN_spec : ∀ (l : List Nat) (y i : Nat), idxOfN l y = some i →
    i < l.length ∧ l.getD i 0 = y ∧ y ∉ l.take i := by
  intro l
  induction l with
  | nil => intro y i h; cases h
  | cons a l ih =>
      intro y i h
      rw [idxOfN] at h
      by_cases ha : a = y
      · rw [if_pos ha] at h
        cases h
        refine ⟨by simp, ha, by simp⟩
      · rw [if_neg ha] at h
        rcases ho : idxOfN l y with _ | j
        · rw [ho] at h; cases h
        · rw [ho] at h
          have hij : i = j + 1 := (Option.some.inj h).symm
          subst hij
          rcases ih y j ho with ⟨h1, h2, h3⟩
          refine ⟨by simp only [List.length_cons]; omega, h2, ?_⟩
          intro hmem
          have ht : (a :: l).take (j + 1) = a :: l.take j := rfl
          rw [ht] at hmem
          rcases List.mem_cons.1 hmem with rfl | hmem2
          · exact ha rfl
          · exact h3 hmem2

theorem unlinkApply_le :
    ∀ (rest : List Nat) (n br item : FNode) (cs cs2 : List FNode) (b : Bool) (d0 d : Nat)
      (F2 : List Nat),
      d ≤ d0 →
      goodB n b = true → (allIds n).Nodup →
      (d = d0 → (b || !(expOf n)) = true
        ∧ F2 = visSeq (updAt (setChildrenF (some cs2)) rest n)) →
      (d < d0 → b = false ∧ flatOf n = none) →
      (d < d0 + rest.length → flatOf br = none) →
      getAt rest n = some br →
      (∀ k, 0 < k → k < rest.length → ∀ y, getAt (rest.take k) n = some y →
        flatOf y = none) →
      childrenOf br = some cs →
      cs.Perm (cs2 ++ [item]) →
      unlinkApply ((contrib item).length) d (some F2) cs2 d0 rest n
        = canon b (updAt (setChildrenF (some cs2)) rest n) := by
  intro rest
  induction rest with
  | nil =>
      intro n br item cs cs2 b d0 d F2 hle hg hnd hat hbelow _ hget hchain hbrcs hperm
      cases hget
      rw [updAt_nil, unlinkApply_nil]
      have hgood : ∀ x ∈ cs, goodB x false = true := goodB_children hg hbrcs
      have hfix := canon_fix_of_rm hgood hperm
      cases n with
      | file a s => cases hbrcs
      | dir a s e ocs fl bs =>
          cases ocs with
          | none => cases hbrcs
          | some cs0 =>
              have hcs0 : cs0 = cs := by
                simp only [childrenOf] at hbrcs
                exact Option.some.inj hbrcs
              subst hcs0
              have hprops := goodB_props hbrcs hg
              have hbs : bs = (cs0.flatMap contrib).length := by
                have h1 := hprops.1
                rw [visSeq_dir] at h1
                exact h1
              have hlen2 : (cs0.flatMap contrib).length
                  = (cs2.flatMap contrib).length + (contrib item).length := by
                rw [flatMap_perm_length hperm contrib, List.flatMap_append,
                  List.flatMap_cons, List.flatMap_nil, List.append_nil, List.length_append]
              rw [setChildrenF, subB, canon_dir, hfix]
              by_cases hd : d = d0
              · rcases hat hd with ⟨hb, hF2⟩
                rw [updAt_nil, setChildrenF] at hF2
                have hbe : (b || !e) = true := hb
                rw [if_pos hd, setFlatF, if_pos hbe]
                have hF2v : F2 = cs2.flatMap contrib := by
                  rw [hF2, visSeq_dir]
                rw [← hF2v]
                congr 1
                rw [hF2v]
                omega
              · have hlt : d < d0 := by omega
                rcases hbelow hlt with ⟨hbf, hfl⟩
                subst hbf
                have hfl2 : fl = none := hfl
                subst hfl2
                have he : e = true :=
                  expanded_of_flat_none hg (by rw [loadedB, hbrcs]; rfl) hfl
                subst he
                rw [if_neg hd, if_neg (by simp)]
                congr 1
                omega
  | cons i rest ih =>
      intro n br item cs cs2 b d0 d F2 hle hg hnd hat hbelow hbrfl hget0 hchain hbrcs
        hperm
      have hbrfl2 : flatOf br = none := by
        refine hbrfl ?_
        simp only [List.length_cons]
        omega
      have hexpbr : expOf br = true :=
        expanded_of_flat_none (goodB_getAt (i :: rest) b n br hg hget0 (by simp))
          (by rw [loadedB, hbrcs]; rfl) hbrfl2
      have hlen := visSeq_unlink_len hg hnd (by simp) hget0 hchain hbrcs hexpbr hperm
      have hget := hget0
      rw [getAt_cons] at hget
      rcases hcs : childrenOf n with _ | ncs
      · rw [hcs] at hget; cases hget
      · rw [hcs] at hget
        dsimp only [Option.bind] at hget
        rcases hf : ncs.find? (fun x => idOf x == i) with _ | c
        · rw [hf] at hget; cases hget
        · rw [hf] at hget
          rcases find_child_split hcs hf hnd with ⟨l1, l2, hsplit, hl1, hl2, hci2⟩
          have hmem := List.mem_of_find?_eq_some hf
          have hgood := goodB_children hg hcs
          have hndc := nodup_child hcs hmem hnd
          have hgc : goodB c false = true := hgood c hmem
          have hgetc1 : getAt ((i :: rest).take 1) n = some c := by
            have ht : (i :: rest).take 1 = [i] := rfl
            rw [ht, getAt_cons, hcs]
            dsimp only [Option.bind]
            rw [hf]
            rfl
          have hflc : flatOf c = none := by
            cases rest with
            | nil =>
                cases hget
                exact hbrfl2
            | cons j q =>
                exact hchain 1 Nat.one_pos (by simp) c hgetc1
          have hmidW : unlinkApply ((contrib item).length) d (some F2) cs2 (d0 + 1) rest c
              = canon false (updAt (setChildrenF (some cs2)) rest c) := by
            refine ih c br item cs cs2 false (d0 + 1) d F2 (by omega) hgc hndc
              (fun hd => absurd hd (by omega)) (fun _ => ⟨rfl, hflc⟩)
              (fun _ => hbrfl2) hget ?_ hbrcs hperm
            intro k h1 h2 y hy
            have h2b : k + 1 < (i :: rest).length := by
              simp only [List.length_cons] at h2 ⊢
              omega
            refine hchain (k + 1) (by omega) h2b y ?_
            have ht : (i :: rest).take (k + 1) = i :: rest.take k := rfl
            rw [ht, getAt_cons, hcs]
            dsimp only [Option.bind]
            rw [hf]
            exact hy
          cases n with
          | file a s => cases hcs
          | dir a s e ocs fl bs =>
              cases ocs with
              | none => cases hcs
              | some cs0 =>
                  have hcs0 : cs0 = ncs := by
                    simp only [childrenOf] at hcs
                    exact Option.some.inj hcs
                  subst hcs0
                  subst hsplit
                  have hbsn : bs
                      = (visSeq (FNode.dir a s e (some (l1 ++ c :: l2)) fl bs)).length :=
                    (goodB_props hcs hg).1
                  rw [updAt_cons, mapChildAt, map_guard_split _ hl1 hl2 hci2] at hlen ⊢
                  rw [unlinkApply_cons_le _ _ _ _ _ _ _ _ hle, canon_dir]
                  have hLm : (l1 ++ updAt (setChildrenF (some cs2)) rest c :: l2).map
                        (canon false)
                      = l1 ++ canon false (updAt (setChildrenF (some cs2)) rest c) :: l2 := by
                    rw [List.map_append, List.map_cons]
                    have e1 : l1.map (canon false) = l1 :=
                      (List.map_congr_left (fun x hx =>
                        canon_of_goodB x false (hgood x (List.mem_append_left _ hx)))).trans
                        (List.map_id' l1)
                    have e2 : l2.map (canon false) = l2 :=
                      (List.map_congr_left (fun x hx =>
                        canon_of_goodB x false (hgood x
                          (List.mem_append_right _ (List.mem_cons_of_mem c hx))))).trans
                        (List.map_id' l2)
                    rw [e1, e2]
                  have hflv : (l1 ++ canon false (updAt (setChildrenF (some cs2)) rest c)
                        :: l2).flatMap contrib
                      = visSeq (FNode.dir a s e
                          (some (l1 ++ updAt (setChildrenF (some cs2)) rest c :: l2))
                          fl bs) := by
                    rw [visSeq_dir, List.flatMap_append, List.flatMap_append,
                      List.flatMap_cons, List.flatMap_cons, contrib_canon]
                  rw [hLm, hflv]
                  by_cases hd : d = d0
                  · rcases hat hd with ⟨hb, hF2⟩
                    rw [updAt_cons, mapChildAt, map_guard_split _ hl1 hl2 hci2] at hF2
                    rw [if_pos hd, subB, setFlatF, mapChildAt]
                    rw [map_guard_split _ hl1 hl2 ?hmidi, hmidW]
                    case hmidi => exact hci2
                    have hbe : (b || !e) = true := hb
                    have hF2len : F2.length = bs - (contrib item).length := by
                      rw [hF2]
                      omega
                    rw [if_pos hbe, ← hF2, hF2len]
                  · have hlt : d < d0 := by omega
                    rcases hbelow hlt with ⟨hbf, hfl⟩
                    subst hbf
                    have hfl2 : fl = none := hfl
                    subst hfl2
                    have he : e = true :=
                      expanded_of_flat_none hg (by rw [loadedB, hcs]; rfl) hfl
                    subst he
                    rw [if_neg hd, subB, mapChildAt]
                    rw [map_guard_split _ hl1 hl2 ?hmidi2, hmidW]
                    case hmidi2 => exact hci2
                    rw [if_neg (by simp)]
                    have hlen2 : (visSeq (FNode.dir a s true
                        (some (l1 ++ updAt (setChildrenF (some cs2)) rest c :: l2))
                        none bs)).length = bs - (contrib item).length := by
                      omega
                    rw [hlen2]

theorem unlinkApply_above :
    ∀ (rest : List Nat) (n br item m : FNode) (cs cs2 : List FNode) (b : Bool) (d0 d : Nat),
      d0 < d →
      goodB n b = true → (allIds n).Nodup →
      d - d0 ≤ rest.length →
      getAt (rest.take (d - d0)) n = some m → (flatOf m).isSome = true →
      (∀ k, d - d0 < k → k < rest.length → ∀ y, getAt (rest.take k) n = some y →
        flatOf y = none) →
      (d < d0 + rest.length → flatOf br = none) →
      getAt rest n = some br →
      childrenOf br = some cs →
      cs.Perm (cs2 ++ [item]) →
      unlinkApply ((contrib item).length) d
          (some (visSeq (updAt (setChildrenF (some cs2)) (rest.drop (d - d0)) m)))
          cs2 d0 rest n
        = canon b (updAt (setChildrenF (some cs2)) rest n) := by
  intro rest
  induction rest with
  | nil =>
      intro n br item m cs cs2 b d0 d hgt _ _ hjlen _ _ _ _ _ _ _
      simp at hjlen
      omega
  | cons i rest ih =>
      intro n br item m cs cs2 b d0 d hgt hg hnd hjlen hgetm hflm hchain hbrfl hget0
        hbrcs hperm
      have hj1 : 1 ≤ d - d0 := by omega
      have hget := hget0
      rw [getAt_cons] at hget
      rcases hcs : childrenOf n with _ | ncs
      · rw [hcs] at hget; cases hget
      · rw [hcs] at hget
        dsimp only [Option.bind] at hget
        rcases hf : ncs.find? (fun x => idOf x == i) with _ | c
        · rw [hf] at hget; cases hget
        · rw [hf] at hget
          rcases find_child_split hcs hf hnd with ⟨l1, l2, hsplit, hl1, hl2, hci2⟩
          have hmem := List.mem_of_find?_eq_some hf
          have hgood := goodB_children hg hcs
          have hndc := nodup_child hcs hmem hnd
          have hgc : goodB c false = true := hgood c hmem
          have hgm : goodB m false = true := by
            refine goodB_getAt ((i :: rest).take (d - d0)) b n m hg hgetm ?_
            intro hcon
            have : ((i :: rest).take (d - d0)).length = 0 := by rw [hcon]; rfl
            rw [List.length_take] at this
            simp only [List.length_cons] at this hjlen
            omega
          have hcollm : expOf m = false := by
            rcases hfq : flatOf m with _ | F
            · rw [hfq] at hflm; cases hflm
            · exact collapsed_of_flat_some hgm hfq
          have hblock : visSeq (updAt (setChildrenF (some cs2)) (i :: rest) n)
              = visSeq n := by
            have hsplitp : (i :: rest)
                = (i :: rest).take (d - d0) ++ (i :: rest).drop (d - d0) :=
              (List.take_append_drop _ _).symm
            have hdropne : (i :: rest).drop (d - d0) ≠ [] ∨ (d - d0) = (i :: rest).length := by
              by_cases hx : (d - d0) = (i :: rest).length
              · exact Or.inr hx
              · refine Or.inl ?_
                intro hcon
                have := List.drop_eq_nil_iff_le.1 hcon
                simp only [List.length_cons] at this hjlen hx
                omega
            have htakene : (i :: rest).take (d - d0) ≠ [] := by
              intro hcon
              have : ((i :: rest).take (d - d0)).length = 0 := by rw [hcon]; rfl
              rw [List.length_take] at this
              simp only [List.length_cons] at this hjlen
              omega
            conv_lhs => rw [hsplitp]
            rw [updAt_append]
            refine visSeq_updAt_contrib _ _ n m htakene hgetm hnd ?_
            rcases hdropne with hdropne | howner
            · rw [contrib_eq, contrib_eq]
              rw [idOf_updAt_ne_nil _ hdropne]
              have hexpu : expOf (updAt (setChildrenF (some cs2))
                  ((i :: rest).drop (d - d0)) m) = expOf m := by
                rcases hdd : (i :: rest).drop (d - d0) with _ | ⟨z, zs⟩
                · exact absurd hdd hdropne
                · rw [updAt_cons, expOf_mapChildAt]
              rw [hexpu, if_neg (by simp [hcollm]), if_neg (by simp [hcollm])]
            · have hdr : (i :: rest).drop (d - d0) = [] := by
                rw [howner, List.drop_length]
              rw [hdr, updAt_nil]
              have hmbr : m = br := by
                have ht : (i :: rest).take (d - d0) = i :: rest := by
                  rw [howner, List.take_length]
                rw [ht, hget0] at hgetm
                exact (Option.some.inj hgetm).symm
              subst hmbr
              rw [contrib_eq, contrib_eq, idOf_setChildrenF, expOf_setChildrenF,
                if_neg (by simp [hcollm]), if_neg (by simp [hcollm])]
          have hmidW : unlinkApply ((contrib item).length) d
              (some (visSeq (updAt (setChildrenF (some cs2)) ((i :: rest).drop (d - d0)) m)))
              cs2 (d0 + 1) rest c = canon false (updAt (setChildrenF (some cs2)) rest c) := by
            by_cases hj : d - d0 = 1
            · have hmc : m = c := by
                have ht : (i :: rest).take (d - d0) = [i] := by rw [hj]; rfl
                rw [ht, getAt_cons, hcs] at hgetm
                dsimp only [Option.bind] at hgetm
                rw [hf] at hgetm
                exact (Option.some.inj hgetm).symm
              subst hmc
              have hdrop : (i :: rest).drop (d - d0) = rest := by rw [hj]; rfl
              have hdeq : d = d0 + 1 := by omega
              subst hdeq
              rw [hdrop]
              refine unlinkApply_le rest m br item cs cs2 false (d0 + 1) (d0 + 1) _
                (by omega) hgc hndc (fun _ => ⟨by simp [hcollm], rfl⟩)
                (fun hlt => absurd hlt (by omega)) ?_ hget ?_ hbrcs hperm
              · intro hlt
                refine hbrfl ?_
                simp only [List.length_cons]
                omega
              · intro k h1 h2 y hy
                have h2b : k + 1 < (i :: rest).length := by
                  simp only [List.length_cons] at h2 ⊢
                  omega
                refine hchain (k + 1) (by omega) h2b y ?_
                have ht : (i :: rest).take (k + 1) = i :: rest.take k := rfl
                rw [ht, getAt_cons, hcs]
                dsimp only [Option.bind]
                rw [hf]
                exact hy
            · have hj2 : 2 ≤ d - d0 := by omega
              have hgetm2 : getAt (rest.take (d - (d0 + 1))) c = some m := by
                have ht : (i :: rest).take (d - d0) = i :: rest.take (d - (d0 + 1)) := by
                  have : d - d0 = (d - (d0 + 1)) + 1 := by omega
                  rw [this]
                  rfl
                rw [ht, getAt_cons, hcs] at hgetm
                dsimp only [Option.bind] at hgetm
                rw [hf] at hgetm
                exact hgetm
              have hdrop : (i :: rest).drop (d - d0) = rest.drop (d - (d0 + 1)) := by
                have : d - d0 = (d - (d0 + 1)) + 1 := by omega
                rw [this]
                rfl
              rw [hdrop]
              refine ih c br item m cs cs2 false (d0 + 1) d (by omega) hgc hndc ?_ hgetm2
                hflm ?_ ?_ hget hbrcs hperm
              · simp only [List.length_cons] at hjlen
                omega
              · intro k h1 h2 y hy
                have h2b : k + 1 < (i :: rest).length := by
                  simp only [List.length_cons] at h2 ⊢
                  omega
                refine hchain (k + 1) (by omega) h2b y ?_
                have ht : (i :: rest).take (k + 1) = i :: rest.take k := rfl
                rw [ht, getAt_cons, hcs]
                dsimp only [Option.bind]
                rw [hf]
                exact hy
              · intro hlt
                refine hbrfl ?_
                simp only [List.length_cons] at hlt ⊢
                omega
          cases n with
          | file a s => cases hcs
          | dir a s e ocs fl bs =>
              cases ocs with
              | none => cases hcs
              | some cs0 =>
                  have hcs0 : cs0 = ncs := by
                    simp only [childrenOf] at hcs
                    exact Option.some.inj hcs
                  subst hcs0
                  subst hsplit
                  have hprops := goodB_props hcs hg
                  rw [updAt_cons, mapChildAt, map_guard_split _ hl1 hl2 hci2] at hblock ⊢
                  rw [unlinkApply_cons_gt _ _ _ _ _ _ _ _ hgt, canon_dir, mapChildAt]
                  rw [map_guard_split _ hl1 hl2 hci2, hmidW]
                  have hLm : (l1 ++ updAt (setChildrenF (some cs2)) rest c :: l2).map
                        (canon false)
                      = l1 ++ canon false (updAt (setChildrenF (some cs2)) rest c) :: l2 := by
                    rw [List.map_append, List.map_cons]
                    have e1 : l1.map (canon false) = l1 :=
                      (List.map_congr_left (fun x hx =>
                        canon_of_goodB x false (hgood x (List.mem_append_left _ hx)))).trans
                        (List.map_id' l1)
                    have e2 : l2.map (canon false) = l2 :=
                      (List.map_congr_left (fun x hx =>
                        canon_of_goodB x false (hgood x
                          (List.mem_append_right _ (List.mem_cons_of_mem c hx))))).trans
                        (List.map_id' l2)
                    rw [e1, e2]
                  have hflv : (l1 ++ canon false (updAt (setChildrenF (some cs2)) rest c)
                        :: l2).flatMap contrib
                      = visSeq (FNode.dir a s e
                          (some (l1 ++ updAt (setChildrenF (some cs2)) rest c :: l2))
                          fl bs) := by
                    rw [visSeq_dir, List.flatMap_append, List.flatMap_append,
                      List.flatMap_cons, List.flatMap_cons, contrib_canon]
                  rw [hLm, hflv, hblock]
                  have hflat : fl = if (b || !e) = true
                      then some (visSeq (FNode.dir a s e (some (l1 ++ c :: l2)) fl bs))
                      else none := hprops.2.1
                  have hbs : bs
                      = (visSeq (FNode.dir a s e (some (l1 ++ c :: l2)) fl bs)).length :=
                    hprops.1
                  rw [← hflat, ← hbs]

theorem unlink_F2 {t : FNode} {p : List Nat} {item br m : FNode} {cs : List FNode}
    {idx d : Nat}
    (hg : goodB t true = true) (hnd : (allIds t).Nodup)
    (hget : getAt p t = some br) (hbrcs : childrenOf br = some cs)
    (hdle : d ≤ p.length) (hgetm : getAt (p.take d) t = some m)
    (hmax : ∀ k, d < k → k ≤ p.length → hasFlatAt t (p.take k) = false)
    (hidx : idx < cs.length) (hitem : cs.getD idx (FNode.file 0 "") = item) :
    ∃ R, idxOfN (visSeq m) (idOf item) = some R
      ∧ spliceTA (visSeq m) R ((contrib item).length) []
          = visSeq (updAt (setChildrenF (some (cs.eraseIdx idx))) (p.drop d) m) := by
  have hndm : (allIds m).Nodup := nodup_getAt (p.take d) t m hnd hgetm
  have hvndm : (visSeq m).Nodup := visSeq_nodup m hndm
  have hdropcs : cs.drop idx = item :: cs.drop (idx + 1) := by
    rw [List.drop_eq_getElem_cons hidx]
    congr 1
    rw [← hitem]
    exact (List.getD_eq_getElem cs _ hidx).symm
  have hsplitcs : cs = cs.take idx ++ item :: cs.drop (idx + 1) := by
    conv_lhs => rw [← List.take_append_drop idx cs]
    rw [hdropcs]
  have herase : cs.eraseIdx idx = cs.take idx ++ cs.drop (idx + 1) :=
    List.eraseIdx_eq_take_drop_succ cs idx
  rcases hct : contrib item with _ | ⟨x0, cT⟩
  · exfalso
    have := contrib_eq item
    rw [hct] at this
    cases this
  have hx0 : x0 = idOf item := by
    have h2 := contrib_eq item
    rw [hct] at h2
    exact (List.cons.inj h2).1
  subst hx0
  by_cases hdp : d = p.length
  · have hpt : p.take d = p := by rw [hdp, List.take_length]
    rw [hpt] at hgetm
    rw [hget] at hgetm
    have hmbr : m = br := (Option.some.inj hgetm).symm
    subst hmbr
    have hpd : p.drop d = [] := by rw [hdp, List.drop_length]
    rw [hpd, updAt_nil]
    have hvm : visSeq m = cs.flatMap contrib := visSeq_loaded m cs hbrcs
    have hvm2 : visSeq (setChildrenF (some (cs.eraseIdx idx)) m)
        = (cs.eraseIdx idx).flatMap contrib := by
      refine visSeq_loaded _ _ ?_
      cases m with
      | file a s => cases hbrcs
      | dir a s e ocs fl bs => rfl
    have hF : visSeq m = (cs.take idx).flatMap contrib
        ++ idOf item :: (cT ++ (cs.drop (idx + 1)).flatMap contrib) := by
      rw [hvm]
      conv_lhs => rw [hsplitcs]
      rw [List.flatMap_append, List.flatMap_cons, hct]
      simp [List.append_assoc]
    have hnotin : idOf item ∉ (cs.take idx).flatMap contrib := by
      have h := hvndm
      rw [hF] at h
      exact nodup_prefix_notmem h
    refine ⟨((cs.take idx).flatMap contrib).length, ?_, ?_⟩
    · rw [hF]
      exact idxOfN_split hnotin _
    · have hF3 : visSeq m = (cs.take idx).flatMap contrib ++ (idOf item :: cT)
          ++ (cs.drop (idx + 1)).flatMap contrib := by
        rw [hF]
        simp [List.append_assoc]
      rw [hF3, spliceTA_remove, hvm2, herase, List.flatMap_append]
  · have hdlt : d < p.length := by omega
    have hpne : p ≠ [] := by
      intro hcon
      rw [hcon] at hdlt
      simp at hdlt
    have hgbr : goodB br false = true := goodB_getAt p true t br hg hget hpne
    have hbrfl : flatOf br = none := by
      have hnf : hasFlatAt t (p.take p.length) = false := hmax p.length (by omega) (by omega)
      rw [List.take_length] at hnf
      rw [hasFlatAt_some hget] at hnf
      rcases hfy : flatOf br with _ | F
      · rfl
      · rw [hfy] at hnf; cases hnf
    have hexpbr : expOf br = true :=
      expanded_of_flat_none hgbr (by rw [loadedB, hbrcs]; rfl) hbrfl
    have hgm : goodB m (decide (d = 0)) = true := by
      by_cases hd0 : d = 0
      · subst hd0
        rw [List.take_zero] at hgetm
        cases hgetm
        simpa using hg
      · simp only [hd0, decide_eq_true_eq, decide_eq_false_iff_not]
        refine goodB_getAt (p.take d) true t m hg hgetm ?_
        intro hcon
        have : (p.take d).length = 0 := by rw [hcon]; rfl
        rw [List.length_take] at this
        omega
    have hsplitq : p = p.take d ++ p.drop d := (List.take_append_drop d p).symm
    have hgdrop : getAt (p.drop d) m = some br := by
      conv at hget => rw [hsplitq]
      rcases getAt_split hget with ⟨y, hy, hdrop⟩
      rw [hgetm] at hy
      cases hy
      exact hdrop
    have hdropne : p.drop d ≠ [] := by
      intro hcon
      have := List.drop_eq_nil_iff.1 hcon
      omega
    have hchainm : ∀ k, 0 < k → k < (p.drop d).length → ∀ y,
        getAt ((p.drop d).take k) m = some y → flatOf y = none := by
      intro k h1 h2 y hy
      have htk : p.take (d + k) = p.take d ++ (p.drop d).take k := List.take_add p d k
      have hgy : getAt (p.take (d + k)) t = some y := by
        rw [htk, getAt_append, hgetm]
        exact hy
      have hnf : hasFlatAt t (p.take (d + k)) = false := by
        refine hmax (d + k) (by omega) ?_
        rw [List.length_drop] at h2
        omega
      rw [hasFlatAt_some hgy] at hnf
      rcases hfy : flatOf y with _ | F
      · rfl
      · rw [hfy] at hnf; cases hnf
    have hchainmE := chain_exp_of_flat_none hgm hgdrop hchainm
    have hndm2 : (allIds m).Nodup := hndm
    rcases visSeq_decomp (p.drop d) m br hndm2 hdropne hgdrop hchainmE
      with ⟨A, B, hv, hA, hB, hu⟩
    have hvbr : visSeq br = cs.flatMap contrib := visSeq_loaded br cs hbrcs
    have hcbr : contrib br = idOf br :: cs.flatMap contrib := by
      rw [contrib_eq, if_pos hexpbr, hvbr]
    have hcbr2 : contrib (setChildrenF (some (cs.eraseIdx idx)) br)
        = idOf br :: (cs.eraseIdx idx).flatMap contrib := by
      rw [contrib_eq, idOf_setChildrenF, expOf_setChildrenF, if_pos hexpbr]
      congr 1
      refine visSeq_loaded _ _ ?_
      cases br with
      | file a s => cases hbrcs
      | dir a s e ocs fl bs => rfl
    have htgt : visSeq (updAt (setChildrenF (some (cs.eraseIdx idx))) (p.drop d) m)
        = A ++ (idOf br :: (cs.eraseIdx idx).flatMap contrib) ++ B := by
      rw [hu (setChildrenF (some (cs.eraseIdx idx))), hcbr2]
    have hF : visSeq m = (A ++ idOf br :: (cs.take idx).flatMap contrib)
        ++ idOf item :: (cT ++ ((cs.drop (idx + 1)).flatMap contrib ++ B)) := by
      rw [hv, hcbr]
      conv_lhs => rw [hsplitcs]
      rw [List.flatMap_append, List.flatMap_cons, hct]
      simp [List.append_assoc]
    have hnotin : idOf item ∉ A ++ idOf br :: (cs.take idx).flatMap contrib := by
      have h := hvndm
      rw [hF] at h
      exact nodup_prefix_notmem h
    refine ⟨(A ++ idOf br :: (cs.take idx).flatMap contrib).length, ?_, ?_⟩
    · rw [hF]
      exact idxOfN_split hnotin _
    · have hF3 : visSeq m = (A ++ idOf br :: (cs.take idx).flatMap contrib)
          ++ (idOf item :: cT) ++ ((cs.drop (idx + 1)).flatMap contrib ++ B) := by
        rw [hF]
        simp [List.append_assoc]
      rw [hF3, spliceTA_remove, htgt, herase, List.flatMap_append]
      simp [List.append_assoc]

theorem unlink_walk {t : FNode} {p : List Nat} {item br m : FNode}
    {cs cs2 : List FNode} {d : Nat}
    (hg : goodB t true = true) (hnd : (allIds t).Nodup)
    (hget : getAt p t = some br) (hbrcs : childrenOf br = some cs)
    (hdle : d ≤ p.length) (hgetm : getAt (p.take d) t = some m)
    (hflm : (flatOf m).isSome = true)
    (hmax : ∀ k, d < k → k ≤ p.length → hasFlatAt t (p.take k) = false)
    (hperm : cs.Perm (cs2 ++ [item])) :
    unlinkApply ((contrib item).length) d
        (some (visSeq (updAt (setChildrenF (some cs2)) (p.drop d) m))) cs2 0 p t
      = canon true (updAt (setChildrenF (some cs2)) p t) := by
  have hbrfl : d < 0 + p.length → flatOf br = none := by
    intro hlt
    have hnf : hasFlatAt t (p.take p.length) = false := hmax p.length (by omega) (by omega)
    rw [List.take_length, hasFlatAt_some hget] at hnf
    rcases hfy : flatOf br with _ | F
    · rfl
    · rw [hfy] at hnf; cases hnf
  by_cases hd0 : d = 0
  · subst hd0
    have hmt : t = m := by
      rw [List.take_zero, getAt_nil] at hgetm
      exact Option.some.inj hgetm
    subst hmt
    refine unlinkApply_le p t br item cs cs2 true 0 0 _
      (by omega) hg hnd ?_ (by omega) hbrfl hget ?_ hbrcs hperm
    · intro _
      exact ⟨rfl, rfl⟩
    · intro k h1 h2 y hy
      have hnf : hasFlatAt t (p.take k) = false := hmax k (by omega) (by omega)
      rw [hasFlatAt_some hy] at hnf
      rcases hfy : flatOf y with _ | F
      · rfl
      · rw [hfy] at hnf; cases hnf
  · refine unlinkApply_above p t br item m cs cs2 true 0 d (by omega) hg hnd
      (by omega) hgetm hflm ?_ hbrfl hget hbrcs hperm
    intro k h1 h2 y hy
    have hnf : hasFlatAt t (p.take k) = false := hmax k (by omega) (by omega)
    rw [hasFlatAt_some hy] at hnf
    rcases hfy : flatOf y with _ | F
    · rfl
    · rw [hfy] at hnf; cases hnf

theorem unlinkItemM_main {t : FNode} {p : List Nat} {itemId : Nat} {ba sa : Nat}
    {sb : String} {e : Bool} {fl : Option (List Nat)} {cs : List FNode} {idx : Nat}
    (hg : goodB t true = true) (hnd : (allIds t).Nodup)
    (hget : getAt p t = some (FNode.dir ba sb e (some cs) fl sa))
    (hidx : idxOfN (cs.map idOf) itemId = some idx) :
    (unlinkItemM t p itemId).1
      = canon true (updAt (setChildrenF (some (cs.eraseIdx idx))) p t) := by
  have hbrcs : childrenOf (FNode.dir ba sb e (some cs) fl sa) = some cs := rfl
  rcases idxOfN_spec _ _ _ hidx with ⟨hlt0, hgd, _⟩
  have hltcs : idx < cs.length := by
    rw [List.length_map] at hlt0
    exact hlt0
  have hiditem : idOf (cs.getD idx (FNode.file 0 "")) = itemId := by
    rw [← hgd, List.getD_eq_getElem _ _ hlt0, List.getD_eq_getElem _ _ hltcs,
      List.getElem_map]
  have hitemmem : cs.getD idx (FNode.file 0 "") ∈ cs := by
    rw [List.getD_eq_getElem _ _ hltcs]
    exact List.getElem_mem hltcs
  have hload : ∃ ncs, childrenOf t = some ncs := by
    cases p with
    | nil =>
        have h5 : t = FNode.dir ba sb e (some cs) fl sa := Option.some.inj hget
        exact ⟨cs, by rw [h5]; rfl⟩
    | cons i rest =>
        rw [getAt_cons] at hget
        rcases hcs0 : childrenOf t with _ | ncs
        · rw [hcs0] at hget; cases hget
        · exact ⟨ncs, rfl⟩
  rcases hload with ⟨ncs, hncs⟩
  have hrootflat : hasFlatAt t [] = true := by
    have hp := (goodB_props hncs hg).2.1
    have h00 : getAt ([] : List Nat) t = some t := rfl
    rw [hasFlatAt_some h00, hp]
    simp
  rcases @ownerDepth_isSome _ p p.length hrootflat with ⟨d, hod⟩
  rcases ownerDepth_spec hod with ⟨hflat, hdle, hmax⟩
  rcases hgetm : getAt (p.take d) t with _ | m
  · rw [hasFlatAt, hgetm] at hflat; cases hflat
  have hflm : (flatOf m).isSome = true := by
    rw [hasFlatAt_some hgetm] at hflat
    exact hflat
  have hgm : goodB m (decide (d = 0)) = true := by
    by_cases hd0 : d = 0
    · subst hd0
      rw [List.take_zero, getAt_nil] at hgetm
      cases hgetm
      simpa using hg
    · simp only [hd0, decide_eq_true_eq, decide_eq_false_iff_not]
      refine goodB_getAt (p.take d) true t m hg hgetm ?_
      intro hcon
      have : (p.take d).length = 0 := by rw [hcon]; rfl
      rw [List.length_take] at this
      omega
  rcases hfm : flatOf m with _ | F0
  · rw [hfm] at hflm; cases hflm
  have hF0 : F0 = visSeq m := flat_eq_visSeq hgm hfm
  have hfa : flatAt t (p.take d) = visSeq m := by
    rw [flatAt_some hgetm, hfm, hF0]
    rfl
  have hgbb : ∃ bb, goodB (FNode.dir ba sb e (some cs) fl sa) bb = true := by
    cases p with
    | nil =>
        have h5 : t = FNode.dir ba sb e (some cs) fl sa := Option.some.inj hget
        exact ⟨true, by rw [← h5]; exact hg⟩
    | cons i rest =>
        exact ⟨false, goodB_getAt (i :: rest) true t _ hg hget (by intro hx; cases hx)⟩
  rcases hgbb with ⟨bb, hgbr⟩
  have hgitem : goodB (cs.getD idx (FNode.file 0 "")) false = true :=
    goodB_children hgbr hbrcs _ hitemmem
  have hdelta : (contrib (cs.getD idx (FNode.file 0 ""))).length
      = 1 + expBump (cs.getD idx (FNode.file 0 "")) := expBump_contrib hgitem
  have hperm : cs.Perm (cs.eraseIdx idx ++ [cs.getD idx (FNode.file 0 "")]) := by
    have hdropcs : cs.drop idx = cs.getD idx (FNode.file 0 "") :: cs.drop (idx + 1) := by
      rw [List.drop_eq_getElem_cons hltcs]
      congr 1
      exact (List.getD_eq_getElem cs _ hltcs).symm
    have hsplitcs : cs = cs.take idx ++ cs.getD idx (FNode.file 0 "") :: cs.drop (idx + 1) := by
      conv_lhs => rw [← List.take_append_drop idx cs]
      rw [hdropcs]
    rw [List.eraseIdx_eq_take_drop_succ]
    conv_lhs => rw [hsplitcs]
    refine List.Perm.trans List.perm_middle ?_
    refine List.Perm.trans ?_ (List.perm_append_singleton _ _).symm
    exact List.Perm.refl _
  rcases unlink_F2 hg hnd hget hbrcs hdle hgetm hmax hltcs rfl with ⟨R, hidxF, hsplice⟩
  rw [unlinkItemM, hget]
  dsimp only
  rw [hidx]
  dsimp only
  rw [hod]
  dsimp only
  rw [hfa, ← hdelta]
  rw [hiditem] at hidxF
  rw [hidxF]
  dsimp only
  rw [hsplice]
  exact unlink_walk hg hnd hget hbrcs hdle hgetm hflm hmax hperm

theorem idxOfN_some_of_mem : ∀ {l : List Nat} {x : Nat}, x ∈ l → ∃ i, idxOfN l x = some i := by
  intro l
  induction l with
  | nil => intro x h; cases h
  | cons a l ih =>
      intro x h
      rw [idxOfN]
      by_cases ha : a = x
      · exact ⟨0, by rw [if_pos ha]⟩
      · rcases List.mem_cons.1 h with rfl | h2
        · exact absurd rfl ha
        · rcases ih h2 with ⟨i, hi⟩
          exact ⟨i + 1, by rw [if_neg ha, hi]; rfl⟩

theorem Inv_removedM {s : TreeState} (p : List Nat) (fname : String) (h : Inv s) :
    Inv (removedM s p fname).1 := by
  rcases h with ⟨hg, hnd, hlt⟩
  rw [removedM]
  rcases hget : getAt p s.root with _ | br
  · dsimp only
    exact ⟨hg, hnd, hlt⟩
  rcases br with ⟨ba, sb⟩ | ⟨ba, sb, e, ocs, fl, sa⟩
  · dsimp only
    exact ⟨hg, hnd, hlt⟩
  rcases ocs with _ | cs
  · dsimp only
    exact ⟨hg, hnd, hlt⟩
  dsimp only
  rcases hfind : cs.find? (fun c => nameOf c == fname) with _ | item0
  · dsimp only
    exact ⟨hg, hnd, hlt⟩
  dsimp only
  have hbrcs : childrenOf (FNode.dir ba sb e (some cs) fl sa) = some cs := rfl
  have hmem0 : item0 ∈ cs := List.mem_of_find?_eq_some hfind
  have hmemid : idOf item0 ∈ cs.map idOf := List.mem_map.2 ⟨item0, hmem0, rfl⟩
  rcases idxOfN_some_of_mem hmemid with ⟨idx, hidx⟩
  have hmain := unlinkItemM_main hg hnd hget hidx
  rw [hmain]
  rcases idxOfN_spec _ _ _ hidx with ⟨hlt0, _, _⟩
  have hltcs : idx < cs.length := by
    rw [List.length_map] at hlt0
    exact hlt0
  have hgbb : ∃ bb, goodB (FNode.dir ba sb e (some cs) fl sa) bb = true := by
    cases p with
    | nil =>
        have h5 : s.root = FNode.dir ba sb e (some cs) fl sa := Option.some.inj hget
        exact ⟨true, by rw [← h5]; exact hg⟩
    | cons i rest =>
        exact ⟨false, goodB_getAt (i :: rest) true s.root _ hg hget (by intro hx; cases hx)⟩
  rcases hgbb with ⟨bb, hgbr⟩
  have hskbr : skelOKB (FNode.dir ba sb e (some cs) fl sa) = true :=
    skelOKB_of_goodB _ bb hgbr
  rw [skelOKB_dir] at hskbr
  simp only [Bool.and_eq_true, List.all_eq_true] at hskbr
  have hsub : (cs.eraseIdx idx).Sublist cs := List.eraseIdx_sublist cs idx
  have hsorted2 : sortedB (cs.eraseIdx idx) = true :=
    pairwise_sortedB _ ((sortedB_pairwise cs hskbr.1).sublist hsub)
  have hallsk : ∀ x ∈ cs.eraseIdx idx, skelOKB x = true := by
    intro x hx
    exact hskbr.2 x (hsub.subset hx)
  rcases allIds_updAt p s.root _ hnd hget with ⟨pre, post, heq, hupd⟩
  have hchild : allIds (setChildrenF (some (cs.eraseIdx idx))
        (FNode.dir ba sb e (some cs) fl sa))
      = ba :: (cs.eraseIdx idx).flatMap allIds := by
    rw [setChildrenF, allIds, subIds_dir]
    rfl
  have hsubfm : ((cs.eraseIdx idx).flatMap allIds).Sublist (cs.flatMap allIds) := by
    have hdropcs : cs.drop idx = cs.getD idx (FNode.file 0 "") :: cs.drop (idx + 1) := by
      rw [List.drop_eq_getElem_cons hltcs]
      congr 1
      exact (List.getD_eq_getElem cs _ hltcs).symm
    have hsplitcs : cs = cs.take idx ++ cs.getD idx (FNode.file 0 "") :: cs.drop (idx + 1) := by
      conv_lhs => rw [← List.take_append_drop idx cs]
      rw [hdropcs]
    rw [List.eraseIdx_eq_take_drop_succ]
    conv_rhs => rw [hsplitcs]
    rw [List.flatMap_append, List.flatMap_append, List.flatMap_cons]
    refine List.Sublist.append (List.Sublist.refl _) ?_
    exact List.sublist_append_right _ _
  have hsubids : (allIds (updAt (setChildrenF (some (cs.eraseIdx idx))) p s.root)).Sublist
      (allIds s.root) := by
    rw [hupd, hchild, heq, allIds, subIds_dir]
    refine List.Sublist.append ?_ (List.Sublist.refl post)
    refine List.Sublist.append (List.Sublist.refl pre) ?_
    exact List.Sublist.cons₂ _ hsubfm
  refine ⟨?_, ?_, ?_⟩
  · exact goodB_canon_of_skel _ true
      (skelOKB_updAt_children _ hsorted2 hallsk p s.root (skelOKB_of_goodB _ true hg))
  · rw [allIds_canon]
    exact hnd.sublist hsubids
  · intro i hi
    rw [allIds_canon] at hi
    dsimp only
    exact hlt i (hsubids.subset hi)



theorem foldl_insAfter_pairwise :
    ∀ (l acc : List FNode), acc.Pairwise (fun a b => defaultLt b a = false) →
      (l.foldl (insAfter defaultLt) acc).Pairwise (fun a b => defaultLt b a = false) := by
  intro l
  induction l with
  | nil => intro acc h; exact h
  | cons x l ih =>
      intro acc h
      rw [List.foldl_cons]
      exact ih _ (insAfter_pairwise defaultLt (fun a b c => defaultLt_trans)
        (fun a b => defaultLt_asym) acc x h)

theorem jsSort_sorted (l : List FNode) : sortedB (jsSort defaultLt l) = true :=
  pairwise_sortedB _ (foldl_insAfter_pairwise l [] List.Pairwise.nil)

theorem mkFresh_goodB (i : Nat) (r : RawItem) : goodB (mkFresh i r) false = true := by
  rw [mkFresh]
  rcases h : r.isDir with _ | _
  · rw [if_neg (by simp), goodB_file]
  · rw [if_pos rfl, goodB_none]
    rfl

theorem mkFresh_expOf (i : Nat) (r : RawItem) : expOf (mkFresh i r) = false := by
  rw [mkFresh]
  rcases h : r.isDir with _ | _
  · rw [if_neg (by simp)]
    rfl
  · rw [if_pos rfl]
    rfl

theorem buildChildren_ids : ∀ (raw : List RawItem) (k nid : Nat),
    ((raw.enumFrom k).map (fun pr => mkFresh (nid + pr.1) pr.2)).flatMap allIds
      = List.range' (nid + k) raw.length := by
  intro raw
  induction raw with
  | nil => intro k nid; rfl
  | cons r raw ih =>
      intro k nid
      rw [List.enumFrom_cons, List.map_cons, List.flatMap_cons]
      have h1 : allIds (mkFresh (nid + k) r) = [nid + k] := (mkFresh_facts (nid + k) r).2.2.2.2.2.2
      rw [h1, ih (k + 1) nid, List.length_cons, List.range'_succ]
      have h2 : nid + (k + 1) = nid + k + 1 := by omega
      rw [h2]
      rfl

theorem buildChildren_mem {nid : Nat} {raw : List RawItem} {c : FNode}
    (hc : c ∈ buildChildren nid raw) : ∃ i r2, c = mkFresh i r2 := by
  rw [buildChildren] at hc
  have hc2 := (jsSort_perm defaultLt _).mem_iff.1 hc
  rcases List.mem_map.1 hc2 with ⟨pr, _, rfl⟩
  exact ⟨nid + pr.1, pr.2, rfl⟩

theorem buildChildren_perm (nid : Nat) (raw : List RawItem) :
    ((buildChildren nid raw).flatMap allIds).Perm (List.range' nid raw.length) := by
  rw [buildChildren]
  refine List.Perm.trans ((jsSort_perm defaultLt _).flatMap_right allIds) ?_
  have h := buildChildren_ids raw 0 nid
  rw [Nat.add_zero] at h
  have he : raw.enum = raw.enumFrom 0 := rfl
  rw [he, h]


theorem pairwise_replace {l1 l2 : List FNode} {c c2 : FNode}
    (hid : isDirN c2 = isDirN c) (hnm : nameOf c2 = nameOf c)
    (h : (l1 ++ c :: l2).Pairwise (fun a b => defaultLt b a = false)) :
    (l1 ++ c2 :: l2).Pairwise (fun a b => defaultLt b a = false) := by
  rw [List.pairwise_append] at h ⊢
  rcases h with ⟨hp1, hp2, hcross⟩
  rcases List.pairwise_cons.1 hp2 with ⟨hc, hp3⟩
  refine ⟨hp1, List.pairwise_cons.2 ⟨?_, hp3⟩, ?_⟩
  · intro y hy
    rw [defaultLt_congr rfl rfl hid hnm]
    exact hc y hy
  · intro x hx y hy
    rcases List.mem_cons.1 hy with rfl | hy2
    · rw [defaultLt_congr hid hnm rfl rfl]
      exact hcross x hx c (List.mem_cons_self _ _)
    · exact hcross x hx y (List.mem_cons_of_mem _ hy2)

theorem goodB_updAt_local :
    ∀ (p : List Nat) (n : FNode) (b : Bool) (g : FNode → FNode),
      goodB n b = true → (allIds n).Nodup →
      (∀ m, getAt p n = some m →
        goodB (g m) (b && decide (p = [])) = true
          ∧ contrib (g m) = contrib m
          ∧ isDirN (g m) = isDirN m ∧ nameOf (g m) = nameOf m) →
      goodB (updAt g p n) b = true
        ∧ contrib (updAt g p n) = contrib n
        ∧ isDirN (updAt g p n) = isDirN n ∧ nameOf (updAt g p n) = nameOf n := by
  intro p
  induction p with
  | nil =>
      intro n b g hg hnd hyp
      rcases hyp n (getAt_nil n) with ⟨h1, h2, h3, h4⟩
      rw [updAt_nil]
      refine ⟨?_, h2, h3, h4⟩
      have hb : (b && decide (([] : List Nat) = [])) = b := by simp
      rw [hb] at h1
      exact h1
  | cons i p ih =>
      intro n b g hg hnd hyp
      rw [updAt_cons]
      rcases hcs : childrenOf n with _ | cs
      · have hm : mapChildAt i (updAt g p) n = n := by
          cases n with
          | file a s => rfl
          | dir a s e ocs fl bs =>
              cases ocs with
              | none => rfl
              | some cs0 => cases hcs
        rw [hm]
        exact ⟨hg, rfl, rfl, rfl⟩
      · rcases hf : cs.find? (fun x => idOf x == i) with _ | c
        · have hgete : getAt (i :: p) n = none := by
            rw [getAt_cons, hcs]
            dsimp only [Option.bind]
            rw [hf]
          have hm : mapChildAt i (updAt g p) n = n := by
            cases n with
            | file a s => rfl
            | dir a s e ocs fl bs =>
                cases ocs with
                | none => cases hcs
                | some cs0 =>
                    have hcs0 : cs0 = cs := by
                      simp only [childrenOf] at hcs
                      exact Option.some.inj hcs
                    subst hcs0
                    rw [mapChildAt]
                    congr 2
                    refine (List.map_congr_left (fun x hx => ?_)).trans (List.map_id' cs0)
                    have hxne : (idOf x == i) = false := by
                      rcases hb : (idOf x == i) with _ | _
                      · rfl
                      · exfalso
                        have := List.find?_eq_none.1 hf x hx
                        rw [hb] at this
                        exact this rfl
                    rw [hxne]
                    rfl
          rw [hm]
          exact ⟨hg, rfl, rfl, rfl⟩
        · rcases find_child_split hcs hf hnd with ⟨l1, l2, hsplit, hl1, hl2, hci2⟩
          have hmem := List.mem_of_find?_eq_some hf
          have hgood := goodB_children hg hcs
          have hndc := nodup_child hcs hmem hnd
          have hgc : goodB c false = true := hgood c hmem
          have hyp2 : ∀ m, getAt p c = some m →
              goodB (g m) (false && decide (p = [])) = true
                ∧ contrib (g m) = contrib m
                ∧ isDirN (g m) = isDirN m ∧ nameOf (g m) = nameOf m := by
            intro m hm
            have hget : getAt (i :: p) n = some m := by
              rw [getAt_cons, hcs]
              dsimp only [Option.bind]
              rw [hf]
              exact hm
            have h5 := hyp m hget
            have hb1 : (b && decide ((i :: p : List Nat) = [])) = false := by simp
            have hb2 : (false && decide ((p : List Nat) = [])) = false := by simp
            rw [hb1] at h5
            rw [hb2]
            exact h5
          rcases ih c false g hgc hndc hyp2 with ⟨hg2, hc2, hd2, hn2⟩
          cases n with
          | file a s => cases hcs
          | dir a s e ocs fl bs =>
              cases ocs with
              | none => cases hcs
              | some cs0 =>
                  have hcs0 : cs0 = cs := by
                    simp only [childrenOf] at hcs
                    exact Option.some.inj hcs
                  subst hcs0
                  subst hsplit
                  rw [mapChildAt, map_guard_split _ hl1 hl2 hci2]
                  have hvs : visSeq (FNode.dir a s e (some (l1 ++ updAt g p c :: l2)) fl bs)
                      = visSeq (FNode.dir a s e (some (l1 ++ c :: l2)) fl bs) := by
                    rw [visSeq_dir, visSeq_dir, List.flatMap_append, List.flatMap_append,
                      List.flatMap_cons, List.flatMap_cons, hc2]
                  have hprops := goodB_props hcs hg
                  have hcontr : contrib (FNode.dir a s e (some (l1 ++ updAt g p c :: l2)) fl bs)
                      = contrib (FNode.dir a s e (some (l1 ++ c :: l2)) fl bs) := by
                    rw [contrib_eq, contrib_eq, hvs]
                    rfl
                  refine ⟨?_, hcontr, rfl, rfl⟩
                  rw [goodB_dir]
                  simp only [Bool.and_eq_true, beq_iff_eq, List.all_eq_true]
                  refine ⟨⟨⟨?_, ?_⟩, ?_⟩, ?_⟩
                  · rw [hvs]
                    exact hprops.1
                  · rw [hvs]
                    exact hprops.2.1
                  · refine pairwise_sortedB _ ?_
                    refine pairwise_replace hd2 hn2 ?_
                    exact sortedB_pairwise _ hprops.2.2
                  · intro x hx
                    rcases List.mem_append.1 hx with hx2 | hx2
                    · exact hgood x (List.mem_append_left _ hx2)
                    · rcases List.mem_cons.1 hx2 with rfl | hx3
                      · exact hg2
                      · exact hgood x (List.mem_append_right _ (List.mem_cons_of_mem _ hx3))

theorem flatMap_contrib_singleton : ∀ (l : List FNode),
    (∀ c ∈ l, contrib c = [idOf c]) → l.flatMap contrib = l.map idOf := by
  intro l
  induction l with
  | nil => intro _; rfl
  | cons c l ih =>
      intro h
      rw [List.flatMap_cons, List.map_cons, h c (List.mem_cons_self _ _),
        ih (fun x hx => h x (List.mem_cons_of_mem _ hx))]
      rfl

theorem buildChildren_facts (nid : Nat) (raw : List RawItem) :
    (∀ c ∈ buildChildren nid raw, goodB c false = true ∧ contrib c = [idOf c]
        ∧ skelOKB c = true ∧ allIds c = [idOf c] ∧ expOf c = false)
      ∧ sortedB (buildChildren nid raw) = true := by
  refine ⟨?_, jsSort_sorted _⟩
  intro c hc
  rcases buildChildren_mem hc with ⟨i, r2, rfl⟩
  rcases mkFresh_facts i r2 with ⟨-, -, -, -, hcc, hsk, hai⟩
  refine ⟨mkFresh_goodB i r2, ?_, hsk, ?_, mkFresh_expOf i r2⟩
  · rw [hcc]
  · rw [hai]
    congr 1
    rw [idOf_mkFresh]

theorem reloadF_goodB {ba sa : Nat} {sb : String} {ocs : Option (List FNode)}
    {fl : Option (List Nat)} {cs2 : List FNode} (b2 : Bool)
    (hall : ∀ c ∈ cs2, goodB c false = true ∧ contrib c = [idOf c])
    (hsorted : sortedB cs2 = true) :
    goodB (reloadF cs2 (FNode.dir ba sb false ocs fl sa)) b2 = true := by
  have hfm : cs2.flatMap contrib = cs2.map idOf :=
    flatMap_contrib_singleton _ (fun c hc => (hall c hc).2)
  rw [reloadF, goodB_dir]
  simp only [Bool.and_eq_true, beq_iff_eq, List.all_eq_true]
  refine ⟨⟨⟨?_, ?_⟩, hsorted⟩, fun c hc => (hall c hc).1⟩
  · rw [visSeq_dir, hfm, List.length_map]
  · rw [visSeq_dir, hfm]
    rw [if_pos ?_]
    rcases b2 with _ | _ <;> rfl

theorem Inv_reloadAt {s : TreeState} {p : List Nat} {raw : List RawItem} {br : FNode}
    (hInv : Inv s) (hget : getAt p s.root = some br)
    (hdir : isDirN br = true) (hcol : expOf br = false) :
    Inv (reloadAt s p raw) := by
  rcases hInv with ⟨hg, hnd, hlt⟩
  rcases br with ⟨ba, sb⟩ | ⟨ba, sb, e, ocs, fl, sa⟩
  · cases hdir
  have he : e = false := hcol
  subst he
  rcases buildChildren_facts s.nextId raw with ⟨hcfacts, hcsorted⟩
  rw [reloadAt]
  have hhyp : ∀ m, getAt p s.root = some m →
      goodB (reloadF (buildChildren s.nextId raw) m) (true && decide (p = [])) = true
        ∧ contrib (reloadF (buildChildren s.nextId raw) m) = contrib m
        ∧ isDirN (reloadF (buildChildren s.nextId raw) m) = isDirN m
        ∧ nameOf (reloadF (buildChildren s.nextId raw) m) = nameOf m := by
    intro m hm
    rw [hget] at hm
    have hmbr : m = FNode.dir ba sb false ocs fl sa := (Option.some.inj hm).symm
    subst hmbr
    refine ⟨reloadF_goodB _ (fun c hc => ⟨(hcfacts c hc).1, (hcfacts c hc).2.1⟩) hcsorted,
      ?_, rfl, rfl⟩
    rw [reloadF, contrib_eq, contrib_eq]
    rfl
  have hloc := goodB_updAt_local p s.root true (reloadF (buildChildren s.nextId raw))
    hg hnd hhyp
  rcases allIds_updAt p s.root _ hnd hget with ⟨pre, post, heq, hupd⟩
  have hgbrids : allIds (reloadF (buildChildren s.nextId raw) (FNode.dir ba sb false ocs fl sa))
      = ba :: (buildChildren s.nextId raw).flatMap allIds := by
    rw [reloadF, allIds, subIds_dir]
    rfl
  have hNperm : ((buildChildren s.nextId raw).flatMap allIds).Perm
      (List.range' s.nextId raw.length) := buildChildren_perm s.nextId raw
  have hperm2 : (allIds (updAt (reloadF (buildChildren s.nextId raw)) p s.root)).Perm
      ((pre ++ [ba] ++ post) ++ List.range' s.nextId raw.length) := by
    rw [hupd, hgbrids]
    have h1 : (ba :: (buildChildren s.nextId raw).flatMap allIds).Perm
        ([ba] ++ List.range' s.nextId raw.length) := hNperm.cons ba
    refine List.Perm.trans (List.Perm.append_right post (List.Perm.append_left pre h1)) ?_
    have ha1 : pre ++ ([ba] ++ List.range' s.nextId raw.length) ++ post
        = pre ++ [ba] ++ (List.range' s.nextId raw.length ++ post) := by
      simp [List.append_assoc]
    have ha2 : (pre ++ [ba] ++ post) ++ List.range' s.nextId raw.length
        = pre ++ [ba] ++ (post ++ List.range' s.nextId raw.length) := by
      simp [List.append_assoc]
    rw [ha1, ha2]
    exact List.Perm.append_left _ List.perm_append_comm
  have hsubold : (pre ++ [ba] ++ post).Sublist (allIds s.root) := by
    rw [heq]
    refine List.Sublist.append (List.Sublist.append (List.Sublist.refl pre) ?_)
      (List.Sublist.refl post)
    rw [allIds]
    exact List.Sublist.cons₂ ba (List.nil_sublist _)
  refine ⟨hloc.1, ?_, ?_⟩
  · refine hperm2.nodup_iff.2 ?_
    rw [List.nodup_append]
    refine ⟨hnd.sublist hsubold,
      List.nodup_range' s.nextId raw.length 1 Nat.one_pos, ?_⟩
    intro x hx
    have hxlt := hlt x (hsubold.subset hx)
    intro hx2
    have := (List.mem_range'_1).1 hx2
    omega
  · intro i hi
    dsimp only
    rcases List.mem_append.1 (hperm2.mem_iff.1 hi) with h1 | h1
    · have := hlt i (hsubold.subset h1)
      omega
    · have := (List.mem_range'_1).1 h1
      omega

theorem goodB_getAt_any {t : FNode} {p : List Nat} {br : FNode} (hg : goodB t true = true)
    (hget : getAt p t = some br) : ∃ bb, goodB br bb = true := by
  cases p with
  | nil =>
      have h5 : t = br := Option.some.inj hget
      exact ⟨true, h5 ▸ hg⟩
  | cons i rest =>
      exact ⟨false, goodB_getAt (i :: rest) true t br hg hget (by intro hx; cases hx)⟩

theorem collapsed_of_unloaded {n : FNode} {bb : Bool} (hg : goodB n bb = true)
    (hdir : isDirN n = true) (hnl : loadedB n = false) : expOf n = false := by
  rcases n with ⟨a, s⟩ | ⟨a, s, e, ocs, fl, bs⟩
  · cases hdir
  rcases ocs with _ | cs
  · rw [goodB_none] at hg
    simp only [Bool.and_eq_true, beq_iff_eq] at hg
    have h2 := hg.2
    rw [expOf]
    rcases he : e with _ | _
    · rfl
    · rw [he] at h2
      cases h2
  · rw [loadedB] at hnl
    cases hnl

theorem Inv_ensureLoadedM {s : TreeState} (p : List Nat) (raw : List RawItem) (h : Inv s) :
    Inv (ensureLoadedM s p raw) := by
  rw [ensureLoadedM]
  rcases hget : getAt p s.root with _ | n
  · exact h
  dsimp only
  by_cases hl : loadedB n
  · rw [if_pos hl]
    exact h
  · rw [if_neg hl]
    by_cases hd : isDirN n
    · rw [if_pos hd]
      rcases goodB_getAt_any h.1 hget with ⟨bb, hgbr⟩
      exact Inv_reloadAt h hget hd (collapsed_of_unloaded hgbr hd (by
        rcases hv : loadedB n with _ | _
        · rfl
        · exact absurd hv hl))
    · rw [if_neg hd]
      exact h

theorem Inv_initState (raw : List RawItem) : Inv (initState raw) := by
  rw [initState]
  rcases buildChildren_facts 1 raw with ⟨hcfacts, hcsorted⟩
  have hfm : (buildChildren 1 raw).flatMap contrib = (buildChildren 1 raw).map idOf :=
    flatMap_contrib_singleton _ (fun c hc => (hcfacts c hc).2.1)
  have hNperm : ((buildChildren 1 raw).flatMap allIds).Perm (List.range' 1 raw.length) :=
    buildChildren_perm 1 raw
  refine ⟨?_, ?_, ?_⟩
  · rw [goodB_dir]
    simp only [Bool.and_eq_true, beq_iff_eq, List.all_eq_true]
    refine ⟨⟨⟨?_, ?_⟩, hcsorted⟩, fun c hc => (hcfacts c hc).1⟩
    · rw [visSeq_dir, hfm, List.length_map]
    · rw [visSeq_dir, hfm]
      rfl
  · dsimp only
    rw [allIds, subIds_dir]
    refine ((hNperm.cons 0).nodup_iff).2 ?_
    rw [List.nodup_cons]
    refine ⟨?_, List.nodup_range' 1 raw.length 1 Nat.one_pos⟩
    intro hx
    have := (List.mem_range'_1).1 hx
    omega
  · intro i hi
    dsimp only at hi ⊢
    rw [allIds, subIds_dir] at hi
    have hi0 : i ∈ (0 : Nat) :: (buildChildren 1 raw).flatMap allIds := hi
    rcases List.mem_cons.1 hi0 with rfl | hi2
    · omega
    · have := (List.mem_range'_1).1 (hNperm.mem_iff.1 hi2)
      omega

theorem find?_map_plain (cs : List FNode) (i : Nat) (f : FNode → FNode)
    (hid : ∀ c, idOf (f c) = idOf c) :
    (cs.map f).find? (fun c => idOf c == i) = (cs.find? (fun c => idOf c == i)).map f := by
  induction cs with
  | nil => rfl
  | cons c cs ih =>
      by_cases h : (idOf c == i) = true
      · have h2 : (idOf (f c) == i) = true := by rw [hid]; exact h
        have h3 : List.find? (fun c => idOf c == i) (c :: cs) = some c :=
          List.find?_cons_of_pos _ h
        have h4 : List.find? (fun c => idOf c == i) (f c :: cs.map f) = some (f c) :=
          List.find?_cons_of_pos _ h2
        rw [List.map_cons, h4, h3]
        rfl
      · have h2 : ¬ ((idOf (f c) == i) = true) := by rw [hid]; exact h
        have h3 : List.find? (fun c => idOf c == i) (c :: cs)
            = List.find? (fun c => idOf c == i) cs :=
          List.find?_cons_of_neg _ h
        have h4 : List.find? (fun c => idOf c == i) (f c :: cs.map f)
            = List.find? (fun c => idOf c == i) (cs.map f) :=
          List.find?_cons_of_neg _ h2
        rw [List.map_cons, h4, h3, ih]

theorem getAt_canon : ∀ (q : List Nat) (b : Bool) (n : FNode), q ≠ [] →
    getAt q (canon b n) = (getAt q n).map (canon false) := by
  intro q
  induction q with
  | nil => intro b n h; exact absurd rfl h
  | cons i rest ih =>
      intro b n _
      rw [getAt_cons, getAt_cons, childrenOf_canon]
      rcases hcs : childrenOf n with _ | cs
      · rfl
      · dsimp only [Option.map_some', Option.bind]
        rw [find?_map_plain cs i _ (fun c => idOf_canon false c)]
        rcases hf : cs.find? (fun c => idOf c == i) with _ | c
        · rfl
        · dsimp only [Option.map_some']
          cases rest with
          | nil => rfl
          | cons j ext => exact ih false c (by intro h2; cases h2)

theorem allIds_setExpF (v : Bool) (n : FNode) : allIds (setExpF v n) = allIds n := by
  cases n with
  | file a s => rfl
  | dir a s e ocs fl bs =>
      cases ocs with
      | none =>
          rw [setExpF, allIds, allIds, subIds_none, subIds_none]
          rfl
      | some cs =>
          rw [setExpF, allIds, allIds, subIds_dir, subIds_dir]
          rfl

theorem skelOKB_updAt_local :
    ∀ (p : List Nat) (n : FNode) (g : FNode → FNode),
      skelOKB n = true → (allIds n).Nodup →
      (∀ m, getAt p n = some m → skelOKB (g m) = true
          ∧ isDirN (g m) = isDirN m ∧ nameOf (g m) = nameOf m) →
      skelOKB (updAt g p n) = true := by
  intro p
  induction p with
  | nil =>
      intro n g hsk hnd hyp
      rw [updAt_nil]
      exact (hyp n (getAt_nil n)).1
  | cons i p ih =>
      intro n g hsk hnd hyp
      rw [updAt_cons]
      rcases hcs : childrenOf n with _ | cs
      · have hm : mapChildAt i (updAt g p) n = n := by
          cases n with
          | file a s => rfl
          | dir a s e ocs fl bs =>
              cases ocs with
              | none => rfl
              | some cs0 => cases hcs
        rw [hm]
        exact hsk
      · rcases hf : cs.find? (fun x => idOf x == i) with _ | c
        · have hm : mapChildAt i (updAt g p) n = n := by
            cases n with
            | file a s => rfl
            | dir a s e ocs fl bs =>
                cases ocs with
                | none => cases hcs
                | some cs0 =>
                    have hcs0 : cs0 = cs := by
                      simp only [childrenOf] at hcs
                      exact Option.some.inj hcs
                    subst hcs0
                    rw [mapChildAt]
                    congr 2
                    refine (List.map_congr_left (fun x hx => ?_)).trans (List.map_id' cs0)
                    have hxne : (idOf x == i) = false := by
                      rcases hb : (idOf x == i) with _ | _
                      · rfl
                      · exfalso
                        have := List.find?_eq_none.1 hf x hx
                        rw [hb] at this
                        exact this rfl
                    rw [hxne]
                    rfl
          rw [hm]
          exact hsk
        · rcases find_child_split hcs hf hnd with ⟨l1, l2, hsplit, hl1, hl2, hci2⟩
          have hmem := List.mem_of_find?_eq_some hf
          have hndc := nodup_child hcs hmem hnd
          have hyp2 : ∀ m, getAt p c = some m → skelOKB (g m) = true
              ∧ isDirN (g m) = isDirN m ∧ nameOf (g m) = nameOf m := by
            intro m hm
            refine hyp m ?_
            rw [getAt_cons, hcs]
            dsimp only [Option.bind]
            rw [hf]
            exact hm
          cases n with
          | file a s => cases hcs
          | dir a s e ocs fl bs =>
              cases ocs with
              | none => cases hcs
              | some cs0 =>
                  have hcs0 : cs0 = cs := by
                    simp only [childrenOf] at hcs
                    exact Option.some.inj hcs
                  subst hcs0
                  subst hsplit
                  rw [skelOKB_dir] at hsk
                  simp only [Bool.and_eq_true, List.all_eq_true] at hsk
                  have hskc : skelOKB c = true :=
                    hsk.2 c (List.mem_append_right _ (List.mem_cons_self _ _))
                  rcases isDn : isDirN (updAt g p c) with _ | _
                  all_goals {
                    rw [mapChildAt, map_guard_split _ hl1 hl2 hci2, skelOKB_dir]
                    simp only [Bool.and_eq_true, List.all_eq_true]
                    have hud : isDirN (updAt g p c) = isDirN c := by
                      cases p with
                      | nil =>
                          rcases hyp2 c (getAt_nil c) with ⟨-, h2, -⟩
                          rw [updAt_nil]
                          exact h2
                      | cons j q2 => rw [updAt_cons, isDirN_mapChildAt]
                    have hun : nameOf (updAt g p c) = nameOf c := by
                      cases p with
                      | nil =>
                          rcases hyp2 c (getAt_nil c) with ⟨-, -, h3⟩
                          rw [updAt_nil]
                          exact h3
                      | cons j q2 => rw [updAt_cons, nameOf_mapChildAt]
                    refine ⟨pairwise_sortedB _ (pairwise_replace hud hun
                      (sortedB_pairwise _ hsk.1)), ?_⟩
                    intro x hx
                    rcases List.mem_append.1 hx with hx2 | hx2
                    · exact hsk.2 x (List.mem_append_left _ hx2)
                    · rcases List.mem_cons.1 hx2 with rfl | hx3
                      · exact ih c g hskc hndc hyp2
                      · exact hsk.2 x (List.mem_append_right _ (List.mem_cons_of_mem _ hx3))
                  }

theorem expandFold_fst : ∀ (chain : List (List Nat)) (t : FNode) (evs : List Ev),
    (chain.foldl (fun acc q => (expandStep acc.1 q, acc.2 ++ expandStepEvs acc.1 q))
        (t, evs)).1
      = chain.foldl (fun tt q => expandStep tt q) t := by
  intro chain
  induction chain with
  | nil => intro t evs; rfl
  | cons q chain ih =>
      intro t evs
      rw [List.foldl_cons, List.foldl_cons]
      exact ih _ _

theorem Inv_expandFold :
    ∀ (chain : List (List Nat)) (t : FNode),
      goodB t true = true → (allIds t).Nodup → loadedB t = true →
      (∀ q ∈ chain, q ≠ [] ∧ ∃ br, getAt q t = some br
          ∧ expOf br = false ∧ loadedB br = true) →
      chain.Pairwise (fun q q2 => ∃ i ext, q2 = q ++ i :: ext) →
      goodB (chain.foldl (fun tt q => expandStep tt q) t) true = true
        ∧ allIds (chain.foldl (fun tt q => expandStep tt q) t) = allIds t
        ∧ loadedB (chain.foldl (fun tt q => expandStep tt q) t) = true := by
  intro chain
  induction chain with
  | nil =>
      intro t hg hnd hload _ _
      exact ⟨hg, rfl, hload⟩
  | cons q chain ih =>
      intro t hg hnd hload hcond hpair
      rw [List.foldl_cons]
      rcases hcond q (List.mem_cons_self _ _) with ⟨hqne, br, hget, hcoll, hloadbr⟩
      have hstep := expandStep_canon hg hnd hqne hget hcoll hloadbr hload
      have hgbr : goodB br false = true := goodB_getAt q true t br hg hget hqne
      have hskbr := skelOKB_of_goodB br false hgbr
      have hsk : skelOKB (updAt (setExpF true) q t) = true := by
        refine skelOKB_updAt_local q t _ (skelOKB_of_goodB t true hg) hnd ?_
        intro m hm
        rw [hget] at hm
        have hmbr : m = br := (Option.some.inj hm).symm
        subst hmbr
        rcases m with ⟨a, s⟩ | ⟨a, s, e2, ocs, fl2, bs2⟩
        · exact ⟨hskbr, rfl, rfl⟩
        rcases ocs with _ | cs2
        · rw [loadedB] at hloadbr
          cases hloadbr
        · refine ⟨?_, rfl, rfl⟩
          rw [setExpF]
          rw [skelOKB_dir] at hskbr ⊢
          exact hskbr
      have hgood2 : goodB (expandStep t q) true = true := by
        rw [hstep]
        exact goodB_canon_of_skel _ true hsk
      have hallIds2 : allIds (expandStep t q) = allIds t := by
        rw [hstep, allIds_canon]
        rcases allIds_updAt q t br hnd hget with ⟨pre, post, heq, hupd⟩
        rw [hupd, allIds_setExpF, ← heq]
      have hload2 : loadedB (expandStep t q) = true := by
        rw [hstep, loadedB_canon]
        cases q with
        | nil => exact absurd rfl hqne
        | cons i rest =>
            rw [updAt_cons, loadedB, childrenOf_mapChildAt]
            rw [loadedB] at hload
            rcases hct : childrenOf t with _ | cs
            · rw [hct] at hload
              exact Bool.noConfusion hload
            · rfl
      have hcond2 : ∀ q2 ∈ chain, q2 ≠ [] ∧ ∃ br2, getAt q2 (expandStep t q) = some br2
          ∧ expOf br2 = false ∧ loadedB br2 = true := by
        intro q2 hq2
        rcases hcond q2 (List.mem_cons_of_mem _ hq2) with ⟨hq2ne, br2, hget2, hcol2, hl2⟩
        rcases (List.pairwise_cons.1 hpair).1 q2 hq2 with ⟨i, ext, rfl⟩
        refine ⟨hq2ne, canon false br2, ?_, ?_, ?_⟩
        · rw [hstep, getAt_canon _ true _ hq2ne,
            getAt_updAt_future _ (fun m => idOf_setExpF true m)
              (fun m => childrenOf_setExpF true m) q i ext t, hget2]
          rfl
        · rw [expOf_canon]
          exact hcol2
        · rw [loadedB_canon]
          exact hl2
      have hrec := ih (expandStep t q) hgood2 (by rw [hallIds2]; exact hnd) hload2 hcond2
        (List.pairwise_cons.1 hpair).2
      exact ⟨hrec.1, hrec.2.1.trans hallIds2, hrec.2.2⟩

theorem take_ext {p : List Nat} {a b : Nat} (hab : a < b) (hb : b ≤ p.length) :
    ∃ i ext, p.take b = p.take a ++ i :: ext := by
  have h1 : b = a + (b - a) := by omega
  have hsplit : p.take b = p.take a ++ (p.drop a).take (b - a) := by
    conv_lhs => rw [h1]
    rw [List.take_add]
  rcases hd : p.drop a with _ | ⟨i, ds⟩
  · exfalso
    have := List.drop_eq_nil_iff_le.1 hd
    omega
  · refine ⟨i, ds.take (b - a - 1), ?_⟩
    rw [hsplit, hd]
    have h2 : b - a = (b - a - 1) + 1 := by omega
    rw [h2]
    rfl

theorem chain_pairwise (t2 : FNode) (p : List Nat) (hp : p ≠ []) :
    (collapsedAncestorPaths t2 p ++ [p]).Pairwise
      (fun q q2 => ∃ i ext, q2 = q ++ i :: ext) := by
  have hppos : 0 < p.length := by
    cases p with
    | nil => exact absurd rfl hp
    | cons x xs => simp
  rw [List.pairwise_append]
  have hsub : (collapsedAncestorPaths t2 p).Sublist
      ((List.range (p.length - 1)).map (fun k => p.take (k + 1))) :=
    List.filter_sublist _
  have hmemtake : ∀ q ∈ collapsedAncestorPaths t2 p,
      ∃ k, k < p.length - 1 ∧ q = p.take (k + 1) := by
    intro q hq
    have hq2 := hsub.subset hq
    rcases List.mem_map.1 hq2 with ⟨k, hk, rfl⟩
    exact ⟨k, List.mem_range.1 hk, rfl⟩
  refine ⟨?_, List.pairwise_singleton _ _, ?_⟩
  · refine List.Pairwise.sublist hsub ?_
    rw [List.pairwise_map]
    have hbase : (List.range (p.length - 1)).Pairwise
        (fun a b => a < b ∧ b < p.length - 1) := by
      refine List.Pairwise.imp_of_mem ?_ (List.pairwise_lt_range (p.length - 1))
      intro a b _ hbm hab
      exact ⟨hab, List.mem_range.1 hbm⟩
    refine List.Pairwise.imp ?_ hbase
    intro a b hab
    exact take_ext (by omega) (by omega)
  · intro q hq q2 hq2
    have hq2p : p = q2 := (List.mem_singleton.1 hq2).symm
    subst hq2p
    rcases hmemtake q hq with ⟨k, hk, rfl⟩
    rcases take_ext (show k + 1 < p.length by omega) (le_refl p.length)
      with ⟨i, ext, hext⟩
    rw [List.take_length] at hext
    exact ⟨i, ext, hext⟩

theorem idOf_reloadF (cs : List FNode) (m : FNode) : idOf (reloadF cs m) = idOf m := by
  cases m <;> rfl

theorem expOf_reloadF (cs : List FNode) (m : FNode) : expOf (reloadF cs m) = expOf m := by
  cases m <;> rfl

theorem loadedB_reloadF {cs : List FNode} {m : FNode} (hdir : isDirN m = true) :
    loadedB (reloadF cs m) = true := by
  cases m with
  | file a s => cases hdir
  | dir a s e ocs fl bs => rfl

theorem Inv_expandCore {s1 : TreeState} {p : List Nat} {br1 : FNode} (ev : Bool)
    (hInv1 : Inv s1) (hpne : p ≠ [])
    (hget1 : getAt p s1.root = some br1)
    (hexp1 : expOf br1 = false) (hload1 : loadedB br1 = true)
    (hloadroot : loadedB s1.root = true) :
    Inv ⟨(expandFold s1.root
        ((if ev then collapsedAncestorPaths s1.root p else []) ++ [p])).1, s1.nextId⟩ := by
  rcases hInv1 with ⟨hg1, hnd1, hlt1⟩
  have hppos : 0 < p.length := by
    cases p with
    | nil => exact absurd rfl hpne
    | cons x xs => simp
  have hc : ∀ q ∈ (if ev then collapsedAncestorPaths s1.root p else []) ++ [p],
      q ≠ [] ∧ ∃ brq, getAt q s1.root = some brq
        ∧ expOf brq = false ∧ loadedB brq = true := by
    intro q hq
    rcases List.mem_append.1 hq with hq1 | hq1
    · rcases hev : ev with _ | _
      · rw [hev] at hq1
        cases hq1
      · rw [hev] at hq1
        rw [collapsedAncestorPaths] at hq1
        rcases List.mem_filter.1 hq1 with ⟨hqmem, hpred⟩
        rcases List.mem_map.1 hqmem with ⟨k, hk, rfl⟩
        have hkr := List.mem_range.1 hk
        have hpt : (p.take (k + 1)).length = k + 1 := by
          rw [List.length_take]
          omega
        refine ⟨?_, ?_⟩
        · intro hcon
          rw [hcon] at hpt
          cases hpt
        · rcases hgq : getAt (p.take (k + 1)) s1.root with _ | y
          · rw [hgq] at hpred
            cases hpred
          · rw [hgq] at hpred
            dsimp only at hpred
            refine ⟨y, rfl, ?_, ?_⟩
            · rcases hey : expOf y with _ | _
              · rfl
              · rw [hey] at hpred
                cases hpred
            · exact getAt_take_loaded hget1 (show k + 1 < p.length by omega) y hgq
    · have hqp : p = q := (List.mem_singleton.1 hq1).symm
      subst hqp
      exact ⟨hpne, br1, hget1, hexp1, hload1⟩
  have hpair : ((if ev then collapsedAncestorPaths s1.root p else []) ++ [p]).Pairwise
      (fun q q2 => ∃ i ext, q2 = q ++ i :: ext) := by
    rcases hev : ev with _ | _
    · simp only [Bool.false_eq_true, if_false, List.nil_append]
      exact List.pairwise_singleton _ _
    · simp only [if_true]
      exact chain_pairwise s1.root p hpne
  have hfold := Inv_expandFold _ s1.root hg1 hnd1 hloadroot hc hpair
  rw [expandFold, expandFold_fst]
  exact ⟨hfold.1, by rw [hfold.2.1]; exact hnd1, fun i hi => hlt1 i (by rw [← hfold.2.1]; exact hi)⟩

theorem Inv_setExpandedM {s : TreeState} (p : List Nat) (ev : Bool) (raw : List RawItem)
    (h : Inv s) : Inv (setExpandedM s p ev raw).1 := by
  cases p with
  | nil => exact h
  | cons i0 r0 =>
      rw [setExpandedM]
      rcases hget : getAt (i0 :: r0) s.root with _ | br
      · exact h
      dsimp only
      by_cases hexp : expOf br = true
      · rw [if_pos hexp]
        exact h
      rw [if_neg hexp]
      have hexpF : expOf br = false := by
        rcases hv : expOf br with _ | _
        · rfl
        · exact absurd hv hexp
      by_cases hdir : isDirN br = true
      · rw [if_neg (show ¬ ((!isDirN br) = true) by rw [hdir]; simp)]
        dsimp only
        by_cases hld : loadedB br = true
        · rw [if_pos hld]
          refine Inv_expandCore ev h (by intro hx; cases hx) hget hexpF hld ?_
          rw [getAt_cons] at hget
          rcases hct : childrenOf s.root with _ | cs
          · rw [hct] at hget
            cases hget
          · rw [loadedB, hct]
            rfl
        · rw [if_neg hld]
          have hInv1 : Inv (reloadAt s (i0 :: r0) raw) := Inv_reloadAt h hget hdir hexpF
          have hroot1 : (reloadAt s (i0 :: r0) raw).root
              = updAt (reloadF (buildChildren s.nextId raw)) (i0 :: r0) s.root := rfl
          have hget1 : getAt (i0 :: r0) (reloadAt s (i0 :: r0) raw).root
              = some (reloadF (buildChildren s.nextId raw) br) := by
            rw [hroot1, getAt_updAt _ (fun m => idOf_reloadF _ m), hget]
            rfl
          refine Inv_expandCore ev hInv1 (by intro hx; cases hx) hget1 ?_ ?_ ?_
          · rw [expOf_reloadF]
            exact hexpF
          · exact loadedB_reloadF hdir
          · rw [getAt_cons] at hget1
            rcases hct : childrenOf (reloadAt s (i0 :: r0) raw).root with _ | cs
            · rw [hct] at hget1
              cases hget1
            · rw [loadedB, hct]
              rfl
      · rw [if_pos (show (!isDirN br) = true by
          rcases hv : isDirN br with _ | _
          · rfl
          · exact absurd hv hdir)]
        exact h

theorem skelOKB_setExpF_false {m : FNode} (h : skelOKB m = true) :
    skelOKB (setExpF false m) = true := by
  cases m with
  | file a s => exact h
  | dir a s e ocs fl bs =>
      cases ocs with
      | none =>
          rw [setExpF, skelOKB_none]
          rfl
      | some cs =>
          rw [setExpF, skelOKB_dir]
          rw [skelOKB_dir] at h
          exact h

theorem Inv_setCollapsedM {s : TreeState} (p : List Nat) (h : Inv s) :
    Inv (setCollapsedM s p).1 := by
  cases p with
  | nil => exact h
  | cons i0 r0 =>
      rw [setCollapsedM]
      rcases hget : getAt (i0 :: r0) s.root with _ | br
      · exact h
      dsimp only
      by_cases hexp : expOf br = true
      · rw [if_neg (show ¬ ((!expOf br) = true) by rw [hexp]; simp)]
        dsimp only
        have hgbr : goodB br false = true :=
          goodB_getAt (i0 :: r0) true s.root br h.1 hget (by intro hx; cases hx)
        have hld : loadedB br = true := loaded_of_expanded hgbr hexp
        rw [if_pos hld]
        have hroot : loadedB s.root = true := by
          rw [getAt_cons] at hget
          rcases hct : childrenOf s.root with _ | cs
          · rw [hct] at hget
            cases hget
          · rw [loadedB, hct]
            rfl
        have hstep := collapseStep_canon h.1 h.2.1 (by intro hx; cases hx) hget hexp hroot
        rw [hstep]
        have hsk : skelOKB (updAt (setExpF false) (i0 :: r0) s.root) = true := by
          refine skelOKB_updAt_local _ s.root _ (skelOKB_of_goodB s.root true h.1) h.2.1 ?_
          intro m hm
          rw [hget] at hm
          have hmbr : m = br := (Option.some.inj hm).symm
          subst hmbr
          refine ⟨skelOKB_setExpF_false (skelOKB_of_goodB m false hgbr), ?_, ?_⟩
          · cases m <;> rfl
          · cases m <;> rfl
        have hids : allIds (canon true (updAt (setExpF false) (i0 :: r0) s.root))
            = allIds s.root := by
          rw [allIds_canon]
          rcases allIds_updAt (i0 :: r0) s.root br h.2.1 hget with ⟨pre, post, heq, hupd⟩
          rw [hupd, allIds_setExpF, ← heq]
        refine ⟨goodB_canon_of_skel _ true hsk, ?_, ?_⟩
        · rw [hids]
          exact h.2.1
        · intro i hi
          rw [hids] at hi
          exact h.2.2 i hi
      · rw [if_pos (show (!expOf br) = true by
          rcases hv : expOf br with _ | _
          · rfl
          · exact absurd hv hexp)]
        exact h

theorem Inv_applyOp {s : TreeState} (op : Op) (h : Inv s) : Inv (applyOp s op) := by
  cases op with
  | expand p ev raw => exact Inv_setExpandedM p ev raw h
  | collapse p => exact Inv_setCollapsedM p h
  | added p r => exact Inv_addedM p r h
  | removed p f => exact Inv_removedM p f h
  | load p raw => exact Inv_ensureLoadedM p raw h

theorem Inv_run {s : TreeState} (ops : List Op) (h : Inv s) : Inv (run s ops) := by
  rw [run]
  induction ops generalizing s with
  | nil => exact h
  | cons op ops ih =>
      rw [List.foldl_cons]
      exact ih (Inv_applyOp op h)

theorem flatten_flatMap {α : Type} (f : α → List (List Nat)) :
    ∀ (l : List α), (l.flatMap f).flatten = l.flatMap (fun x => (f x).flatten) := by
  intro l
  induction l with
  | nil => rfl
  | cons a l ih => rw [List.flatMap_cons, List.flatMap_cons, List.flatten_append, ih]

theorem flats_perm : ∀ (n : FNode) (b : Bool), goodB n b = true →
    ((if b == false && expOf n then visSeq n else []) ++ (allFlats n).flatten).Perm
      (subIds n) := by
  intro n
  induction n using visSeq.induct with
  | case1 a s =>
      intro b _
      rw [allFlats_file, subIds_file]
      rcases (b == false && expOf (FNode.file a s)) with _ | _
      · exact List.Perm.refl _
      · rw [visSeq_file]
        exact List.Perm.refl _
  | case2 a s e fl bs =>
      intro b hg
      rw [goodB_none] at hg
      simp only [Bool.and_eq_true, beq_iff_eq] at hg
      rcases hg with ⟨⟨-, hfl⟩, he⟩
      subst hfl
      rw [allFlats_none, subIds_none]
      have hunc : (b == false && expOf (FNode.dir a s e none none bs)) = false := by
        rw [show expOf (FNode.dir a s e none none bs) = e from rfl, he, Bool.and_false]
      rw [hunc, if_neg (by simp)]
      exact List.Perm.refl _
  | case3 a s e cs fl bs ih =>
      intro b hg
      have hcs : childrenOf (FNode.dir a s e (some cs) fl bs) = some cs := rfl
      have hprops := goodB_props hcs hg
      have hgood := goodB_children hg hcs
      have hfl := hprops.2.1
      rw [flatOf] at hfl
      have hvis : visSeq (FNode.dir a s e (some cs) fl bs) = cs.flatMap contrib :=
        visSeq_dir a s e cs fl bs
      have hIH : ∀ c ∈ cs, (contrib c ++ (allFlats c).flatten).Perm (allIds c) := by
        intro c hc
        have h2 := ih ⟨c, hc⟩ false (hgood c hc)
        have hsimp : (if (false == false && expOf c) = true then visSeq c else [])
            = (if expOf c then visSeq c else []) := by
          rcases expOf c with _ | _ <;> rfl
        rw [hsimp] at h2
        rw [contrib_eq, allIds, List.cons_append]
        exact h2.cons (idOf c)
      have hmain : (cs.flatMap contrib ++ (cs.flatMap allFlats).flatten).Perm
          (cs.flatMap allIds) := by
        rw [flatten_flatMap]
        refine List.Perm.trans (List.flatMap_append_perm cs contrib _) ?_
        exact List.Perm.flatMap_left cs hIH
      rw [allFlats_dir, List.flatten_append, subIds_dir]
      cases b with
      | true =>
          have hfl2 : fl = some (cs.flatMap contrib) := by
            rw [hfl, if_pos (by rw [Bool.true_or]), hvis]
          rw [hfl2]
          have hunc : ((true : Bool) == false
              && expOf (FNode.dir a s e (some cs) (some (cs.flatMap contrib)) bs))
              = false := rfl
          rw [hunc, if_neg (by simp)]
          simp only [List.nil_append, Option.toList_some, List.flatten_cons,
            List.flatten_nil, List.append_nil]
          exact hmain
      | false =>
          cases e with
          | true =>
              have hfl2 : fl = none := by
                rw [hfl, if_neg ?_]
                rw [show expOf (FNode.dir a s true (some cs) fl bs) = true from rfl]
                simp
              rw [hfl2]
              have hunc : ((false : Bool) == false
                  && expOf (FNode.dir a s true (some cs) none bs)) = true := rfl
              rw [hunc, if_pos rfl]
              rw [show visSeq (FNode.dir a s true (some cs) none bs) = cs.flatMap contrib
                from visSeq_dir a s true cs none bs]
              simp only [Option.toList_none, List.flatten_nil, List.nil_append]
              exact hmain
          | false =>
              have hfl2 : fl = some (cs.flatMap contrib) := by
                rw [hfl, if_pos ?_, hvis]
                rw [show expOf (FNode.dir a s false (some cs) fl bs) = false from rfl]
                rfl
              rw [hfl2]
              have hunc : ((false : Bool) == false
                  && expOf (FNode.dir a s false (some cs) (some (cs.flatMap contrib)) bs))
                  = false := rfl
              rw [hunc, if_neg (by simp)]
              simp only [List.nil_append, Option.toList_some, List.flatten_cons,
                List.flatten_nil, List.append_nil]
              exact hmain

theorem ownershipOKB_of_goodB : ∀ (n : FNode) (b : Bool), goodB n b = true →
    ownershipOKB n b = true := by
  intro n
  induction n using visSeq.induct with
  | case1 a s =>
      intro b _
      rw [ownershipOKB]
  | case2 a s e fl bs =>
      intro b hg
      rw [goodB_none] at hg
      simp only [Bool.and_eq_true, beq_iff_eq] at hg
      rw [ownershipOKB, hg.1.2]
      rfl
  | case3 a s e cs fl bs ih =>
      intro b hg
      have hcs : childrenOf (FNode.dir a s e (some cs) fl bs) = some cs := rfl
      have hprops := goodB_props hcs hg
      have hgood := goodB_children hg hcs
      rw [ownershipOKB]
      simp only [Bool.and_eq_true, beq_iff_eq, List.all_eq_true]
      constructor
      · have h2 := hprops.2.1
        rw [flatOf] at h2
        have h3 : expOf (FNode.dir a s e (some cs) fl bs) = e := rfl
        rw [h3] at h2
        exact h2
      · intro c hc
        exact ih c false (hgood c.1 c.2)

/-- C1: starting from a freshly loaded tree, after any sequence of expand,
collapse, insert (watcher add) and unlink (watcher remove) operations, every
flat array in the tree is owned by a Branch that is the root or currently
collapsed and holds exactly that branch's visible sequence (`ownershipOKB`),
and the concatenation of all flat arrays is a permutation of the set of all
node ids below the root, each occurring exactly once: no id is duplicated or
lost, and each is covered by exactly one array, the one owned by its lowest
root-or-collapsed ancestor. -/
theorem c1_ownership (raw : List RawItem) (ops : List Op) :
    ownershipOKB (run (initState raw) ops).root true = true
      ∧ ((allFlats (run (initState raw) ops).root).flatten).Perm
          (subIds (run (initState raw) ops).root)
      ∧ ((allFlats (run (initState raw) ops).root).flatten).Nodup := by
  rcases Inv_run ops (Inv_initState raw) with ⟨hg, hnd, -⟩
  have hperm := flats_perm _ true hg
  have hunc : ((true : Bool) == false
      && expOf (run (initState raw) ops).root) = false := rfl
  rw [hunc, if_neg (by simp), List.nil_append] at hperm
  refine ⟨ownershipOKB_of_goodB _ true hg, hperm, ?_⟩
  have hnd2 : (idOf (run (initState raw) ops).root
      :: subIds (run (initState raw) ops).root).Nodup := hnd
  exact hperm.nodup_iff.2 (List.nodup_cons.1 hnd2).2

/-- C2: after any operation sequence from a freshly loaded tree, the
`_branchSize` of every loaded directory reachable in the tree equals the
length of the depth-first visible sequence rooted at it, and whenever the
root holds a flat array the root's `_branchSize` equals that array's
length (the total row count exposed to callers). -/
theorem c2_sizes (raw : List RawItem) (ops : List Op) :
    (∀ (p : List Nat) (n : FNode), getAt p (run (initState raw) ops).root = some n →
        loadedB n = true → bSizeOf n = (visSeq n).length)
      ∧ ∀ F, flatOf (run (initState raw) ops).root = some F →
          bSizeOf (run (initState raw) ops).root = F.length := by
  rcases Inv_run ops (Inv_initState raw) with ⟨hg, -, -⟩
  constructor
  · intro p n hget hload
    rcases goodB_getAt_any hg hget with ⟨bb, hgn⟩
    rw [loadedB] at hload
    rcases hcs : childrenOf n with _ | cs
    · rw [hcs] at hload
      exact Bool.noConfusion hload
    · exact (goodB_props hcs hgn).1
  · intro F hfl
    have hFv : F = visSeq (run (initState raw) ops).root := flat_eq_visSeq hg hfl
    rw [hFv]
    rcases hcs : childrenOf (run (initState raw) ops).root with _ | cs
    · exfalso
      rcases hroot : (run (initState raw) ops).root with ⟨a2, s2⟩ | ⟨a2, s2, e2, ocs2, fl2, bs2⟩
      · rw [hroot] at hfl
        cases hfl
      · rw [hroot] at hcs hfl hg
        rcases ocs2 with _ | cs2
        · rw [goodB_none] at hg
          simp only [Bool.and_eq_true, beq_iff_eq] at hg
          rw [flatOf, hg.1.2] at hfl
          cases hfl
        · cases hcs
    · exact (goodB_props hcs hg).1

/-- C2 witness: in the freshly loaded single-directory tree the root's flat
array is [1] and its branchSize is that array's length. -/
theorem c2_witness :
    flatOf (run (initState [⟨"a", true⟩]) []).root = some [1]
      ∧ bSizeOf (run (initState [⟨"a", true⟩]) []).root = ([1] : List Nat).length := by
  refine ⟨rfl, ?_⟩
  exact (c2_sizes [⟨"a", true⟩] []).2 [1] rfl

/-- C3 counterexample: in the tree over directory a (id 1) holding directory
b (id 2), both loaded and collapsed, expanding b (a `setExpanded` call with
`ensureVisible`, the reconciler's mode) and immediately collapsing it does
not restore the pre-expand state: `ensureVisible` expanded the collapsed
ancestor a on the way, and collapsing b does not undo that, so the root's
flat array grows from [1] to [1, 2] and the root and a keep the larger
branch sizes. -/
theorem c3_counterexample :
    (getAt [1, 2] (run (initState [⟨"a", true⟩])
          [Op.load [1] [⟨"b", true⟩], Op.load [1, 2] []]).root).map
        (fun n => (loadedB n, expOf n)) = some (true, false)
      ∧ flatOf (run (initState [⟨"a", true⟩])
          [Op.load [1] [⟨"b", true⟩], Op.load [1, 2] []]).root = some [1]
      ∧ bSizeOf (run (initState [⟨"a", true⟩])
          [Op.load [1] [⟨"b", true⟩], Op.load [1, 2] []]).root = 1
      ∧ flatOf (setCollapsedM (setExpandedM (run (initState [⟨"a", true⟩])
            [Op.load [1] [⟨"b", true⟩], Op.load [1, 2] []]) [1, 2] true []).1
            [1, 2]).1.root = some [1, 2]
      ∧ bSizeOf (setCollapsedM (setExpandedM (run (initState [⟨"a", true⟩])
            [Op.load [1] [⟨"b", true⟩], Op.load [1, 2] []]) [1, 2] true []).1
            [1, 2]).1.root = 2 := by
  decide

/-- C3 (amended): for a loaded, collapsed directory at a nonempty path in an
invariant-satisfying tree, expanding and immediately collapsing it restores
the entire tree state exactly - every branchSize, every flat array and the id
counter - provided the `ensureVisible` recursion has no collapsed proper
ancestor to expand (in particular whenever `ensureVisible` is false, or the
directory was already visible). -/
theorem c3_roundtrip {s : TreeState} {p : List Nat} {br : FNode} (ev : Bool)
    (raw : List RawItem) (hInv : Inv s) (hpne : p ≠ [])
    (hget : getAt p s.root = some br)
    (hcol : expOf br = false) (hload : loadedB br = true)
    (hanc : ev = true → collapsedAncestorPaths s.root p = []) :
    (setCollapsedM (setExpandedM s p ev raw).1 p).1 = s := by
  rcases hInv with ⟨hg, hnd, hlt⟩
  have hdir : isDirN br = true := isDirN_of_loaded hload
  have hroot : loadedB s.root = true := by
    cases p with
    | nil => exact absurd rfl hpne
    | cons i0 r0 =>
        rw [getAt_cons] at hget
        rcases hct : childrenOf s.root with _ | cs
        · rw [hct] at hget
          cases hget
        · rw [loadedB, hct]
          rfl
  have hchain : (if ev then collapsedAncestorPaths s.root p else []) ++ [p] = [p] := by
    rcases hev : ev with _ | _
    · rfl
    · rw [if_pos rfl, hanc hev]
      rfl
  have hexpandedEq : (setExpandedM s p ev raw).1
      = ⟨expandStep s.root p, s.nextId⟩ := by
    cases p with
    | nil => exact absurd rfl hpne
    | cons i0 r0 =>
        rw [setExpandedM, hget]
        dsimp only
        rw [if_neg (show ¬ (expOf br = true) by rw [hcol]; simp)]
        rw [if_neg (show ¬ ((!isDirN br) = true) by rw [hdir]; simp)]
        dsimp only
        rw [if_pos hload, hchain, expandFold, List.foldl_cons, List.foldl_nil]
  have hstep1 : expandStep s.root p = canon true (updAt (setExpF true) p s.root) :=
    expandStep_canon hg hnd hpne hget hcol hload hroot
  have hget2 : getAt p (canon true (updAt (setExpF true) p s.root))
      = some (canon false (setExpF true br)) := by
    rw [getAt_canon p true _ hpne, getAt_updAt _ (fun m => idOf_setExpF true m), hget]
    rfl
  have hInv2 : Inv (setExpandedM s p ev raw).1 := Inv_setExpandedM p ev raw ⟨hg, hnd, hlt⟩
  rw [hexpandedEq] at hInv2
  have hg2 : goodB (canon true (updAt (setExpF true) p s.root)) true = true := by
    have h2 := hInv2.1
    rw [hstep1] at h2
    exact h2
  have hnd2 : (allIds (canon true (updAt (setExpF true) p s.root))).Nodup := by
    have h2 := hInv2.2.1
    rw [hstep1] at h2
    exact h2
  have hexp2 : expOf (canon false (setExpF true br)) = true := by
    rw [expOf_canon]
    exact expOf_setExpF_dir true hdir
  have hload2 : loadedB (canon false (setExpF true br)) = true := by
    rw [loadedB_canon, loadedB, childrenOf_setExpF]
    rw [loadedB] at hload
    exact hload
  have hroot2 : loadedB (canon true (updAt (setExpF true) p s.root)) = true := by
    rw [loadedB_canon]
    cases p with
    | nil => exact absurd rfl hpne
    | cons i0 r0 =>
        rw [updAt_cons, loadedB, childrenOf_mapChildAt]
        rw [loadedB] at hroot
        rcases hct : childrenOf s.root with _ | cs
        · rw [hct] at hroot
          exact Bool.noConfusion hroot
        · rfl
  have hstep2 := collapseStep_canon hg2 hnd2 hpne hget2 hexp2 hroot2
  have hcollapsedEq : (setCollapsedM
        ⟨canon true (updAt (setExpF true) p s.root), s.nextId⟩ p).1
      = ⟨updAt (setExpF false) p
          (shrinkStep (canon true (updAt (setExpF true) p s.root)) p), s.nextId⟩ := by
    cases p with
    | nil => exact absurd rfl hpne
    | cons i0 r0 =>
        rw [setCollapsedM]
        rw [show (⟨canon true (updAt (setExpF true) (i0 :: r0) s.root), s.nextId⟩
            : TreeState).root = canon true (updAt (setExpF true) (i0 :: r0) s.root) from rfl]
        rw [hget2]
        dsimp only
        rw [if_neg (show ¬ ((!expOf (canon false (setExpF true br))) = true) by
          rw [hexp2]; simp)]
        dsimp only
        rw [if_pos hload2]
  rw [hexpandedEq, hstep1, hcollapsedEq, hstep2]
  rw [canon_updAt_setExpF_canon false p (updAt (setExpF true) p s.root) true]
  rw [updAt_updAt _ _ (fun m => idOf_setExpF true m) p s.root]
  rw [updAt_congr _ (setExpF false) (fun m => setExpF_setExpF false true m) p s.root]
  rw [updAt_fix _ p s.root br hnd hget (setExpF_self hcol)]
  rw [canon_of_goodB s.root true hg]

/-- C3 witness: in the loaded single-directory tree, expanding the loaded,
collapsed directory a and collapsing it again restores the state exactly. -/
theorem c3_roundtrip_witness :
    Inv (run (initState [⟨"a", true⟩]) [Op.load [1] []])
      ∧ getAt [1] (run (initState [⟨"a", true⟩]) [Op.load [1] []]).root
          = some (FNode.dir 1 "a" false (some []) (some []) 0)
      ∧ (setCollapsedM (setExpandedM (run (initState [⟨"a", true⟩]) [Op.load [1] []])
            [1] true []).1 [1]).1
          = run (initState [⟨"a", true⟩]) [Op.load [1] []] := by
  refine ⟨Inv_run [Op.load [1] []] (Inv_initState [⟨"a", true⟩]), rfl, ?_⟩
  exact c3_roundtrip true [] (Inv_run [Op.load [1] []] (Inv_initState [⟨"a", true⟩]))
    (by decide) rfl rfl rfl (fun _ => rfl)


end Aspen
